import Mathlib

/-!
# gimbaledCamera: partition of vessels into camera pictures

A verification development for `gimbaledCamera.cpp` / `gimbaledCamera.h`.

Modelling conventions.

* A C++ `double` is idealised as an element of a linearly ordered field `K`
  (no rounding, no NaN, no infinities).  The partitioning code is generic in `K`
  and in the value `pi` used for `M_PI`; it runs on `ℚ` and specialises to `ℝ`
  with `Real.pi`.
* The geodesy of the `RelativeVessel` constructor (`sin`, `cos`, `atan2`, `asin`,
  `sqrt`) is modelled over `ℝ` with the functions of the same name.
* `std::list<T>` is `List T`; an iterator range `[first, last)` is the list of the
  elements it spans.
* `front()` / `back()` of an empty `std::list` is undefined behaviour.  The C++
  code has no error path of its own, so a function that may reach such a call
  returns `Except Fault _`, and `Except.error` always stands for undefined
  behaviour, never for a reported error.
-/

namespace gimbaledCamera

/-! ## Data model (`gimbaledCamera.h`) -/

/-- Class `Vessel`: longitude and latitude in radians, and the name. -/
structure Vessel (K : Type) where
  lon : K
  lat : K
  name : String
deriving DecidableEq

/-- Class `RelativeVessel : public Vessel`: bearing (radians, zero is east),
distance (meters) and angular margin `asin(margin / dist)` (radians). -/
structure RelativeVessel (K : Type) extends Vessel K where
  bearing : K
  dist : K
  bearingMargin : K
deriving DecidableEq

/-- Class `Picture`: the list of vessels in the picture and its field of view. -/
structure Picture (K : Type) where
  vessels : List (RelativeVessel K)
  FOV : K
deriving DecidableEq

/-- Undefined behaviour the code can reach on a `std::list`. -/
inductive Fault where
  | frontOfEmptyList
  | backOfEmptyList
deriving DecidableEq, Repr

deriving instance DecidableEq for Except

section Core

variable {K : Type} [LinearOrderedField K]

/-- `RelativeVessel::getBearing`. -/
def RelativeVessel.getBearing (v : RelativeVessel K) : K := v.bearing

/-- `RelativeVessel::getMargin`. -/
def RelativeVessel.getMargin (v : RelativeVessel K) : K := v.bearingMargin

/-- `RelativeVessel::getBearingDeg`, with `pi` for `M_PI`. -/
def RelativeVessel.getBearingDeg (pi : K) (v : RelativeVessel K) : K := v.bearing * 180 / pi

/-- `RelativeVessel::getMarginDeg`, with `pi` for `M_PI`. -/
def RelativeVessel.getMarginDeg (pi : K) (v : RelativeVessel K) : K :=
  v.bearingMargin * 180 / pi

/-- `sortByBearing(a, b)`: the bearing of `a` is less than the bearing of `b`. -/
def sortByBearing (a b : RelativeVessel K) : Bool := decide (a.bearing < b.bearing)

/-- The order a sort with comparator `comp` establishes between neighbours:
`a` may stand before `b` unless `comp b a`. -/
def notAfter {α : Type} (comp : α → α → Bool) (a b : α) : Prop := comp b a = false

instance notAfter.decidable {α : Type} (comp : α → α → Bool) : DecidableRel (notAfter comp) :=
  fun a b => inferInstanceAs (Decidable (comp b a = false))

/-- `std::list::sort(comp)`: a stable sort (the order of equivalent elements is
preserved).  The library routine is not part of the repository; it is modelled by
stable insertion, which every stable sort agrees with on a strict weak order. -/
def listSort {α : Type} (comp : α → α → Bool) (l : List α) : List α :=
  l.insertionSort (notAfter comp)

/-- `std::list::front()`. -/
def front {α : Type} (l : List α) : Except Fault α :=
  match l with
  | [] => .error .frontOfEmptyList
  | x :: _ => .ok x

/-- `std::list::back()`. -/
def back {α : Type} (l : List α) : Except Fault α :=
  match l.getLast? with
  | none => .error .backOfEmptyList
  | some x => .ok x

/-- Constructor `Picture::Picture(FOVin, begin, end)`: `vessels.assign(begin, end)`;
`range` is the list of the elements of `[begin, end)`. -/
def Picture.ofRange (FOVin : K) (range : List (RelativeVessel K)) : Picture K :=
  { vessels := range, FOV := FOVin }

/-- `Picture::getVessels`. -/
def Picture.getVessels (p : Picture K) : List (RelativeVessel K) := p.vessels

/-- `Picture::countVessels`. -/
def Picture.countVessels (p : Picture K) : Nat := p.vessels.length

/-- `Picture::addVessel`: `vessels.push_back(vessel)`. -/
def Picture.addVessel (p : Picture K) (vessel : RelativeVessel K) : Picture K :=
  { p with vessels := p.vessels ++ [vessel] }

/-- `Picture::addVessels(newVessels, sort)`: `vessels.splice(vessels.begin(), newVessels)`
puts the new vessels in front of the present ones; they are sorted by bearing only
when `sort` is set (the default is `false`). -/
def Picture.addVessels (p : Picture K) (newVessels : List (RelativeVessel K)) (sort : Bool) :
    Picture K :=
  let spliced := newVessels ++ p.vessels
  { p with vessels := if sort then listSort sortByBearing spliced else spliced }

/-- The `for` loop of `makePictures` from the position `ptr` on.  `refVessel` is the
vessel the iterator `refVessel` points to, `group` the elements of `[refVessel, ptr)`,
and the third argument the elements of `[ptr, vessels.end())`.  A picture pushed by
`pictures.push_back` comes out in front of the pictures pushed later; when `ptr`
reaches `vessels.end()` the picture of `[refVessel, vessels.end())` is pushed.
`Picture picture(FOV, refVessel, ptr--)` passes the value `ptr` had before the
decrement, and `++ptr` restores it (at `vessels.begin()` as well, where the decrement
steps onto the end node of the circular list and the increment steps back). -/
def sweepLoop (FOV : K) (refVessel : RelativeVessel K) (group : List (RelativeVessel K)) :
    List (RelativeVessel K) → List (Picture K)
  | [] => [Picture.ofRange FOV group]
  | v :: rest =>
    let dBearing := (v.getBearing + v.getMargin) - (refVessel.getBearing - refVessel.getMargin)
    if dBearing ≥ FOV then
      Picture.ofRange FOV group :: sweepLoop FOV v [v] rest
    else
      sweepLoop FOV refVessel (group ++ [v]) rest

/-- The sweep of `makePictures` (lines 123-140) over the sorted list: `refVessel` and
`ptr` both start at `vessels.begin()`, so the range `[refVessel, ptr)` starts empty
and the first vessel is compared with itself.  On the empty list the loop body never
runs and the picture of `[end, end)` is pushed. -/
def sweep (FOV : K) (vessels : List (RelativeVessel K)) : List (Picture K) :=
  match vessels with
  | [] => [Picture.ofRange FOV []]
  | v :: _ => sweepLoop FOV v [] vessels

/-- The merge step of `makePictures` (lines 142-150).  `pictures.front()` and
`pictures.back()` are the same picture when the list has one element; `getVessels`
returns a copy, so `addVessels` then puts a copy of the picture's vessels in front
of its own, and `pop_back` removes the picture. -/
def mergeStep (pi FOV : K) (pictures : List (Picture K)) : Except Fault (List (Picture K)) :=
  match pictures with
  | [] => .error .frontOfEmptyList
  | first :: rest =>
    let last := (first :: rest).getLast (List.cons_ne_nil first rest)
    match back first.getVessels with
    | .error e => .error e
    | .ok vessel1 =>
      match front last.getVessels with
      | .error e => .error e
      | .ok vessel2 =>
        let dBearing := vessel1.getBearing + vessel1.getMargin
          + (2 * pi - vessel2.getBearing) + vessel2.getMargin
        if dBearing < FOV then
          .ok ((first.addVessels last.getVessels false :: rest).dropLast)
        else
          .ok (first :: rest)

/-- `makePictures(FOV, vessels)`, with `pi` for `M_PI`: convert the field of view to
radians, sort by bearing, sweep, merge the last picture into the first. -/
def makePictures (pi FOV : K) (vessels : List (RelativeVessel K)) :
    Except Fault (List (Picture K)) :=
  let FOV := FOV * (pi / 180)
  let vessels := listSort sortByBearing vessels
  mergeStep pi FOV (sweep FOV vessels)

instance notAfter_sortByBearing_total : IsTotal (RelativeVessel K) (notAfter sortByBearing) :=
  ⟨fun a b => by
    simp only [notAfter, sortByBearing, decide_eq_false_iff_not, not_lt]
    exact le_total _ _⟩

instance notAfter_sortByBearing_trans : IsTrans (RelativeVessel K) (notAfter sortByBearing) :=
  ⟨fun a b c hab hbc => by
    simp only [notAfter, sortByBearing, decide_eq_false_iff_not, not_lt] at *
    exact le_trans hab hbc⟩

/-! ### Notions used to state the properties -/

/-- Upper edge `bearing + margin` of the interval a vessel occupies. -/
def RelativeVessel.upperEdge (v : RelativeVessel K) : K := v.getBearing + v.getMargin

/-- Lower edge `bearing - margin` of the interval a vessel occupies. -/
def RelativeVessel.lowerEdge (v : RelativeVessel K) : K := v.getBearing - v.getMargin

/-- Maximum of `f` over the non-empty list `a :: l`. -/
def maxOver {α : Type} (f : α → K) (a : α) (l : List α) : K :=
  l.foldr (fun v acc => max (f v) acc) (f a)

/-- Minimum of `f` over the non-empty list `a :: l`. -/
def minOver {α : Type} (f : α → K) (a : α) (l : List α) : K :=
  l.foldr (fun v acc => min (f v) acc) (f a)

/-- Span of the union of the members' intervals `[bearing - margin, bearing + margin]`:
the maximum over the members of `bearing + margin` minus the minimum over the members
of `bearing - margin` (zero for a picture without members). -/
def Picture.span (p : Picture K) : K :=
  match p.vessels with
  | [] => 0
  | a :: rest =>
    maxOver RelativeVessel.upperEdge a rest - minOver RelativeVessel.lowerEdge a rest

/-- A group of vessels fits, margins included, inside one arc of width `FOV` on the
circle of bearings: for some start `θ` of the arc every member's interval, moved by a
whole number of turns, lies in `[θ, θ + FOV]`. -/
def fitsInArc (pi FOV : K) (g : List (RelativeVessel K)) : Prop :=
  ∃ θ : K, ∀ v ∈ g, ∃ k : ℤ,
    θ ≤ v.lowerEdge + 2 * pi * (k : K) ∧ v.upperEdge + 2 * pi * (k : K) ≤ θ + FOV

/-- A `RelativeVessel` with the given name, bearing and angular margin (radians).
`makePictures` reads no other field of a vessel; position and distance are left at
zero. -/
def vesselAt (name : String) (bearing margin : K) : RelativeVessel K :=
  { lon := 0, lat := 0, name := name, bearing := bearing, dist := 0, bearingMargin := margin }

end Core

/-! ### Positions: the constructors of `Vessel` and `RelativeVessel` -/

section Construct

variable {K : Type} [LinearOrderedField K]

/-- Constructor `Vessel::Vessel(latin, lonin, namein)`, with `pi` for `M_PI`: the
position is given in degrees and stored in radians. -/
def Vessel.construct (pi latin lonin : K) (namein : String) : Vessel K :=
  { lat := latin * pi / 180, lon := lonin * pi / 180, name := namein }

/-- `Vessel::getLon`. -/
def Vessel.getLon (v : Vessel K) : K := v.lon

/-- `Vessel::getLat`. -/
def Vessel.getLat (v : Vessel K) : K := v.lat

/-- `Vessel::getLonDeg`, with `pi` for `M_PI`. -/
def Vessel.getLonDeg (pi : K) (v : Vessel K) : K := v.lon * 180 / pi

/-- `Vessel::getLatDeg`, with `pi` for `M_PI`. -/
def Vessel.getLatDeg (pi : K) (v : Vessel K) : K := v.lat * 180 / pi

/-- `Vessel::getName`. -/
def Vessel.getName (v : Vessel K) : String := v.name

end Construct

noncomputable section Geodesy

/-- The function `atan2(y, x)` of `<cmath>` on real numbers: the angle in `(-π, π]` of
the point `(x, y)`, and `0` at the origin. -/
def atan2 (y x : ℝ) : ℝ := Complex.arg ⟨x, y⟩

/-- `RelativeVessel::computeBearing(drone)`; `self` is the `Vessel` part of the object
under construction (the method reads only `lat` and `lon`). -/
def RelativeVessel.computeBearing (self drone : Vessel ℝ) : ℝ :=
  let dLon := self.lon - drone.getLon
  let X := Real.cos self.lat * Real.sin dLon
  let Y := Real.cos drone.getLat * Real.sin self.lat
    - Real.sin drone.getLat * Real.cos self.lat * Real.cos dLon
  atan2 Y X

/-- `RelativeVessel::computeDistance(drone)`: the haversine distance. -/
def RelativeVessel.computeDistance (self drone : Vessel ℝ) : ℝ :=
  let dLat := self.lat - drone.getLat
  let dLon := self.lon - drone.getLon
  let a := Real.sin (dLat / 2) ^ 2
    + Real.sin (dLon / 2) ^ 2 * Real.cos drone.getLat * Real.cos self.lat
  let rad : ℝ := 6371000
  let c := 2 * Real.arcsin (Real.sqrt a)
  rad * c

/-- Constructor `RelativeVessel::RelativeVessel(latin, lonin, namein, drone, margin)`.
The C++ constructor has no failing path: it returns an object for every argument.  On
real numbers `asin` and the quotient are total (`Real.arcsin` is constant outside
`[-1, 1]`, and `x / 0 = 0`); what the `double` computation yields outside the domain
is described by `marginDefined`. -/
def RelativeVessel.construct (latin lonin : ℝ) (namein : String) (drone : Vessel ℝ)
    (margin : ℝ) : RelativeVessel ℝ :=
  let self := Vessel.construct Real.pi latin lonin namein
  let bearing := RelativeVessel.computeBearing self drone
  let dist := RelativeVessel.computeDistance self drone
  { toVessel := self, bearing := bearing, dist := dist,
    bearingMargin := Real.arcsin (margin / dist) }

/-- The `double` value `asin(margin / dist)` is a number (not NaN) exactly when the
quotient is a number of `[-1, 1]`: `dist` is not zero (`x / 0` is infinite or NaN) and
`|margin / dist| ≤ 1` (`asin` has a domain error elsewhere). -/
def marginDefined (margin dist : ℝ) : Prop := dist ≠ 0 ∧ |margin / dist| ≤ 1

/-- The drone of the test fixture (`testDataDrone` of `unittest.cpp`). -/
def testDataDrone : Vessel ℝ := Vessel.construct Real.pi 37.760132 (-122.3264815) "drone"

/-- Fixture vessel `Neo`, built with the default margin of 100 m. -/
def neo : RelativeVessel ℝ :=
  RelativeVessel.construct 37.77308 (-122.33451) "Neo" testDataDrone 100

/-- Fixture vessel `Morpheus`. -/
def morpheus : RelativeVessel ℝ :=
  RelativeVessel.construct 37.77728 (-122.34192) "Morpheus" testDataDrone 100

/-- Fixture vessel `Trinity`. -/
def trinity : RelativeVessel ℝ :=
  RelativeVessel.construct 37.75784 (-122.31716) "Trinity" testDataDrone 100

/-- Fixture vessel `Smith`. -/
def smith : RelativeVessel ℝ :=
  RelativeVessel.construct 37.76822 (-122.34187) "Smith" testDataDrone 100

/-- Fixture vessel `Cypher`. -/
def cypher : RelativeVessel ℝ :=
  RelativeVessel.construct 37.76002 (-122.30260) "Cypher" testDataDrone 100

/-- Fixture vessel `SmithS`. -/
def smithS : RelativeVessel ℝ :=
  RelativeVessel.construct 37.75913 (-122.34187) "SmithS" testDataDrone 100

/-- A vessel 0.001° (111 m) south of the fixture drone, built with the default margin of
100 m. -/
def closeVessel : RelativeVessel ℝ :=
  RelativeVessel.construct 37.759132 (-122.3264815) "close" testDataDrone 100

/-- The list `vessels` of `TEST(Pictures, MakePictures)`, in the order of `testData`. -/
def testData : List (RelativeVessel ℝ) := [neo, morpheus, trinity, smith, cypher, smithS]

end Geodesy

/-! ### Camera angles of a `Picture` -/

section Fmod

variable {K : Type} [LinearOrderedField K] [FloorRing K]

/-- The function `fmod(x, y)` of `<cmath>`: `x - n * y`, where `n` is the quotient `x / y`
with its fractional part cut off (rounded toward zero); the result has the sign of
`x`. -/
def fmod (x y : K) : K :=
  let q := x / y
  let n : ℤ := if 0 ≤ q then ⌊q⌋ else ⌈q⌉
  x - (n : K) * y

end Fmod

noncomputable section Camera

/-- The function `std::polar(r, theta)` of `<complex>`. -/
def polar (r theta : ℝ) : ℂ := ⟨r * Real.cos theta, r * Real.sin theta⟩

/-- The function `std::arg(z)` of `<complex>`: `atan2(imag(z), real(z))`. -/
def arg (z : ℂ) : ℝ := atan2 z.im z.re

/-- `Picture::getCameraAngleDeg(referenceSystem)`: the angle of the mean of the unit
vectors of the bearings of the first and the last vessel, as it is (`'E'` and any other
character), clockwise from north (`'N'`), or clockwise from north at the left side of
the frame (`'C'`).  `vessels.front()` and `vessels.back()` are undefined on a picture
without vessels. -/
def Picture.getCameraAngleDeg (p : Picture ℝ) (referenceSystem : Char) : Except Fault ℝ :=
  match front p.vessels with
  | .error e => .error e
  | .ok first =>
    match back p.vessels with
    | .error e => .error e
    | .ok last =>
      let bearing1 := first.getBearing
      let bearing2 := last.getBearing
      let a := polar 1 bearing1
      let b := polar 1 bearing2
      let mean := (a + b) / 2
      if referenceSystem = 'N' then
        .ok (fmod (450 - arg mean * 180 / Real.pi) 360)
      else if referenceSystem = 'C' then
        .ok (fmod (450 - (arg mean + p.FOV / 2) * 180 / Real.pi) 360)
      else
        .ok (arg mean * 180 / Real.pi)

/-- `Picture::getMaxAngularDistanceDeg()`: the angle of the quotient of the unit vectors
of the bearings of the last and the first vessel, in degrees. -/
def Picture.getMaxAngularDistanceDeg (p : Picture ℝ) : Except Fault ℝ :=
  match front p.vessels with
  | .error e => .error e
  | .ok first =>
    match back p.vessels with
    | .error e => .error e
    | .ok last =>
      let bearing1 := first.getBearing
      let bearing2 := last.getBearing
      let a := polar 1 bearing1
      let b := polar 1 bearing2
      let maxAngularDistance := b / a
      .ok (arg maxAngularDistance * 180 / Real.pi)

/-- The merged picture of two vessels at 179° and -179°, as `makePictures(80, ...)`
leaves it: the vessel at 179° first. -/
def seamPicture : Picture ℝ :=
  Picture.ofRange (80 * (Real.pi / 180))
    [vesselAt "high" (179 * Real.pi / 180) (1 / 64),
     vesselAt "low" (-179 * Real.pi / 180) (1 / 64)]

end Camera

/-! ### Concrete inputs -/

/-- The value of the `double` constant `M_PI`, `0x1.921fb54442d18p+1`, as a rational. -/
def M_PI : ℚ := 884279719003555 / 281474976710656

/-- A distant vessel north-east of the drone, margin 1/16 rad. -/
def farVessel1 : RelativeVessel ℚ := vesselAt "far1" (1 / 2) (1 / 16)

/-- Four vessels at bearings -170°, -80°, 10° and 170°, each with margin 1/64 rad. -/
def ringWest : RelativeVessel ℚ := vesselAt "w" (-170 * M_PI / 180) (1 / 64)

/-- See `ringWest`. -/
def ringSouth : RelativeVessel ℚ := vesselAt "s" (-80 * M_PI / 180) (1 / 64)

/-- See `ringWest`. -/
def ringEast : RelativeVessel ℚ := vesselAt "e" (10 * M_PI / 180) (1 / 64)

/-- See `ringWest`. -/
def ringWest2 : RelativeVessel ℚ := vesselAt "w2" (170 * M_PI / 180) (1 / 64)

/-- A vessel at bearing 0 with margin 1/64 rad. -/
def smallMargin : RelativeVessel ℚ := vesselAt "small" 0 (1 / 64)

/-- A vessel at bearing 1/64 rad, about 209 m away: margin 1/2 rad (29°). -/
def wideMargin : RelativeVessel ℚ := vesselAt "wide" (1 / 64) (1 / 2)

/-- A vessel at bearing -179° with margin 3/4 rad. -/
def seamLow : RelativeVessel ℚ := vesselAt "low" (-179 * M_PI / 180) (3 / 4)

/-- A vessel at bearing 179° with margin 1/64 rad. -/
def seamHigh : RelativeVessel ℚ := vesselAt "high" (179 * M_PI / 180) (1 / 64)

/-- A vessel at bearing -3 rad with margin 1/2 rad. -/
def tieA : RelativeVessel ℚ := vesselAt "a" (-3) (1 / 2)

/-- A vessel at bearing 3 rad with margin 1/16 rad. -/
def tieX : RelativeVessel ℚ := vesselAt "x" 3 (1 / 16)

/-- A vessel at the same bearing 3 rad as `tieX`, nearer: margin 1/4 rad. -/
def tieY : RelativeVessel ℚ := vesselAt "y" 3 (1 / 4)

/-- A vessel at bearing -3 rad with margin 1/16 rad. -/
def pairLow : RelativeVessel ℚ := vesselAt "lo" (-3) (1 / 16)

/-- A vessel at bearing 3 rad with margin 1/16 rad. -/
def pairHigh : RelativeVessel ℚ := vesselAt "hi" 3 (1 / 16)

/-! ### `makePictures` in the arithmetic of `double` -/

/-- Number of binary digits of `n`; `fuel` bounds the recursion, and `n` itself is
enough fuel. -/
def bitLength : ℕ → ℕ → ℕ
  | 0, _ => 0
  | fuel + 1, n => if n = 0 then 0 else bitLength fuel (n / 2) + 1

/-- The binary exponent of a rational `q` other than zero: the `e` with
`2 ^ e ≤ |q| < 2 ^ (e + 1)`. -/
def binade (q : ℚ) : ℤ :=
  let e0 : ℤ := (bitLength q.num.natAbs q.num.natAbs : ℤ) - (bitLength q.den q.den : ℤ)
  if |q| < 2 ^ e0 then e0 - 1 else e0

/-- Rounding to the nearest integer, a tie to the even one. -/
def roundEven (q : ℚ) : ℤ :=
  let f := ⌊q⌋
  if q - f < 1 / 2 then f
  else if 1 / 2 < q - f then f + 1
  else if f % 2 = 0 then f else f + 1

/-- The `double` nearest to `q` (IEEE 754 binary64, round to nearest, ties to even): `q`
rounded to 53 significant binary digits.  Overflow and subnormal numbers are not
modelled: the values of `makePictures` are bearings and sums of a few of them. -/
def roundDouble (q : ℚ) : ℚ :=
  if q = 0 then 0
  else
    let u : ℚ := 2 ^ (binade q - 52)
    (roundEven (q / u) : ℚ) * u

/-- The loop of the sweep (lines 125-137) as `sweepLoop`, with every sum and difference
rounded to a `double`. -/
def sweepLoopDouble (FOV : ℚ) (refVessel : RelativeVessel ℚ) (group : List (RelativeVessel ℚ)) :
    List (RelativeVessel ℚ) → List (Picture ℚ)
  | [] => [Picture.ofRange FOV group]
  | v :: rest =>
    let dBearing := roundDouble (roundDouble (v.getBearing + v.getMargin)
      - roundDouble (refVessel.getBearing - refVessel.getMargin))
    if dBearing ≥ FOV then
      Picture.ofRange FOV group :: sweepLoopDouble FOV v [v] rest
    else
      sweepLoopDouble FOV refVessel (group ++ [v]) rest

/-- The sweep (lines 123-140) as `sweep`, in the arithmetic of `double`. -/
def sweepDouble (FOV : ℚ) (vessels : List (RelativeVessel ℚ)) : List (Picture ℚ) :=
  match vessels with
  | [] => [Picture.ofRange FOV []]
  | v :: _ => sweepLoopDouble FOV v [] vessels

/-- The merge step (lines 142-150) as `mergeStep`, in the arithmetic of `double`: the sum
`bearing + margin + (2*M_PI - bearing) + margin` is evaluated from left to right and
rounded after each operation. -/
def mergeStepDouble (FOV : ℚ) (pictures : List (Picture ℚ)) :
    Except Fault (List (Picture ℚ)) :=
  match pictures with
  | [] => .error .frontOfEmptyList
  | first :: rest =>
    let last := (first :: rest).getLast (List.cons_ne_nil first rest)
    match back first.getVessels with
    | .error e => .error e
    | .ok vessel1 =>
      match front last.getVessels with
      | .error e => .error e
      | .ok vessel2 =>
        let dBearing := roundDouble (roundDouble
          (roundDouble (vessel1.getBearing + vessel1.getMargin)
            + roundDouble (roundDouble (2 * M_PI) - vessel2.getBearing))
          + vessel2.getMargin)
        if dBearing < FOV then
          .ok ((first.addVessels last.getVessels false :: rest).dropLast)
        else
          .ok (first :: rest)

/-- The function `makePictures(FOV, vessels)` as `makePictures`, in the arithmetic of
`double`: the vessels carry bearings and margins that are `double`s, `M_PI` is the
constant of `<cmath>`, and every arithmetic operation is rounded. -/
def makePicturesDouble (FOV : ℚ) (vessels : List (RelativeVessel ℚ)) :
    Except Fault (List (Picture ℚ)) :=
  let FOV := roundDouble (FOV * roundDouble (M_PI / 180))
  let vessels := listSort sortByBearing vessels
  mergeStepDouble FOV (sweepDouble FOV vessels)

/-- The vessel `RelativeVessel(-1, -1, "sw", Vessel(0, 0, "drone"), 0.)`: one degree south
and one degree west of the drone, with a margin length of 0 m, hence the margin
`asin(0 / dist) = 0`; its bearing is the `double` `-0x1.2d954916a92f2p+1`
(-2.3561183319710546 rad, -135°). -/
def southWest : RelativeVessel ℚ := vesselAt "sw" (-2652753410476409 / 1125899906842624) 0

/-! ### The angles of `<cmath>` at the ends of their range -/

noncomputable section DoubleAngles

/-- The function `atan2(y, x)` of `<cmath>` on `double`s, as far as the ends of its range
go.  The result is a `double`; `M_PI` is the `double` nearest to π and lies below it, and
no `double` lies between them, so an angle beyond `±M_PI` is returned as `±M_PI`: the
range is the closed interval `[-M_PI, M_PI]`, and `-M_PI` is returned for a point just
below the negative real axis.  The rounding of the result inside the range is not
modelled. -/
def atan2Double (y x : ℝ) : ℝ := max (-(M_PI : ℝ)) (min (M_PI : ℝ) (atan2 y x))

/-- The function `std::arg` on `std::complex<double>`: `atan2(imag, real)`. -/
def argDouble (z : ℂ) : ℝ := atan2Double z.im z.re

/-- `RelativeVessel::computeBearing(drone)` (lines 54-61) with the `atan2` of `double`s. -/
def RelativeVessel.computeBearingDouble (self drone : Vessel ℝ) : ℝ :=
  let dLon := self.lon - drone.getLon
  let X := Real.cos self.lat * Real.sin dLon
  let Y := Real.cos drone.getLat * Real.sin self.lat
    - Real.sin drone.getLat * Real.cos self.lat * Real.cos dLon
  atan2Double Y X

/-- `Picture::getMaxAngularDistanceDeg()` (lines 105-115) with the `std::arg` of `double`s
and the constant `M_PI`. -/
def Picture.getMaxAngularDistanceDegDouble (p : Picture ℝ) : Except Fault ℝ :=
  match front p.vessels with
  | .error e => .error e
  | .ok first =>
    match back p.vessels with
    | .error e => .error e
    | .ok last =>
      let bearing1 := first.getBearing
      let bearing2 := last.getBearing
      let a := polar 1 bearing1
      let b := polar 1 bearing2
      let maxAngularDistance := b / a
      .ok (argDouble maxAngularDistance * 180 / (M_PI : ℝ))

/-- Constructor `RelativeVessel::RelativeVessel(latin, lonin, namein, drone, margin)`
(lines 40-51) with the constant `M_PI` and the `atan2` of `double`s. -/
def RelativeVessel.constructDouble (latin lonin : ℝ) (namein : String) (drone : Vessel ℝ)
    (margin : ℝ) : RelativeVessel ℝ :=
  let self := Vessel.construct (M_PI : ℝ) latin lonin namein
  let bearing := RelativeVessel.computeBearingDouble self drone
  let dist := RelativeVessel.computeDistance self drone
  { toVessel := self, bearing := bearing, dist := dist,
    bearingMargin := Real.arcsin (margin / dist) }

/-- The drone `Vessel(0, 0, "drone")`. -/
def originDrone : Vessel ℝ := Vessel.construct (M_PI : ℝ) 0 0 "drone"

/-- A picture of a vessel due north of the drone (bearing `M_PI / 2`) followed by a vessel
due south of it (bearing `-M_PI / 2`). -/
def northSouthPicture : Picture ℝ :=
  Picture.ofRange (80 * ((M_PI : ℝ) / 180))
    [vesselAt "north" ((M_PI : ℝ) / 2) (1 / 64), vesselAt "south" (-(M_PI : ℝ) / 2) (1 / 64)]

end DoubleAngles

end gimbaledCamera

namespace gimbaledCamera

/-! ## Sorting by bearing -/

section SortLemmas

variable {K : Type} [LinearOrderedField K]

theorem notAfter_sortByBearing_iff (a b : RelativeVessel K) :
    notAfter sortByBearing a b ↔ a.bearing ≤ b.bearing := by
  simp [notAfter, sortByBearing]

theorem listSort_perm (l : List (RelativeVessel K)) : (listSort sortByBearing l).Perm l :=
  List.perm_insertionSort _ l

theorem listSort_sorted (l : List (RelativeVessel K)) :
    (listSort sortByBearing l).Sorted (notAfter sortByBearing) :=
  List.sorted_insertionSort _ l

theorem listSort_of_sorted {l : List (RelativeVessel K)}
    (h : l.Sorted (notAfter sortByBearing)) : listSort sortByBearing l = l :=
  List.Sorted.insertionSort_eq h

theorem listSort_nil : listSort sortByBearing ([] : List (RelativeVessel K)) = [] := rfl

theorem listSort_singleton (v : RelativeVessel K) : listSort sortByBearing [v] = [v] := rfl

theorem listSort_eq_nil_iff (l : List (RelativeVessel K)) :
    listSort sortByBearing l = [] ↔ l = [] := by
  constructor
  · intro h
    have := (listSort_perm l).length_eq
    rw [h] at this
    exact List.length_eq_zero.mp this.symm
  · rintro rfl
    rfl

/-- Inserting an element that is strictly after every element of `l₁` skips `l₁`. -/
theorem orderedInsert_append_of_lt (y : RelativeVessel K) (l₁ l₂ : List (RelativeVessel K))
    (h : ∀ x ∈ l₁, x.bearing < y.bearing) :
    List.orderedInsert (notAfter sortByBearing) y (l₁ ++ l₂)
      = l₁ ++ List.orderedInsert (notAfter sortByBearing) y l₂ := by
  induction l₁ with
  | nil => rfl
  | cons x l₁ ih =>
    have hx : ¬ notAfter sortByBearing y x := by
      rw [notAfter_sortByBearing_iff]
      exact not_le.mpr (h x (List.mem_cons_self _ _))
    have ih' := ih (fun x' hx' => h x' (List.mem_cons_of_mem _ hx'))
    show List.orderedInsert (notAfter sortByBearing) y (x :: (l₁ ++ l₂)) = _
    rw [List.orderedInsert, if_neg hx, ih']
    rfl

/-- Inserting in front of a sorted list whose head is not before the element. -/
theorem orderedInsert_of_sorted_cons (y : RelativeVessel K) (l : List (RelativeVessel K))
    (h : (y :: l).Sorted (notAfter sortByBearing)) :
    List.orderedInsert (notAfter sortByBearing) y l = y :: l := by
  cases l with
  | nil => rfl
  | cons z l =>
    have hz : notAfter sortByBearing y z := List.rel_of_sorted_cons h z (List.mem_cons_self _ _)
    simp [List.orderedInsert, hz]

/-- Stability at a strict boundary: when `l₁ ++ l₂` is sorted and every bearing of `l₁`
is strictly below every bearing of `l₂`, sorting `l₂ ++ l₁` restores `l₁ ++ l₂`. -/
theorem listSort_swap (l₁ l₂ : List (RelativeVessel K))
    (hs : (l₁ ++ l₂).Sorted (notAfter sortByBearing))
    (hlt : ∀ x ∈ l₁, ∀ y ∈ l₂, x.bearing < y.bearing) :
    listSort sortByBearing (l₂ ++ l₁) = l₁ ++ l₂ := by
  induction l₂ with
  | nil =>
    simp only [List.nil_append, List.append_nil] at hs ⊢
    exact listSort_of_sorted hs
  | cons y l₂ ih =>
    have hs' : (l₁ ++ l₂).Sorted (notAfter sortByBearing) := by
      refine List.Pairwise.sublist ?_ hs
      exact List.Sublist.append (List.Sublist.refl _) (List.sublist_cons_self _ _)
    have hs₂ : (y :: l₂).Sorted (notAfter sortByBearing) :=
      List.Pairwise.sublist (List.sublist_append_right _ _) hs
    have ih' := ih hs' (fun x hx z hz => hlt x hx z (List.mem_cons_of_mem _ hz))
    unfold listSort at ih' ⊢
    rw [List.cons_append, List.insertionSort, ih',
      orderedInsert_append_of_lt y l₁ l₂ (fun x hx => hlt x hx y (List.mem_cons_self _ _)),
      orderedInsert_of_sorted_cons y l₂ hs₂]

theorem sorted_le_getLast (l : List (RelativeVessel K))
    (hs : l.Sorted (notAfter sortByBearing)) (w : RelativeVessel K)
    (h : l.getLast? = some w) : ∀ x ∈ l, x.bearing ≤ w.bearing := by
  have hl : l.dropLast ++ [w] = l := List.dropLast_append_getLast? w h
  intro x hx
  rw [← hl] at hx hs
  rcases List.mem_append.mp hx with hx' | hx'
  · have := (List.pairwise_append.mp hs).2.2 x hx' w (List.mem_singleton_self w)
    exact (notAfter_sortByBearing_iff x w).mp this
  · rw [List.mem_singleton.mp hx']

theorem sorted_head_le (l : List (RelativeVessel K))
    (hs : l.Sorted (notAfter sortByBearing)) (w : RelativeVessel K)
    (h : l.head? = some w) : ∀ y ∈ l, w.bearing ≤ y.bearing := by
  cases l with
  | nil => simp at h
  | cons z t =>
    simp only [List.head?_cons, Option.some.injEq] at h
    subst h
    intro y hy
    rcases List.mem_cons.mp hy with rfl | hy'
    · exact le_refl _
    · exact (notAfter_sortByBearing_iff z y).mp (List.rel_of_sorted_cons hs y hy')

end SortLemmas

/-! ## The sweep -/

section SweepLemmas

variable {K : Type} [LinearOrderedField K]

theorem sweepLoop_ne_nil (FOV : K) (r : RelativeVessel K) (g l : List (RelativeVessel K)) :
    sweepLoop FOV r g l ≠ [] := by
  induction l generalizing r g with
  | nil => simp [sweepLoop]
  | cons v rest ih =>
    unfold sweepLoop
    simp only
    split
    · exact List.cons_ne_nil _ _
    · exact ih _ _

/-- The vessel lists of the pictures of the loop, put end to end, are the open group
followed by the vessels still to be visited. -/
theorem sweepLoop_flatten (FOV : K) (r : RelativeVessel K) (g l : List (RelativeVessel K)) :
    ((sweepLoop FOV r g l).map Picture.vessels).flatten = g ++ l := by
  induction l generalizing r g with
  | nil => simp [sweepLoop, Picture.ofRange]
  | cons v rest ih =>
    unfold sweepLoop
    simp only
    split
    · simp [Picture.ofRange, ih]
    · rw [ih]
      simp

/-- The first iteration of the sweep compares the first vessel with itself. -/
theorem sweep_cons (FOV : K) (v : RelativeVessel K) (rest : List (RelativeVessel K)) :
    sweep FOV (v :: rest)
      = if (v.getBearing + v.getMargin) - (v.getBearing - v.getMargin) ≥ FOV then
          Picture.ofRange FOV [] :: sweepLoop FOV v [v] rest
        else sweepLoop FOV v [v] rest := by
  simp [sweep, sweepLoop]

theorem sweep_ne_nil (FOV : K) (l : List (RelativeVessel K)) : sweep FOV l ≠ [] := by
  cases l with
  | nil => simp [sweep]
  | cons v rest => exact sweepLoop_ne_nil _ _ _ _

theorem sweep_flatten (FOV : K) (l : List (RelativeVessel K)) :
    ((sweep FOV l).map Picture.vessels).flatten = l := by
  cases l with
  | nil => simp [sweep, Picture.ofRange]
  | cons v rest =>
    show ((sweepLoop FOV v [] (v :: rest)).map Picture.vessels).flatten = v :: rest
    rw [sweepLoop_flatten]
    rfl

/-- Once the open group starts with the anchor, every picture of the loop starts with
its anchor, and each later member passed the test against that anchor. -/
theorem sweepLoop_anchored (FOV : K) (r : RelativeVessel K) (g l : List (RelativeVessel K))
    (hg : ∀ v ∈ g, (v.getBearing + v.getMargin) - (r.getBearing - r.getMargin) < FOV) :
    ∀ p ∈ sweepLoop FOV r (r :: g) l, ∃ a rest, p.vessels = a :: rest ∧ p.FOV = FOV ∧
      ∀ v ∈ rest, (v.getBearing + v.getMargin) - (a.getBearing - a.getMargin) < FOV := by
  induction l generalizing r g with
  | nil =>
    intro p hp
    simp only [sweepLoop, List.mem_singleton] at hp
    subst hp
    exact ⟨r, g, rfl, rfl, hg⟩
  | cons v rest ih =>
    intro p hp
    unfold sweepLoop at hp
    simp only at hp
    split at hp
    · rcases List.mem_cons.mp hp with h | h
      · subst h
        exact ⟨r, g, rfl, rfl, hg⟩
      · exact ih v [] (by simp) p h
    · rename_i hlt
      have hlt' := not_le.mp hlt
      refine ih r (g ++ [v]) ?_ p hp
      intro w hw
      rcases List.mem_append.mp hw with h | h
      · exact hg w h
      · rw [List.mem_singleton.mp h]
        exact hlt'

end SweepLemmas

/-! ## The merge step -/

section MergeLemmas

variable {K : Type} [LinearOrderedField K]

theorem back_eq_ok_iff {α : Type} (l : List α) (x : α) :
    back l = .ok x ↔ l.getLast? = some x := by
  unfold back
  cases h : l.getLast? <;> simp

theorem front_eq_ok_iff {α : Type} (l : List α) (x : α) :
    front l = .ok x ↔ l.head? = some x := by
  cases l <;> simp [front]

/-- With an empty first picture the merge step reads `back()` of an empty list. -/
theorem mergeStep_nil_first (pi FOV : K) (first : Picture K) (rest : List (Picture K))
    (h : first.vessels = []) :
    mergeStep pi FOV (first :: rest) = .error .backOfEmptyList := by
  simp [mergeStep, back, Picture.getVessels, h]

/-- The merge step on pictures whose first and last are not empty. -/
theorem mergeStep_cons (pi FOV : K) (first : Picture K) (rest : List (Picture K))
    (vessel1 vessel2 : RelativeVessel K)
    (h1 : first.vessels.getLast? = some vessel1)
    (h2 : ((first :: rest).getLast (List.cons_ne_nil first rest)).vessels.head? = some vessel2) :
    mergeStep pi FOV (first :: rest)
      = if vessel1.getBearing + vessel1.getMargin + (2 * pi - vessel2.getBearing)
            + vessel2.getMargin < FOV then
          .ok ((first.addVessels
            ((first :: rest).getLast (List.cons_ne_nil first rest)).getVessels false
              :: rest).dropLast)
        else .ok (first :: rest) := by
  have e1 : back first.getVessels = .ok vessel1 := (back_eq_ok_iff _ _).mpr h1
  have e2 : front ((first :: rest).getLast (List.cons_ne_nil first rest)).getVessels
      = .ok vessel2 := (front_eq_ok_iff _ _).mpr h2
  simp only [mergeStep, e1, e2]

/-- A call of `makePictures` that returns went through a sweep whose first vessel
passed the test against itself, so that no picture of the sweep is empty. -/
theorem makePictures_ok_inv (pi FOV : K) (vs : List (RelativeVessel K)) (ps : List (Picture K))
    (h : makePictures pi FOV vs = .ok ps) :
    ∃ v rest, listSort sortByBearing vs = v :: rest ∧
      (v.getBearing + v.getMargin) - (v.getBearing - v.getMargin) < FOV * (pi / 180) ∧
      sweep (FOV * (pi / 180)) (listSort sortByBearing vs)
        = sweepLoop (FOV * (pi / 180)) v [v] rest ∧
      mergeStep pi (FOV * (pi / 180)) (sweepLoop (FOV * (pi / 180)) v [v] rest) = .ok ps := by
  unfold makePictures at h
  simp only at h
  cases hs : listSort sortByBearing vs with
  | nil =>
    rw [hs] at h
    simp [sweep, mergeStep, back, Picture.getVessels, Picture.ofRange] at h
  | cons v rest =>
    rw [hs, sweep_cons] at h
    by_cases hc : (v.getBearing + v.getMargin) - (v.getBearing - v.getMargin) ≥ FOV * (pi / 180)
    · rw [if_pos hc, mergeStep_nil_first _ _ _ _ rfl] at h
      exact absurd h (by simp)
    · rw [if_neg hc] at h
      refine ⟨v, rest, rfl, not_le.mp hc, ?_, h⟩
      rw [sweep_cons, if_neg hc]

/-- What a merge step that returns has done. -/
theorem mergeStep_ok_cases (pi FOV : K) (first : Picture K) (rest ps : List (Picture K))
    (h : mergeStep pi FOV (first :: rest) = .ok ps) :
    ∃ vessel1 vessel2, first.vessels.getLast? = some vessel1 ∧
      ((first :: rest).getLast (List.cons_ne_nil first rest)).vessels.head? = some vessel2 ∧
      ((vessel1.getBearing + vessel1.getMargin + (2 * pi - vessel2.getBearing)
            + vessel2.getMargin < FOV ∧
          ps = (first.addVessels
            ((first :: rest).getLast (List.cons_ne_nil first rest)).getVessels false
              :: rest).dropLast) ∨
        (¬ (vessel1.getBearing + vessel1.getMargin + (2 * pi - vessel2.getBearing)
            + vessel2.getMargin < FOV) ∧ ps = first :: rest)) := by
  cases h1 : first.vessels.getLast? with
  | none =>
    have : first.vessels = [] := List.getLast?_eq_none_iff.mp h1
    rw [mergeStep_nil_first _ _ _ _ this] at h
    exact absurd h (by simp)
  | some vessel1 =>
    cases h2 : ((first :: rest).getLast (List.cons_ne_nil first rest)).vessels.head? with
    | none =>
      have e1 : back first.getVessels = .ok vessel1 := (back_eq_ok_iff _ _).mpr h1
      have e2 : ((first :: rest).getLast (List.cons_ne_nil first rest)).getVessels = [] :=
        List.head?_eq_none_iff.mp h2
      simp [mergeStep, e1, e2, front] at h
    | some vessel2 =>
      rw [mergeStep_cons pi FOV first rest vessel1 vessel2 h1 h2] at h
      refine ⟨vessel1, vessel2, rfl, rfl, ?_⟩
      by_cases hc : vessel1.getBearing + vessel1.getMargin + (2 * pi - vessel2.getBearing)
            + vessel2.getMargin < FOV
      · rw [if_pos hc] at h
        exact Or.inl ⟨hc, (Except.ok.inj h).symm⟩
      · rw [if_neg hc] at h
        exact Or.inr ⟨hc, (Except.ok.inj h).symm⟩

/-- The result of `makePictures` depends on the input only through the sorted list. -/
theorem makePictures_congr_sort (pi FOV : K) (l₁ l₂ : List (RelativeVessel K))
    (h : listSort sortByBearing l₁ = listSort sortByBearing l₂) :
    makePictures pi FOV l₁ = makePictures pi FOV l₂ := by
  unfold makePictures
  simp only [h]

/-- When the vessel of lowest bearing fails the test against itself, the sweep starts
with an empty picture and the merge step reads `back()` of its empty list. -/
theorem makePictures_first_wide (pi FOV : K) (vs : List (RelativeVessel K))
    (v : RelativeVessel K) (rest : List (RelativeVessel K))
    (hs : listSort sortByBearing vs = v :: rest)
    (hw : FOV * (pi / 180) ≤ (v.getBearing + v.getMargin) - (v.getBearing - v.getMargin)) :
    sweep (FOV * (pi / 180)) (listSort sortByBearing vs)
      = Picture.ofRange (FOV * (pi / 180)) [] :: sweepLoop (FOV * (pi / 180)) v [v] rest ∧
    makePictures pi FOV vs = .error .backOfEmptyList := by
  have h : sweep (FOV * (pi / 180)) (listSort sortByBearing vs)
      = Picture.ofRange (FOV * (pi / 180)) [] :: sweepLoop (FOV * (pi / 180)) v [v] rest := by
    rw [hs, sweep_cons, if_pos hw]
  refine ⟨h, ?_⟩
  unfold makePictures
  simp only [h]
  exact mergeStep_nil_first _ _ _ _ rfl

/-- A single vessel that passes the test against itself: the sweep makes one picture,
which the merge step merges into itself and pops when `2 * pi + 2 * margin < FOV`. -/
theorem makePictures_single (pi FOV : K) (v : RelativeVessel K)
    (h : (v.getBearing + v.getMargin) - (v.getBearing - v.getMargin) < FOV * (pi / 180)) :
    makePictures pi FOV [v]
      = if v.getBearing + v.getMargin + (2 * pi - v.getBearing) + v.getMargin
            < FOV * (pi / 180) then .ok []
        else .ok [Picture.ofRange (FOV * (pi / 180)) [v]] := by
  unfold makePictures
  simp only [listSort_singleton, sweep_cons, if_neg (not_le.mpr h), sweepLoop]
  rw [mergeStep_cons pi (FOV * (pi / 180)) (Picture.ofRange (FOV * (pi / 180)) [v]) [] v v
    rfl rfl]
  rfl

/-- When the field of view is at most a full turn and no margin is negative, a call of
`makePictures` that returns neither drops nor duplicates a vessel: the vessel lists of
the pictures, put end to end, are a permutation of the input. -/
theorem makePictures_perm (pi FOV : K) (vs : List (RelativeVessel K)) (ps : List (Picture K))
    (h : makePictures pi FOV vs = .ok ps) (hF : FOV * (pi / 180) ≤ 2 * pi)
    (hmar : ∀ v ∈ vs, 0 ≤ v.getMargin) :
    ((ps.map Picture.vessels).flatten).Perm vs := by
  obtain ⟨v, rest, hs, _, _, hm⟩ := makePictures_ok_inv pi FOV vs ps h
  have hflat := sweepLoop_flatten (FOV * (pi / 180)) v [v] rest
  have hsorted := listSort_sorted vs
  have hperm := listSort_perm vs
  rw [hs] at hsorted hperm
  cases hp : sweepLoop (FOV * (pi / 180)) v [v] rest with
  | nil => exact absurd hp (sweepLoop_ne_nil _ _ _ _)
  | cons first restp =>
    rw [hp] at hm hflat
    simp only [List.singleton_append] at hflat
    obtain ⟨v1, v2, h1, h2, hcase⟩ := mergeStep_ok_cases pi _ first restp ps hm
    rcases hcase with ⟨hgap, hps⟩ | ⟨_, hps⟩
    · cases restp using List.reverseRecOn with
      | nil =>
        exfalso
        simp only [List.map_cons, List.map_nil, List.flatten_cons, List.flatten_nil,
          List.append_nil] at hflat
        simp only [List.getLast_singleton] at h2
        rw [hflat] at h1 h2
        have hle : v2.bearing ≤ v1.bearing :=
          sorted_head_le _ hsorted v2 h2 v1 (List.mem_of_getLast?_eq_some h1)
        have m1 : 0 ≤ v1.getMargin :=
          hmar v1 (hperm.subset (List.mem_of_getLast?_eq_some h1))
        have m2 : 0 ≤ v2.getMargin := hmar v2 (hperm.subset (List.mem_of_mem_head? h2))
        simp only [RelativeVessel.getBearing] at hgap
        linarith
      | append_singleton mid last _ =>
        have hlast : (first :: (mid ++ [last])).getLast (List.cons_ne_nil _ _) = last := by
          simp
        rw [hlast] at hps
        have hdrop : (first.addVessels last.getVessels false :: (mid ++ [last])).dropLast
            = first.addVessels last.getVessels false :: mid := by
          rw [← List.cons_append, List.dropLast_concat]
        rw [hdrop] at hps
        subst hps
        refine List.Perm.trans ?_ hperm
        rw [← hflat]
        simp only [List.map_cons, List.map_append, List.map_nil, List.flatten_cons,
          List.flatten_append, List.flatten_nil, List.append_nil, Picture.addVessels,
          Picture.getVessels, Bool.false_eq_true, if_false]
        rw [List.append_assoc]
        exact List.perm_append_comm.trans (by rw [List.append_assoc])
    · subst hps
      rw [hflat]
      exact hperm

/-- Under the same conditions the vessel counts of the returned pictures add up to the
number of input vessels. -/
theorem makePictures_count (pi FOV : K) (vs : List (RelativeVessel K)) (ps : List (Picture K))
    (h : makePictures pi FOV vs = .ok ps) (hF : FOV * (pi / 180) ≤ 2 * pi)
    (hmar : ∀ v ∈ vs, 0 ≤ v.getMargin) :
    (ps.map Picture.countVessels).sum = vs.length := by
  have hp := (makePictures_perm pi FOV vs ps h hF hmar).length_eq
  rw [List.length_flatten, List.map_map] at hp
  exact hp

/-- Two vessels at -179° and 179°: when the vessel at -179° passes the test against
itself, the two do not fit one behind the other, and `2° + margins` is below the field
of view, the merge step returns the one picture of both. -/
theorem seam_pair_grouped (pi FOV : K) (a b : RelativeVessel K) (hpi : 0 < pi)
    (ha : a.bearing = -179 * pi / 180) (hb : b.bearing = 179 * pi / 180)
    (h1 : 2 * a.bearingMargin < FOV * (pi / 180))
    (h2 : FOV * (pi / 180) ≤ 358 * pi / 180 + a.bearingMargin + b.bearingMargin)
    (h3 : 2 * pi / 180 + a.bearingMargin + b.bearingMargin < FOV * (pi / 180)) :
    makePictures pi FOV [a, b] = .ok [Picture.ofRange (FOV * (pi / 180)) [b, a]] ∧
    makePictures pi FOV [b, a] = .ok [Picture.ofRange (FOV * (pi / 180)) [b, a]] := by
  have hab : a.bearing < b.bearing := by rw [ha, hb]; linarith
  have hs1 : listSort sortByBearing [a, b] = [a, b] := by
    simp only [listSort, List.insertionSort, List.orderedInsert, notAfter_sortByBearing_iff,
      hab.le, if_true]
  have hs2 : listSort sortByBearing [b, a] = [a, b] := by
    simp only [listSort, List.insertionSort, List.orderedInsert, notAfter_sortByBearing_iff,
      not_le.mpr hab, if_false]
  have g1 : ¬ (a.getBearing + a.getMargin) - (a.getBearing - a.getMargin)
      ≥ FOV * (pi / 180) := by
    simp only [RelativeVessel.getBearing, RelativeVessel.getMargin]
    linarith
  have g2 : (b.getBearing + b.getMargin) - (a.getBearing - a.getMargin)
      ≥ FOV * (pi / 180) := by
    simp only [RelativeVessel.getBearing, RelativeVessel.getMargin, ha, hb]
    linarith
  have g3 : a.getBearing + a.getMargin + (2 * pi - b.getBearing) + b.getMargin
      < FOV * (pi / 180) := by
    simp only [RelativeVessel.getBearing, RelativeVessel.getMargin, ha, hb]
    linarith
  have hsw : sweep (FOV * (pi / 180)) [a, b]
      = [Picture.ofRange (FOV * (pi / 180)) [a], Picture.ofRange (FOV * (pi / 180)) [b]] := by
    simp only [sweep, sweepLoop, g1, g2, if_true, if_false, List.nil_append]
  have key : mergeStep pi (FOV * (pi / 180)) (sweep (FOV * (pi / 180)) [a, b])
      = .ok [Picture.ofRange (FOV * (pi / 180)) [b, a]] := by
    rw [hsw, mergeStep_cons pi (FOV * (pi / 180)) (Picture.ofRange (FOV * (pi / 180)) [a])
      [Picture.ofRange (FOV * (pi / 180)) [b]] a b rfl rfl, if_pos g3]
    rfl
  constructor
  · unfold makePictures
    simp only [hs1]
    exact key
  · unfold makePictures
    simp only [hs2]
    exact key

end MergeLemmas

/-! ## Spans -/

section SpanLemmas

variable {K : Type} [LinearOrderedField K]

theorem maxOver_lt {α : Type} (f : α → K) (a : α) (l : List α) (c : K)
    (ha : f a < c) (hl : ∀ v ∈ l, f v < c) : maxOver f a l < c := by
  induction l with
  | nil => exact ha
  | cons w l ih =>
    show max (f w) (maxOver f a l) < c
    exact max_lt (hl w (List.mem_cons_self _ _))
      (ih (fun v hv => hl v (List.mem_cons_of_mem _ hv)))

theorem le_minOver {α : Type} (f : α → K) (a : α) (l : List α) (c : K)
    (ha : c ≤ f a) (hl : ∀ v ∈ l, c ≤ f v) : c ≤ minOver f a l := by
  induction l with
  | nil => exact ha
  | cons w l ih =>
    show c ≤ min (f w) (minOver f a l)
    exact le_min (hl w (List.mem_cons_self _ _))
      (ih (fun v hv => hl v (List.mem_cons_of_mem _ hv)))

end SpanLemmas

/-! ## The shape of the fixture -/

section Shape

variable {K : Type} [LinearOrderedField K]

/-- Six vessels given in the order of the fixture, of which `z`, `t`, `c`, `n`, `m`, `s`
have increasing bearings, `t` does not fit behind `z`, `c` fits behind `t`, `n` does
not, `m` and `s` fit behind `n`, and the gap from `n` across the seam to `z` is below
the field of view: the sweep makes `[z]`, `[t, c]`, `[n, m, s]`, and the merge step
puts the last picture in front of the first. -/
theorem makePictures_six (pi FOV : K) (n m t s c z : RelativeVessel K)
    (hzt : z.bearing < t.bearing) (htc : t.bearing < c.bearing)
    (hcn : c.bearing < n.bearing) (hnm : n.bearing < m.bearing)
    (hms : m.bearing < s.bearing)
    (h1 : (z.bearing + z.bearingMargin) - (z.bearing - z.bearingMargin) < FOV * (pi / 180))
    (h2 : FOV * (pi / 180) ≤ (t.bearing + t.bearingMargin) - (z.bearing - z.bearingMargin))
    (h3 : (c.bearing + c.bearingMargin) - (t.bearing - t.bearingMargin) < FOV * (pi / 180))
    (h4 : FOV * (pi / 180) ≤ (n.bearing + n.bearingMargin) - (t.bearing - t.bearingMargin))
    (h5 : (m.bearing + m.bearingMargin) - (n.bearing - n.bearingMargin) < FOV * (pi / 180))
    (h6 : (s.bearing + s.bearingMargin) - (n.bearing - n.bearingMargin) < FOV * (pi / 180))
    (h7 : z.bearing + z.bearingMargin + (2 * pi - n.bearing) + n.bearingMargin
      < FOV * (pi / 180)) :
    makePictures pi FOV [n, m, t, s, c, z]
      = .ok [Picture.ofRange (FOV * (pi / 180)) [n, m, s, z],
             Picture.ofRange (FOV * (pi / 180)) [t, c]] := by
  have hsort : listSort sortByBearing [n, m, t, s, c, z] = [z, t, c, n, m, s] := by
    have hzc := lt_trans hzt htc
    have hzn := lt_trans hzc hcn
    have hzm := lt_trans hzn hnm
    have hzs := lt_trans hzm hms
    have htn := lt_trans htc hcn
    have htm := lt_trans htn hnm
    have hts := lt_trans htm hms
    have hcm := lt_trans hcn hnm
    have hcs := lt_trans hcm hms
    have hns := lt_trans hnm hms
    simp only [listSort, List.insertionSort, List.orderedInsert, notAfter_sortByBearing_iff,
      hzt.le, htc.le, hcn.le, hnm.le, hms.le, hzc.le, hzn.le, hzm.le, hzs.le, htn.le, htm.le,
      hts.le, hcm.le, hcs.le, hns.le, not_le.mpr hzt, not_le.mpr htc, not_le.mpr hcn,
      not_le.mpr hnm, not_le.mpr hms, not_le.mpr hzc, not_le.mpr hzn, not_le.mpr hzm,
      not_le.mpr hzs, not_le.mpr htn, not_le.mpr htm, not_le.mpr hts, not_le.mpr hcm,
      not_le.mpr hcs, not_le.mpr hns, if_true, if_false]
  unfold makePictures
  simp only [hsort]
  have g2 : (t.getBearing + t.getMargin) - (z.getBearing - z.getMargin) ≥ FOV * (pi / 180) := h2
  have g4 : (n.getBearing + n.getMargin) - (t.getBearing - t.getMargin) ≥ FOV * (pi / 180) := h4
  have g1 : ¬ (z.getBearing + z.getMargin) - (z.getBearing - z.getMargin) ≥ FOV * (pi / 180) :=
    not_le.mpr h1
  have g3 : ¬ (c.getBearing + c.getMargin) - (t.getBearing - t.getMargin) ≥ FOV * (pi / 180) :=
    not_le.mpr h3
  have g5 : ¬ (m.getBearing + m.getMargin) - (n.getBearing - n.getMargin) ≥ FOV * (pi / 180) :=
    not_le.mpr h5
  have g6 : ¬ (s.getBearing + s.getMargin) - (n.getBearing - n.getMargin) ≥ FOV * (pi / 180) :=
    not_le.mpr h6
  have g7 : z.getBearing + z.getMargin + (2 * pi - n.getBearing) + n.getMargin
      < FOV * (pi / 180) := h7
  have hsweep : sweep (FOV * (pi / 180)) [z, t, c, n, m, s]
      = [Picture.ofRange (FOV * (pi / 180)) [z], Picture.ofRange (FOV * (pi / 180)) [t, c],
         Picture.ofRange (FOV * (pi / 180)) [n, m, s]] := by
    simp only [sweep, sweepLoop, g1, g2, g3, g4, g5, g6, if_true, if_false,
      List.nil_append, List.cons_append]
  rw [hsweep]
  rw [mergeStep_cons pi (FOV * (pi / 180)) (Picture.ofRange (FOV * (pi / 180)) [z])
    [Picture.ofRange (FOV * (pi / 180)) [t, c], Picture.ofRange (FOV * (pi / 180)) [n, m, s]]
    z n rfl rfl, if_pos g7]
  rfl

end Shape

/-! ## Real analysis for the fixture -/

section Analysis

open Real

/-- On `[0, 0.001]` the sine is within one part in a million of its argument. -/
theorem sin_small (t : ℝ) (h0 : 0 ≤ t) (h1 : t ≤ 0.001) :
    0.999999 * t ≤ sin t ∧ sin t ≤ t := by
  refine ⟨?_, Real.sin_le h0⟩
  rcases eq_or_lt_of_le h0 with h | h
  · rw [← h]; simp
  · have := Real.sin_gt_sub_cube h (by linarith)
    have h2 : t ^ 3 ≤ 0.000001 * t := by
      have : t ^ 2 ≤ 0.001 ^ 2 := pow_le_pow_left₀ h0 h1 2
      nlinarith
    linarith

/-- The cosine at the latitudes of the fixture (radians). -/
theorem cos_lat_bounds (x : ℝ) (h1 : 0.658 ≤ x) (h2 : x ≤ 0.66) :
    0.78 ≤ cos x ∧ cos x ≤ 0.8 := by
  constructor
  · have := Real.one_sub_sq_div_two_le_cos (x := x)
    nlinarith
  · have hb := Real.cos_bound (x := x) (by rw [abs_le]; constructor <;> linarith)
    have hx : |x| = x := abs_of_nonneg (by linarith)
    rw [hx] at hb
    have := (abs_le.mp hb).2
    have h4 : x ^ 4 ≤ 0.66 ^ 4 := pow_le_pow_left₀ (by linarith) h2 4
    have h22 : 0.658 ^ 2 ≤ x ^ 2 := pow_le_pow_left₀ (by norm_num) h1 2
    norm_num at h4 h22
    linarith

/-- Comparison with a multiple of a square root, by squares. -/
theorem le_mul_sqrt_of_sq_le (w s D : ℝ) (hw : 0 ≤ w) (hs : 0 ≤ s)
    (h : w ^ 2 ≤ s ^ 2 * D) : w ≤ s * √D := by
  calc w = √(w ^ 2) := (Real.sqrt_sq hw).symm
    _ ≤ √(s ^ 2 * D) := Real.sqrt_le_sqrt h
    _ = s * √D := by rw [Real.sqrt_mul (by positivity), Real.sqrt_sq hs]

/-- Comparison of a multiple of a square root, by squares. -/
theorem mul_sqrt_le_of_sq_le (w g D : ℝ) (hw : 0 ≤ w) (hg : 0 ≤ g)
    (h : g ^ 2 * D ≤ w ^ 2) : g * √D ≤ w := by
  calc g * √D = √(g ^ 2 * D) := by rw [Real.sqrt_mul (by positivity), Real.sqrt_sq hg]
    _ ≤ √(w ^ 2) := Real.sqrt_le_sqrt h
    _ = w := Real.sqrt_sq hw

/-- The angle of the point `(u, w)`, `0 ≤ w ≤ T u`, is below `g` when `T` is at most the
tangent of an angle whose sine is `g - g³/4`. -/
theorem arcsin_ratio_lt (u w T g : ℝ) (hu : 0 < u) (hw : 0 ≤ w) (hT : w ≤ T * u)
    (hg0 : 0 < g) (hg1 : g ≤ 1)
    (hnum : T ^ 2 * (1 - (g - g ^ 3 / 4) ^ 2) ≤ (g - g ^ 3 / 4) ^ 2) :
    arcsin (w / √(u ^ 2 + w ^ 2)) < g := by
  have hs := Real.sin_gt_sub_cube hg0 hg1
  obtain ⟨s, hsdef⟩ : ∃ s, s = g - g ^ 3 / 4 := ⟨_, rfl⟩
  rw [← hsdef] at hs hnum
  have hs0 : 0 < s := by
    have : g ^ 3 ≤ g := by
      have : g ^ 2 ≤ 1 := by nlinarith
      nlinarith
    rw [hsdef]; linarith
  have hs1 : s < 1 := lt_of_lt_of_le hs (Real.sin_le_one g)
  have hD : 0 < u ^ 2 + w ^ 2 := by positivity
  have hsq : 0 < √(u ^ 2 + w ^ 2) := Real.sqrt_pos.mpr hD
  have hw2 : w ^ 2 ≤ T ^ 2 * u ^ 2 := by
    have := pow_le_pow_left₀ hw hT 2
    rwa [mul_pow] at this
  have hkey : w ^ 2 ≤ s ^ 2 * (u ^ 2 + w ^ 2) := by
    have h1 : 0 ≤ 1 - s ^ 2 := by nlinarith
    have h2 : w ^ 2 * (1 - s ^ 2) ≤ T ^ 2 * u ^ 2 * (1 - s ^ 2) :=
      mul_le_mul_of_nonneg_right hw2 h1
    have h3 : T ^ 2 * (1 - s ^ 2) * u ^ 2 ≤ s ^ 2 * u ^ 2 :=
      mul_le_mul_of_nonneg_right hnum (by positivity)
    nlinarith
  have hr : w / √(u ^ 2 + w ^ 2) ≤ s := by
    rw [div_le_iff₀ hsq]
    exact le_mul_sqrt_of_sq_le w s _ hw hs0.le hkey
  have hr0 : 0 ≤ w / √(u ^ 2 + w ^ 2) := div_nonneg hw hsq.le
  have hpi : g ≤ π / 2 := by have := Real.pi_gt_three; linarith
  have hr1 : w / √(u ^ 2 + w ^ 2) ≤ 1 := by linarith
  have hneg : -(π / 2) ≤ g := by have := Real.pi_gt_three; linarith
  rw [Real.arcsin_lt_iff_lt_sin ⟨by linarith, hr1⟩ ⟨hneg, hpi⟩]
  linarith

/-- The angle of the point `(u, w)`, `T u ≤ w`, is at least `g` when `g` is at most the
sine of the angle of tangent `T`. -/
theorem le_arcsin_ratio (u w T g : ℝ) (hu : 0 < u) (hT0 : 0 ≤ T) (hT : T * u ≤ w)
    (hg0 : 0 ≤ g) (hg1 : g ≤ 1) (hnum : g ^ 2 * (1 + T ^ 2) ≤ T ^ 2) :
    g ≤ arcsin (w / √(u ^ 2 + w ^ 2)) := by
  have hw : 0 ≤ w := le_trans (mul_nonneg hT0 hu.le) hT
  have hD : 0 < u ^ 2 + w ^ 2 := by positivity
  have hsq : 0 < √(u ^ 2 + w ^ 2) := Real.sqrt_pos.mpr hD
  have hw2 : T ^ 2 * u ^ 2 ≤ w ^ 2 := by
    have := pow_le_pow_left₀ (mul_nonneg hT0 hu.le) hT 2
    rwa [mul_pow] at this
  have hkey : g ^ 2 * (u ^ 2 + w ^ 2) ≤ w ^ 2 := by
    have h1 : 0 ≤ 1 - g ^ 2 := by nlinarith
    have h2 : T ^ 2 * u ^ 2 * (1 - g ^ 2) ≤ w ^ 2 * (1 - g ^ 2) :=
      mul_le_mul_of_nonneg_right hw2 h1
    have h3 : g ^ 2 * (1 + T ^ 2) * u ^ 2 ≤ T ^ 2 * u ^ 2 :=
      mul_le_mul_of_nonneg_right hnum (by positivity)
    nlinarith
  have hr : g ≤ w / √(u ^ 2 + w ^ 2) := by
    rw [le_div_iff₀ hsq]
    exact mul_sqrt_le_of_sq_le w g _ hw hg0 hkey
  have hr1 : w / √(u ^ 2 + w ^ 2) ≤ 1 := by
    rw [div_le_one hsq]
    calc w = √(w ^ 2) := (Real.sqrt_sq hw).symm
      _ ≤ √(u ^ 2 + w ^ 2) := Real.sqrt_le_sqrt (by nlinarith)
  have hpi : g ≤ π / 2 := by have := Real.pi_gt_three; linarith
  have hneg : -(π / 2) ≤ g := by have := Real.pi_gt_three; linarith
  rw [Real.le_arcsin_iff_sin_le ⟨hneg, hpi⟩ ⟨by linarith, hr1⟩]
  exact le_trans (Real.sin_le hg0) hr

/-- The term `Y` of `computeBearing` is `sin (lat - lat0)` up to `x² / 2`. -/
theorem Y_bounds (lat0 lat x : ℝ) (h0 : 0 ≤ sin lat0) (hc : 0 ≤ cos lat) :
    sin (lat - lat0) ≤ cos lat0 * sin lat - sin lat0 * cos lat * cos x ∧
    cos lat0 * sin lat - sin lat0 * cos lat * cos x ≤ sin (lat - lat0) + x ^ 2 / 2 := by
  have e : cos lat0 * sin lat - sin lat0 * cos lat * cos x
      = sin (lat - lat0) + sin lat0 * cos lat * (1 - cos x) := by
    rw [Real.sin_sub]; ring
  rw [e]
  have h1 : 0 ≤ 1 - cos x := by linarith [Real.cos_le_one x]
  have h2 : 1 - cos x ≤ x ^ 2 / 2 := by linarith [Real.one_sub_sq_div_two_le_cos (x := x)]
  have hp : 0 ≤ sin lat0 * cos lat := mul_nonneg h0 hc
  have hp1 : sin lat0 * cos lat ≤ 1 := by
    calc sin lat0 * cos lat ≤ 1 * 1 :=
          mul_le_mul (Real.sin_le_one _) (Real.cos_le_one _) hc (by norm_num)
      _ = 1 := by norm_num
  constructor
  · have := mul_nonneg hp h1
    linarith
  · have : sin lat0 * cos lat * (1 - cos x) ≤ 1 * (x ^ 2 / 2) :=
      mul_le_mul hp1 h2 h1 (by norm_num)
    linarith

/-- `atan2` in the upper half plane. -/
theorem arg_NW (X Y : ℝ) (hY : 0 < Y) :
    Complex.arg ⟨X, Y⟩ = π / 2 + arcsin (-X / √(Y ^ 2 + (-X) ^ 2)) := by
  rw [Complex.arg_of_im_pos (by simpa using hY), Real.arccos_eq_pi_div_two_sub_arcsin]
  have e : Complex.abs ⟨X, Y⟩ = √(Y ^ 2 + (-X) ^ 2) := by
    rw [Complex.abs_apply, Complex.normSq_mk]
    congr 1; ring
  rw [e, neg_div, Real.arcsin_neg]
  ring

/-- `atan2` in the right half plane. -/
theorem arg_SE (X Y : ℝ) (hX : 0 < X) :
    Complex.arg ⟨X, Y⟩ = -arcsin (-Y / √(X ^ 2 + (-Y) ^ 2)) := by
  rw [Complex.arg_of_re_nonneg (by simpa using hX.le)]
  have e : Complex.abs ⟨X, Y⟩ = √(X ^ 2 + (-Y) ^ 2) := by
    rw [Complex.abs_apply, Complex.normSq_mk]
    congr 1; ring
  rw [e, neg_div, Real.arcsin_neg]
  simp

/-- `atan2` in the lower left quadrant. -/
theorem arg_SW (X Y : ℝ) (hX : X < 0) (hY : Y < 0) :
    Complex.arg ⟨X, Y⟩ = arcsin (-Y / √((-X) ^ 2 + (-Y) ^ 2)) - π := by
  rw [Complex.arg_of_re_neg_of_im_neg (by simpa using hX) (by simpa using hY)]
  have e : Complex.abs ⟨X, Y⟩ = √((-X) ^ 2 + (-Y) ^ 2) := by
    rw [Complex.abs_apply, Complex.normSq_mk]
    congr 1; ring
  rw [e]
  simp

/-- The margin `asin(100 / dist)` is in `[0, g)` when `dist` is at least `100 / (g - g³/4)`. -/
theorem margin_bounds (dist g : ℝ) (hg0 : 0 < g) (hg1 : g ≤ 1)
    (hd : 100 ≤ (g - g ^ 3 / 4) * dist) :
    0 ≤ arcsin (100 / dist) ∧ arcsin (100 / dist) < g := by
  have hs := Real.sin_gt_sub_cube hg0 hg1
  obtain ⟨s, hsdef⟩ : ∃ s, s = g - g ^ 3 / 4 := ⟨_, rfl⟩
  rw [← hsdef] at hs hd
  have hs0 : 0 < s := by
    have : g ^ 3 ≤ g := by
      have : g ^ 2 ≤ 1 := by nlinarith
      nlinarith
    rw [hsdef]; linarith
  have hdist : 0 < dist := by
    by_contra hneg
    push_neg at hneg
    nlinarith
  have hq0 : 0 ≤ 100 / dist := by positivity
  have hq : 100 / dist ≤ s := by
    rw [div_le_iff₀ hdist]; exact hd
  have hs1 : s < 1 := lt_of_lt_of_le hs (Real.sin_le_one g)
  refine ⟨Real.arcsin_nonneg.mpr hq0, ?_⟩
  have hpi : g ≤ π / 2 := by have := Real.pi_gt_three; linarith
  have hneg : -(π / 2) ≤ g := by have := Real.pi_gt_three; linarith
  rw [Real.arcsin_lt_iff_lt_sin ⟨by linarith, by linarith⟩ ⟨hneg, hpi⟩]
  linarith

/-- The haversine distance is at least the chord `2 R q` for `q² ≤ a`. -/
theorem haversine_ge (a q : ℝ) (hq0 : 0 ≤ q) (hq1 : q ≤ 1) (hqa : q ^ 2 ≤ a) :
    q * 12742000 ≤ 6371000 * (2 * arcsin (√a)) := by
  have h1 : q ≤ √a := (Real.le_sqrt hq0 (le_trans (sq_nonneg q) hqa)).mpr hqa
  have hpi : q ≤ π / 2 := by have := Real.pi_gt_three; linarith
  have hneg : -(π / 2) ≤ q := by have := Real.pi_gt_three; linarith
  have h2 : q ≤ arcsin q := by
    rw [Real.le_arcsin_iff_sin_le ⟨hneg, hpi⟩ ⟨by linarith, hq1⟩]
    exact Real.sin_le hq0
  have h3 : arcsin q ≤ arcsin (√a) := Real.monotone_arcsin h1
  linarith

/-- Bearing of a vessel north-west of the drone (`x` rad west, `y` rad north, both small,
latitudes near 37.8°): a quarter turn plus the angle of the point `(u, w)`, `u` the
northward and `w` the westward component. -/
theorem computeBearing_NW (self drone : Vessel ℝ) (x y : ℝ)
    (hx : self.lon - drone.lon = -x) (hy : self.lat - drone.lat = y)
    (hx0 : 0 < x) (hx1 : x ≤ 0.001) (hy0 : 0 < y) (hy1 : y ≤ 0.001)
    (hd : 0.658 ≤ drone.lat ∧ drone.lat ≤ 0.66) (hs : 0.658 ≤ self.lat ∧ self.lat ≤ 0.66) :
    ∃ u w, 0.999999 * y ≤ u ∧ u ≤ y + 0.0005 * x ∧ 0.779999 * x ≤ w ∧ w ≤ 0.8 * x ∧
      RelativeVessel.computeBearing self drone = π / 2 + arcsin (w / √(u ^ 2 + w ^ 2)) := by
  have hc := cos_lat_bounds self.lat hs.1 hs.2
  have hs0 : 0 ≤ sin drone.lat :=
    Real.sin_nonneg_of_nonneg_of_le_pi (by linarith [hd.1]) (by linarith [hd.2, Real.pi_gt_three])
  have hY := Y_bounds drone.lat self.lat (-x) hs0 (by linarith [hc.1])
  have hsy := sin_small y hy0.le hy1
  have hsx := sin_small x hx0.le hx1
  have hxx : x ^ 2 / 2 ≤ 0.0005 * x := by nlinarith
  rw [hy] at hY
  have hYpos : 0 < cos drone.lat * sin self.lat - sin drone.lat * cos self.lat * cos (-x) := by
    linarith [hY.1, hsy.1]
  refine ⟨cos drone.lat * sin self.lat - sin drone.lat * cos self.lat * cos (-x),
    cos self.lat * sin x, by linarith [hY.1, hsy.1], ?_, ?_, ?_, ?_⟩
  · have : (-x) ^ 2 = x ^ 2 := by ring
    linarith [hY.2, hsy.2]
  · have : 0.78 * (0.999999 * x) ≤ cos self.lat * sin x :=
      mul_le_mul hc.1 hsx.1 (by linarith) (by linarith [hc.1])
    linarith
  · have : cos self.lat * sin x ≤ 0.8 * x :=
      mul_le_mul hc.2 hsx.2 (by linarith [hsx.1]) (by norm_num)
    linarith
  · unfold RelativeVessel.computeBearing atan2
    simp only [Vessel.getLon, Vessel.getLat, hx]
    rw [arg_NW _ _ hYpos]
    simp only [Real.sin_neg, mul_neg, neg_neg]

/-- Bearing of a vessel south-east of the drone (`x` rad east, `y` rad south): minus the
angle of the point `(u, w)`, `u` the eastward and `w` the southward component. -/
theorem computeBearing_SE (self drone : Vessel ℝ) (x y : ℝ)
    (hx : self.lon - drone.lon = x) (hy : self.lat - drone.lat = -y)
    (hx0 : 0 < x) (hx1 : x ≤ 0.001) (hy0 : 0 < y) (hy1 : y ≤ 0.001)
    (hd : 0.658 ≤ drone.lat ∧ drone.lat ≤ 0.66) (hs : 0.658 ≤ self.lat ∧ self.lat ≤ 0.66) :
    ∃ u w, 0.779999 * x ≤ u ∧ u ≤ 0.8 * x ∧ 0.999999 * y - 0.0005 * x ≤ w ∧ w ≤ y ∧
      RelativeVessel.computeBearing self drone = -arcsin (w / √(u ^ 2 + w ^ 2)) := by
  have hc := cos_lat_bounds self.lat hs.1 hs.2
  have hs0 : 0 ≤ sin drone.lat :=
    Real.sin_nonneg_of_nonneg_of_le_pi (by linarith [hd.1]) (by linarith [hd.2, Real.pi_gt_three])
  have hY := Y_bounds drone.lat self.lat x hs0 (by linarith [hc.1])
  have hsy := sin_small y hy0.le hy1
  have hsx := sin_small x hx0.le hx1
  have hxx : x ^ 2 / 2 ≤ 0.0005 * x := by nlinarith
  rw [hy, Real.sin_neg] at hY
  have hlow : 0.78 * (0.999999 * x) ≤ cos self.lat * sin x :=
    mul_le_mul hc.1 hsx.1 (by linarith) (by linarith [hc.1])
  have hXpos : 0 < cos self.lat * sin x := by linarith
  refine ⟨cos self.lat * sin x,
    -(cos drone.lat * sin self.lat - sin drone.lat * cos self.lat * cos x),
    by linarith, ?_, by linarith [hY.2, hsy.1], by linarith [hY.1, hsy.2], ?_⟩
  · have : cos self.lat * sin x ≤ 0.8 * x :=
      mul_le_mul hc.2 hsx.2 (by linarith [hsx.1]) (by norm_num)
    linarith
  · unfold RelativeVessel.computeBearing atan2
    simp only [Vessel.getLon, Vessel.getLat, hx]
    rw [arg_SE _ _ hXpos]

/-- Bearing of a vessel south-west of the drone (`x` rad west, `y` rad south, `y` not
negligible against `x`): the angle of the point `(u, w)`, `u` the westward and `w` the
southward component, minus a half turn. -/
theorem computeBearing_SW (self drone : Vessel ℝ) (x y : ℝ)
    (hx : self.lon - drone.lon = -x) (hy : self.lat - drone.lat = -y)
    (hx0 : 0 < x) (hx1 : x ≤ 0.001) (hy0 : 0 < y) (hy1 : y ≤ 0.001)
    (hxy : 0.0005 * x < 0.999999 * y)
    (hd : 0.658 ≤ drone.lat ∧ drone.lat ≤ 0.66) (hs : 0.658 ≤ self.lat ∧ self.lat ≤ 0.66) :
    ∃ u w, 0.779999 * x ≤ u ∧ u ≤ 0.8 * x ∧ 0.999999 * y - 0.0005 * x ≤ w ∧ w ≤ y ∧
      RelativeVessel.computeBearing self drone = arcsin (w / √(u ^ 2 + w ^ 2)) - π := by
  have hc := cos_lat_bounds self.lat hs.1 hs.2
  have hs0 : 0 ≤ sin drone.lat :=
    Real.sin_nonneg_of_nonneg_of_le_pi (by linarith [hd.1]) (by linarith [hd.2, Real.pi_gt_three])
  have hY := Y_bounds drone.lat self.lat (-x) hs0 (by linarith [hc.1])
  have hsy := sin_small y hy0.le hy1
  have hsx := sin_small x hx0.le hx1
  have hxx : x ^ 2 / 2 ≤ 0.0005 * x := by nlinarith
  have hsq : (-x) ^ 2 = x ^ 2 := by ring
  rw [hy, Real.sin_neg, hsq] at hY
  have hlow : 0.78 * (0.999999 * x) ≤ cos self.lat * sin x :=
    mul_le_mul hc.1 hsx.1 (by linarith) (by linarith [hc.1])
  have hXneg : cos self.lat * sin (-x) < 0 := by
    rw [Real.sin_neg]
    linarith
  have hYneg : cos drone.lat * sin self.lat - sin drone.lat * cos self.lat * cos (-x) < 0 := by
    linarith [hY.2, hsy.1]
  refine ⟨cos self.lat * sin x,
    -(cos drone.lat * sin self.lat - sin drone.lat * cos self.lat * cos (-x)),
    by linarith, ?_, by linarith [hY.2, hsy.1], by linarith [hY.1, hsy.2], ?_⟩
  · have : cos self.lat * sin x ≤ 0.8 * x :=
      mul_le_mul hc.2 hsx.2 (by linarith [hsx.1]) (by norm_num)
    linarith
  · unfold RelativeVessel.computeBearing atan2
    simp only [Vessel.getLon, Vessel.getLat, hx]
    rw [arg_SW _ _ hXneg hYneg]
    simp only [Real.sin_neg, mul_neg, neg_neg]

/-- The distance is at least the difference of latitude times the radius, nearly. -/
theorem computeDistance_ge_lat (self drone : Vessel ℝ) (y : ℝ)
    (hy : self.lat - drone.lat = y ∨ self.lat - drone.lat = -y)
    (hy0 : 0 ≤ y) (hy1 : y ≤ 0.001)
    (hd : 0.658 ≤ drone.lat ∧ drone.lat ≤ 0.66) (hs : 0.658 ≤ self.lat ∧ self.lat ≤ 0.66) :
    0.999999 * y * 6371000 ≤ RelativeVessel.computeDistance self drone := by
  have hc := cos_lat_bounds self.lat hs.1 hs.2
  have hc0 := cos_lat_bounds drone.lat hd.1 hd.2
  have hsy := sin_small (y / 2) (by linarith) (by linarith)
  have hsq : sin ((self.lat - drone.lat) / 2) ^ 2 = sin (y / 2) ^ 2 := by
    rcases hy with h | h
    · rw [h]
    · rw [h, neg_div, Real.sin_neg, neg_sq]
  have hq : (0.999999 * (y / 2)) ^ 2 ≤ sin (y / 2) ^ 2 :=
    pow_le_pow_left₀ (by linarith) hsy.1 2
  have hterm : 0 ≤ sin ((self.lon - drone.lon) / 2) ^ 2 * cos drone.lat * cos self.lat :=
    mul_nonneg (mul_nonneg (sq_nonneg _) (by linarith [hc0.1])) (by linarith [hc.1])
  have h := haversine_ge
    (sin ((self.lat - drone.lat) / 2) ^ 2
      + sin ((self.lon - drone.lon) / 2) ^ 2 * cos drone.lat * cos self.lat)
    (0.999999 * (y / 2)) (by linarith) (by linarith) (by rw [hsq]; linarith)
  unfold RelativeVessel.computeDistance
  simp only [Vessel.getLat, Vessel.getLon]
  linarith

/-- The distance is at least 0.78 times the difference of longitude times the radius. -/
theorem computeDistance_ge_lon (self drone : Vessel ℝ) (x : ℝ)
    (hx : self.lon - drone.lon = x ∨ self.lon - drone.lon = -x)
    (hx0 : 0 ≤ x) (hx1 : x ≤ 0.001)
    (hd : 0.658 ≤ drone.lat ∧ drone.lat ≤ 0.66) (hs : 0.658 ≤ self.lat ∧ self.lat ≤ 0.66) :
    0.779999 * x * 6371000 ≤ RelativeVessel.computeDistance self drone := by
  have hc := cos_lat_bounds self.lat hs.1 hs.2
  have hc0 := cos_lat_bounds drone.lat hd.1 hd.2
  have hsx := sin_small (x / 2) (by linarith) (by linarith)
  have hsq : sin ((self.lon - drone.lon) / 2) ^ 2 = sin (x / 2) ^ 2 := by
    rcases hx with h | h
    · rw [h]
    · rw [h, neg_div, Real.sin_neg, neg_sq]
  have hq : (0.999999 * (x / 2)) ^ 2 ≤ sin (x / 2) ^ 2 :=
    pow_le_pow_left₀ (by linarith) hsx.1 2
  have hcc : (0.78 : ℝ) * 0.78 ≤ cos drone.lat * cos self.lat :=
    mul_le_mul hc0.1 hc.1 (by norm_num) (by linarith [hc0.1])
  have hterm : (0.999999 * (x / 2)) ^ 2 * (0.78 * 0.78)
      ≤ sin ((self.lon - drone.lon) / 2) ^ 2 * (cos drone.lat * cos self.lat) := by
    rw [hsq]
    exact mul_le_mul hq hcc (by norm_num) (sq_nonneg _)
  have h := haversine_ge
    (sin ((self.lat - drone.lat) / 2) ^ 2
      + sin ((self.lon - drone.lon) / 2) ^ 2 * cos drone.lat * cos self.lat)
    (0.78 * (0.999999 * (x / 2))) (by linarith) (by linarith)
    (by
      have e : (0.78 * (0.999999 * (x / 2))) ^ 2
          = (0.999999 * (x / 2)) ^ 2 * (0.78 * 0.78) := by ring
      rw [e, mul_assoc]
      linarith [sq_nonneg (sin ((self.lat - drone.lat) / 2))])
  unfold RelativeVessel.computeDistance
  simp only [Vessel.getLat, Vessel.getLon]
  linarith

/-- The latitude of the fixture drone in radians. -/
theorem drone_lat_range : 0.658 ≤ testDataDrone.lat ∧ testDataDrone.lat ≤ 0.66 := by
  simp only [testDataDrone, Vessel.construct]
  constructor <;> linarith [Real.pi_gt_d4, Real.pi_lt_d4]

/-- Neo: bearing a quarter turn plus an angle in `[0.43, 0.5)`, margin below 0.075 rad. -/
theorem neo_facts : ∃ A, neo.bearing = π / 2 + A ∧ 0.43 ≤ A ∧ A < 0.5 ∧
    0 ≤ neo.bearingMargin ∧ neo.bearingMargin < 0.075 := by
  have hd := drone_lat_range
  have hp1 := Real.pi_gt_d4
  have hp2 := Real.pi_lt_d4
  have hs : 0.658 ≤ (Vessel.construct π 37.77308 (-122.33451) "Neo").lat ∧
      (Vessel.construct π 37.77308 (-122.33451) "Neo").lat ≤ 0.66 := by
    simp only [Vessel.construct]
    constructor <;> linarith
  have hx : (Vessel.construct π 37.77308 (-122.33451) "Neo").lon - testDataDrone.lon
      = -(0.0080285 * π / 180) := by
    simp only [Vessel.construct, testDataDrone]; ring
  have hy : (Vessel.construct π 37.77308 (-122.33451) "Neo").lat - testDataDrone.lat
      = 0.012948 * π / 180 := by
    simp only [Vessel.construct, testDataDrone]; ring
  obtain ⟨u, w, hu1, hu2, hw1, hw2, hb⟩ := computeBearing_NW _ testDataDrone _ _ hx hy
    (by linarith) (by linarith) (by linarith) (by linarith) hd hs
  have hdist := computeDistance_ge_lat _ testDataDrone _ (Or.inl hy)
    (by linarith) (by linarith) hd hs
  have hm := margin_bounds (RelativeVessel.computeDistance
    (Vessel.construct π 37.77308 (-122.33451) "Neo") testDataDrone) 0.075
    (by norm_num) (by norm_num) (by linarith)
  have hu0 : 0 < u := by linarith
  refine ⟨arcsin (w / √(u ^ 2 + w ^ 2)), hb, ?_, ?_, hm.1, hm.2⟩
  · exact le_arcsin_ratio u w 0.48 0.43 hu0 (by norm_num) (by linarith)
      (by norm_num) (by norm_num) (by norm_num)
  · exact arcsin_ratio_lt u w 0.5 0.5 hu0 (by linarith) (by linarith)
      (by norm_num) (by norm_num) (by norm_num)

/-- Morpheus: bearing a quarter turn plus an angle in `[0.5, 0.7)`, margin below 0.1 rad. -/
theorem morpheus_facts : ∃ A, morpheus.bearing = π / 2 + A ∧ 0.5 ≤ A ∧ A < 0.7 ∧
    0 ≤ morpheus.bearingMargin ∧ morpheus.bearingMargin < 0.1 := by
  have hd := drone_lat_range
  have hp1 := Real.pi_gt_d4
  have hp2 := Real.pi_lt_d4
  have hs : 0.658 ≤ (Vessel.construct π 37.77728 (-122.34192) "Morpheus").lat ∧
      (Vessel.construct π 37.77728 (-122.34192) "Morpheus").lat ≤ 0.66 := by
    simp only [Vessel.construct]
    constructor <;> linarith
  have hx : (Vessel.construct π 37.77728 (-122.34192) "Morpheus").lon - testDataDrone.lon
      = -(0.0154385 * π / 180) := by
    simp only [Vessel.construct, testDataDrone]; ring
  have hy : (Vessel.construct π 37.77728 (-122.34192) "Morpheus").lat - testDataDrone.lat
      = 0.017148 * π / 180 := by
    simp only [Vessel.construct, testDataDrone]; ring
  obtain ⟨u, w, hu1, hu2, hw1, hw2, hb⟩ := computeBearing_NW _ testDataDrone _ _ hx hy
    (by linarith) (by linarith) (by linarith) (by linarith) hd hs
  have hdist := computeDistance_ge_lat _ testDataDrone _ (Or.inl hy)
    (by linarith) (by linarith) hd hs
  have hm := margin_bounds (RelativeVessel.computeDistance
    (Vessel.construct π 37.77728 (-122.34192) "Morpheus") testDataDrone) 0.1
    (by norm_num) (by norm_num) (by linarith)
  have hu0 : 0 < u := by linarith
  refine ⟨arcsin (w / √(u ^ 2 + w ^ 2)), hb, ?_, ?_, hm.1, hm.2⟩
  · exact le_arcsin_ratio u w 0.6 0.5 hu0 (by norm_num) (by linarith)
      (by norm_num) (by norm_num) (by norm_num)
  · exact arcsin_ratio_lt u w 0.75 0.7 hu0 (by linarith) (by linarith)
      (by norm_num) (by norm_num) (by norm_num)

/-- Trinity: bearing minus an angle in `[0.2, 0.4)`, margin below 0.2 rad. -/
theorem trinity_facts : ∃ A, trinity.bearing = -A ∧ 0.2 ≤ A ∧ A < 0.4 ∧
    0 ≤ trinity.bearingMargin ∧ trinity.bearingMargin < 0.2 := by
  have hd := drone_lat_range
  have hp1 := Real.pi_gt_d4
  have hp2 := Real.pi_lt_d4
  have hs : 0.658 ≤ (Vessel.construct π 37.75784 (-122.31716) "Trinity").lat ∧
      (Vessel.construct π 37.75784 (-122.31716) "Trinity").lat ≤ 0.66 := by
    simp only [Vessel.construct]
    constructor <;> linarith
  have hx : (Vessel.construct π 37.75784 (-122.31716) "Trinity").lon - testDataDrone.lon
      = 0.0093215 * π / 180 := by
    simp only [Vessel.construct, testDataDrone]; ring
  have hy : (Vessel.construct π 37.75784 (-122.31716) "Trinity").lat - testDataDrone.lat
      = -(0.002292 * π / 180) := by
    simp only [Vessel.construct, testDataDrone]; ring
  obtain ⟨u, w, hu1, hu2, hw1, hw2, hb⟩ := computeBearing_SE _ testDataDrone _ _ hx hy
    (by linarith) (by linarith) (by linarith) (by linarith) hd hs
  have hdist := computeDistance_ge_lon _ testDataDrone _ (Or.inl hx)
    (by linarith) (by linarith) hd hs
  have hm := margin_bounds (RelativeVessel.computeDistance
    (Vessel.construct π 37.75784 (-122.31716) "Trinity") testDataDrone) 0.2
    (by norm_num) (by norm_num) (by linarith)
  have hu0 : 0 < u := by linarith
  refine ⟨arcsin (w / √(u ^ 2 + w ^ 2)), hb, ?_, ?_, hm.1, hm.2⟩
  · exact le_arcsin_ratio u w 0.25 0.2 hu0 (by norm_num) (by linarith)
      (by norm_num) (by norm_num) (by norm_num)
  · exact arcsin_ratio_lt u w 0.4 0.4 hu0 (by linarith) (by linarith)
      (by norm_num) (by norm_num) (by norm_num)

/-- Smith: bearing a quarter turn plus an angle in `[0.7, π/2]`, margin below 0.1 rad. -/
theorem smith_facts : ∃ A, smith.bearing = π / 2 + A ∧ 0.7 ≤ A ∧ A ≤ π / 2 ∧
    0 ≤ smith.bearingMargin ∧ smith.bearingMargin < 0.1 := by
  have hd := drone_lat_range
  have hp1 := Real.pi_gt_d4
  have hp2 := Real.pi_lt_d4
  have hs : 0.658 ≤ (Vessel.construct π 37.76822 (-122.34187) "Smith").lat ∧
      (Vessel.construct π 37.76822 (-122.34187) "Smith").lat ≤ 0.66 := by
    simp only [Vessel.construct]
    constructor <;> linarith
  have hx : (Vessel.construct π 37.76822 (-122.34187) "Smith").lon - testDataDrone.lon
      = -(0.0153885 * π / 180) := by
    simp only [Vessel.construct, testDataDrone]; ring
  have hy : (Vessel.construct π 37.76822 (-122.34187) "Smith").lat - testDataDrone.lat
      = 0.008088 * π / 180 := by
    simp only [Vessel.construct, testDataDrone]; ring
  obtain ⟨u, w, hu1, hu2, hw1, hw2, hb⟩ := computeBearing_NW _ testDataDrone _ _ hx hy
    (by linarith) (by linarith) (by linarith) (by linarith) hd hs
  have hdist := computeDistance_ge_lon _ testDataDrone _ (Or.inr hx)
    (by linarith) (by linarith) hd hs
  have hm := margin_bounds (RelativeVessel.computeDistance
    (Vessel.construct π 37.76822 (-122.34187) "Smith") testDataDrone) 0.1
    (by norm_num) (by norm_num) (by linarith)
  have hu0 : 0 < u := by linarith
  refine ⟨arcsin (w / √(u ^ 2 + w ^ 2)), hb, ?_, ?_, hm.1, hm.2⟩
  · exact le_arcsin_ratio u w 1 0.7 hu0 (by norm_num) (by linarith)
      (by norm_num) (by norm_num) (by norm_num)
  · exact Real.arcsin_le_pi_div_two _

/-- Cypher: bearing minus an angle in `[0, 0.1)`, margin below 0.1 rad. -/
theorem cypher_facts : ∃ A, cypher.bearing = -A ∧ 0 ≤ A ∧ A < 0.1 ∧
    0 ≤ cypher.bearingMargin ∧ cypher.bearingMargin < 0.1 := by
  have hd := drone_lat_range
  have hp1 := Real.pi_gt_d4
  have hp2 := Real.pi_lt_d4
  have hs : 0.658 ≤ (Vessel.construct π 37.76002 (-122.30260) "Cypher").lat ∧
      (Vessel.construct π 37.76002 (-122.30260) "Cypher").lat ≤ 0.66 := by
    simp only [Vessel.construct]
    constructor <;> linarith
  have hx : (Vessel.construct π 37.76002 (-122.30260) "Cypher").lon - testDataDrone.lon
      = 0.0238815 * π / 180 := by
    simp only [Vessel.construct, testDataDrone]; ring
  have hy : (Vessel.construct π 37.76002 (-122.30260) "Cypher").lat - testDataDrone.lat
      = -(0.000112 * π / 180) := by
    simp only [Vessel.construct, testDataDrone]; ring
  obtain ⟨u, w, hu1, hu2, hw1, hw2, hb⟩ := computeBearing_SE _ testDataDrone _ _ hx hy
    (by linarith) (by linarith) (by linarith) (by linarith) hd hs
  have hdist := computeDistance_ge_lon _ testDataDrone _ (Or.inl hx)
    (by linarith) (by linarith) hd hs
  have hm := margin_bounds (RelativeVessel.computeDistance
    (Vessel.construct π 37.76002 (-122.30260) "Cypher") testDataDrone) 0.1
    (by norm_num) (by norm_num) (by linarith)
  have hu0 : 0 < u := by linarith
  refine ⟨arcsin (w / √(u ^ 2 + w ^ 2)), hb, ?_, ?_, hm.1, hm.2⟩
  · exact Real.arcsin_nonneg.mpr (div_nonneg (by linarith) (Real.sqrt_nonneg _))
  · exact arcsin_ratio_lt u w 0.05 0.1 hu0 (by linarith) (by linarith)
      (by norm_num) (by norm_num) (by norm_num)

/-- SmithS: bearing an angle in `[0, 0.09)` minus a half turn, margin below 0.08 rad. -/
theorem smithS_facts : ∃ A, smithS.bearing = A - π ∧ 0 ≤ A ∧ A < 0.09 ∧
    0 ≤ smithS.bearingMargin ∧ smithS.bearingMargin < 0.08 := by
  have hd := drone_lat_range
  have hp1 := Real.pi_gt_d4
  have hp2 := Real.pi_lt_d4
  have hs : 0.658 ≤ (Vessel.construct π 37.75913 (-122.34187) "SmithS").lat ∧
      (Vessel.construct π 37.75913 (-122.34187) "SmithS").lat ≤ 0.66 := by
    simp only [Vessel.construct]
    constructor <;> linarith
  have hx : (Vessel.construct π 37.75913 (-122.34187) "SmithS").lon - testDataDrone.lon
      = -(0.0153885 * π / 180) := by
    simp only [Vessel.construct, testDataDrone]; ring
  have hy : (Vessel.construct π 37.75913 (-122.34187) "SmithS").lat - testDataDrone.lat
      = -(0.001002 * π / 180) := by
    simp only [Vessel.construct, testDataDrone]; ring
  obtain ⟨u, w, hu1, hu2, hw1, hw2, hb⟩ := computeBearing_SW _ testDataDrone _ _ hx hy
    (by linarith) (by linarith) (by linarith) (by linarith) (by linarith) hd hs
  have hdist := computeDistance_ge_lon _ testDataDrone _ (Or.inr hx)
    (by linarith) (by linarith) hd hs
  have hm := margin_bounds (RelativeVessel.computeDistance
    (Vessel.construct π 37.75913 (-122.34187) "SmithS") testDataDrone) 0.08
    (by norm_num) (by norm_num) (by linarith)
  have hu0 : 0 < u := by linarith
  refine ⟨arcsin (w / √(u ^ 2 + w ^ 2)), hb, ?_, ?_, hm.1, hm.2⟩
  · exact Real.arcsin_nonneg.mpr (div_nonneg (by linarith) (Real.sqrt_nonneg _))
  · exact arcsin_ratio_lt u w 0.085 0.09 hu0 (by linarith) (by linarith)
      (by norm_num) (by norm_num) (by norm_num)

/-- The vessel 0.001° south of the drone: bearing a quarter turn clockwise from east,
distance 111 m, and a margin of more than 40°. -/
theorem closeVessel_facts :
    closeVessel.bearing = -(π / 2) ∧ 2 * π / 9 ≤ closeVessel.bearingMargin := by
  have hp1 := Real.pi_gt_d4
  have hp2 := Real.pi_lt_d4
  have hy : (Vessel.construct π 37.759132 (-122.3264815) "close").lat - testDataDrone.lat
      = -(0.001 * π / 180) := by
    simp only [Vessel.construct, testDataDrone]; ring
  have hx : (Vessel.construct π 37.759132 (-122.3264815) "close").lon - testDataDrone.lon
      = 0 := by
    simp only [Vessel.construct, testDataDrone]; ring
  have hsin : 0 < sin (0.001 * π / 180) :=
    Real.sin_pos_of_pos_of_lt_pi (by linarith) (by linarith)
  constructor
  · show RelativeVessel.computeBearing _ testDataDrone = -(π / 2)
    unfold RelativeVessel.computeBearing atan2
    simp only [Vessel.getLon, Vessel.getLat, hx, Real.sin_zero, Real.cos_zero, mul_zero, mul_one]
    rw [Complex.arg_eq_neg_pi_div_two_iff]
    refine ⟨rfl, ?_⟩
    show cos testDataDrone.lat * sin (Vessel.construct π 37.759132 (-122.3264815) "close").lat
      - sin testDataDrone.lat * cos (Vessel.construct π 37.759132 (-122.3264815) "close").lat < 0
    have e : cos testDataDrone.lat * sin (Vessel.construct π 37.759132 (-122.3264815) "close").lat
        - sin testDataDrone.lat * cos (Vessel.construct π 37.759132 (-122.3264815) "close").lat
        = sin ((Vessel.construct π 37.759132 (-122.3264815) "close").lat - testDataDrone.lat) := by
      rw [Real.sin_sub]; ring
    rw [e, hy, Real.sin_neg]
    linarith
  · have hdist : RelativeVessel.computeDistance
        (Vessel.construct π 37.759132 (-122.3264815) "close") testDataDrone
        = 6371000 * (0.001 * π / 180) := by
      unfold RelativeVessel.computeDistance
      simp only [Vessel.getLon, Vessel.getLat, hx, hy, zero_div, Real.sin_zero, ne_eq,
        OfNat.ofNat_ne_zero, not_false_eq_true, zero_pow, zero_mul, add_zero, neg_div,
        Real.sin_neg, neg_sq]
      have hpos : 0 ≤ sin (0.001 * π / 180 / 2) :=
        (Real.sin_pos_of_pos_of_lt_pi (by linarith) (by linarith)).le
      rw [Real.sqrt_sq hpos, Real.arcsin_sin (by linarith) (by linarith)]
      ring
    show 2 * π / 9 ≤ arcsin (100 / RelativeVessel.computeDistance
      (Vessel.construct π 37.759132 (-122.3264815) "close") testDataDrone)
    rw [hdist]
    have hq1 : 100 / (6371000 * (0.001 * π / 180)) ≤ 1 := by
      rw [div_le_one (by positivity)]
      linarith
    have hq2 : 2 * π / 9 ≤ 100 / (6371000 * (0.001 * π / 180)) := by
      rw [le_div_iff₀ (by positivity)]
      nlinarith
    rw [Real.le_arcsin_iff_sin_le ⟨by linarith, by linarith⟩ ⟨by linarith, hq1⟩]
    exact le_trans (Real.sin_le (by positivity)) hq2

end Analysis

/-! ## Properties of `makePictures` -/

section Partition

variable {K : Type} [LinearOrderedField K]

/-- C1, evaluated on the code.  The total count is not always the input count.  For the
fixture drone, the field of view of 80° and the vessels Neo, Morpheus and a vessel 111 m
south of the drone (margin above 40°, lowest bearing), the sweep starts by comparing
the close vessel with itself, pushes an empty picture, and the merge step reads
`back()` of the empty list: nothing is returned.  With a field of view of 400° the
only picture of the single vessel Neo is merged into itself and popped: the returned
list is empty. -/
theorem makePictures_count_lost :
    makePictures Real.pi 80 [neo, closeVessel, morpheus] = .error .backOfEmptyList ∧
    makePictures Real.pi 400 [neo] = .ok [] := by
  obtain ⟨An, hbn, hn1, hn2, hn3, hn4⟩ := neo_facts
  obtain ⟨Am, hbm, hm1, hm2, hm3, hm4⟩ := morpheus_facts
  obtain ⟨hbc, hmc⟩ := closeVessel_facts
  have hp1 := Real.pi_gt_d4
  have hp2 := Real.pi_lt_d4
  constructor
  · have hcn : closeVessel.bearing < neo.bearing := by linarith
    have hcm : closeVessel.bearing < morpheus.bearing := by linarith
    have hnm : neo.bearing < morpheus.bearing := by linarith
    have hsort : listSort sortByBearing [neo, closeVessel, morpheus]
        = [closeVessel, neo, morpheus] := by
      simp only [listSort, List.insertionSort, List.orderedInsert, notAfter_sortByBearing_iff,
        hcn.le, hcm.le, hnm.le, not_le.mpr hcn, not_le.mpr hcm, not_le.mpr hnm, if_true,
        if_false]
    refine (makePictures_first_wide Real.pi 80 _ closeVessel [neo, morpheus] hsort ?_).2
    simp only [RelativeVessel.getBearing, RelativeVessel.getMargin]
    linarith
  · rw [makePictures_single Real.pi 400 neo (by
      simp only [RelativeVessel.getBearing, RelativeVessel.getMargin]; linarith)]
    rw [if_pos (by simp only [RelativeVessel.getBearing, RelativeVessel.getMargin]; linarith)]

/-- C2, evaluated on the code.  For four vessels at -170°, -80°, 10° and 170° and a
field of view of 100°, `makePictures` returns three pictures, although the vessels
split into two groups that each fit, margins included, inside an arc of 100°: the two
vessels next to the seam, and the other two. -/
theorem makePictures_not_minimal :
    makePictures M_PI 100 [ringWest, ringSouth, ringEast, ringWest2]
      = .ok [Picture.ofRange (100 * (M_PI / 180)) [ringWest, ringSouth],
             Picture.ofRange (100 * (M_PI / 180)) [ringEast],
             Picture.ofRange (100 * (M_PI / 180)) [ringWest2]] ∧
    ([ringWest2, ringWest] ++ [ringSouth, ringEast]).Perm
      [ringWest, ringSouth, ringEast, ringWest2] ∧
    fitsInArc M_PI (100 * (M_PI / 180)) [ringWest2, ringWest] ∧
    fitsInArc M_PI (100 * (M_PI / 180)) [ringSouth, ringEast] := by
  refine ⟨by decide!, by decide!, ?_, ?_⟩
  · refine ⟨295 / 100, ?_⟩
    intro v hv
    simp only [List.mem_cons, List.mem_singleton, List.not_mem_nil, or_false] at hv
    rcases hv with rfl | rfl
    · exact ⟨0, by decide!⟩
    · exact ⟨1, by decide!⟩
  · refine ⟨-142 / 100, ?_⟩
    intro v hv
    simp only [List.mem_cons, List.mem_singleton, List.not_mem_nil, or_false] at hv
    rcases hv with rfl | rfl
    · exact ⟨0, by decide!⟩
    · exact ⟨0, by decide!⟩

/-- C3 as stated fails: with a field of view of 40°, a vessel of margin 1/64 rad and,
1/64 rad further, a vessel of margin 1/2 rad are swept into one picture, which is
returned as the sweep made it, and whose span is above the field of view. -/
theorem span_exceeds_field_of_view :
    makePictures M_PI 40 [smallMargin, wideMargin]
      = .ok [Picture.ofRange (40 * (M_PI / 180)) [smallMargin, wideMargin]] ∧
    sweep (40 * (M_PI / 180)) (listSort sortByBearing [smallMargin, wideMargin])
      = [Picture.ofRange (40 * (M_PI / 180)) [smallMargin, wideMargin]] ∧
    ¬ (Picture.ofRange (40 * (M_PI / 180)) [smallMargin, wideMargin]).span
        ≤ 40 * (M_PI / 180) := by
  refine ⟨by decide!, by decide!, by decide!⟩

/-- C3, amended.  For vessels whose bearings and margins are numbers (the values of an
ordered field; a vessel nearer to the drone than its margin length, whose margin
`asin(margin / dist)` is not a number, is outside this statement): a picture returned by
`makePictures` that the sweep made (not the product of the merge) starts with its anchor
`a`; every other member `v` has `(v.bearing + v.margin) - (a.bearing - a.margin) < FOV`;
and the span of the picture is below the field of view (in radians) when moreover twice
the anchor's margin is below it and no member's lower edge lies below the anchor's. -/
theorem sweep_picture_span (pi FOV : K) (vs : List (RelativeVessel K))
    (ps : List (Picture K)) (p : Picture K)
    (hret : makePictures pi FOV vs = .ok ps) (_hp : p ∈ ps)
    (hsweep : p ∈ sweep (FOV * (pi / 180)) (listSort sortByBearing vs)) :
    ∃ a rest, p.vessels = a :: rest ∧
      (∀ v ∈ rest, v.upperEdge - a.lowerEdge < FOV * (pi / 180)) ∧
      (2 * a.getMargin < FOV * (pi / 180) → (∀ v ∈ rest, a.lowerEdge ≤ v.lowerEdge) →
        p.span < FOV * (pi / 180)) := by
  obtain ⟨v, rest, _, _, hsw, _⟩ := makePictures_ok_inv pi FOV vs ps hret
  rw [hsw] at hsweep
  obtain ⟨a, rest', hpv, _, hfit⟩ :=
    sweepLoop_anchored (FOV * (pi / 180)) v [] rest (by simp) p hsweep
  refine ⟨a, rest', hpv, hfit, ?_⟩
  intro ha hlow
  have hmax : maxOver RelativeVessel.upperEdge a rest' < a.lowerEdge + FOV * (pi / 180) := by
    apply maxOver_lt
    · simp only [RelativeVessel.upperEdge, RelativeVessel.lowerEdge]
      linarith
    · intro w hw
      have := hfit w hw
      simp only [RelativeVessel.upperEdge, RelativeVessel.lowerEdge]
      linarith
  have hmin : a.lowerEdge ≤ minOver RelativeVessel.lowerEdge a rest' :=
    le_minOver _ _ _ _ (le_refl _) hlow
  show Picture.span p < FOV * (pi / 180)
  unfold Picture.span
  rw [hpv]
  simp only
  linarith

/-- The amended C3 on the picture of two vessels half a radian apart: the call returns
that picture, the sweep made it, and both premises on its anchor hold. -/
theorem sweep_picture_span_witness :
    makePictures M_PI 80 [farVessel1, smallMargin]
      = .ok [Picture.ofRange (80 * (M_PI / 180)) [smallMargin, farVessel1]] ∧
    Picture.ofRange (80 * (M_PI / 180)) [smallMargin, farVessel1]
      ∈ sweep (80 * (M_PI / 180)) (listSort sortByBearing [farVessel1, smallMargin]) ∧
    2 * smallMargin.getMargin < 80 * (M_PI / 180) ∧
    (∀ v ∈ [farVessel1], smallMargin.lowerEdge ≤ v.lowerEdge) ∧
    ∃ a rest,
      (Picture.ofRange (80 * (M_PI / 180)) [smallMargin, farVessel1]).vessels = a :: rest ∧
      (∀ v ∈ rest, v.upperEdge - a.lowerEdge < 80 * (M_PI / 180)) ∧
      (2 * a.getMargin < 80 * (M_PI / 180) → (∀ v ∈ rest, a.lowerEdge ≤ v.lowerEdge) →
        (Picture.ofRange (80 * (M_PI / 180)) [smallMargin, farVessel1]).span
          < 80 * (M_PI / 180)) :=
  ⟨by decide!, by decide!, by decide!, by decide!,
    sweep_picture_span M_PI 80 [farVessel1, smallMargin]
      [Picture.ofRange (80 * (M_PI / 180)) [smallMargin, farVessel1]]
      (Picture.ofRange (80 * (M_PI / 180)) [smallMargin, farVessel1])
      (by decide!) (by decide!) (by decide!)⟩

/-- C4, evaluated on the code.  Two vessels at -179° and 179° with margins of 3/4 rad
and 1/64 rad satisfy `2° + margins < 80°`, yet `makePictures(80, ...)` returns no
picture: the vessel at -179° fails the test against itself, the sweep pushes an empty
picture and the merge step reads `back()` of the empty list. -/
theorem seam_pair_not_grouped :
    seamLow.getBearingDeg M_PI = -179 ∧ seamHigh.getBearingDeg M_PI = 179 ∧
    2 * (M_PI / 180) + seamLow.getMargin + seamHigh.getMargin < 80 * (M_PI / 180) ∧
    makePictures M_PI 80 [seamLow, seamHigh] = .error .backOfEmptyList := by
  refine ⟨by decide!, by decide!, by decide!, by decide!⟩

/-- C5.  For the drone and the six vessels of the test fixture, built with the default
margin of 100 m, `makePictures(80, vessels)` returns exactly two pictures: the first has
the four members Neo, Morpheus, Smith, SmithS (the merge step puts the picture of the
three vessels to the north-west in front of the picture of SmithS), the last has the
two members Trinity and Cypher. -/
theorem makePictures_fixture :
    makePictures Real.pi 80 testData
      = .ok [Picture.ofRange (80 * (Real.pi / 180)) [neo, morpheus, smith, smithS],
             Picture.ofRange (80 * (Real.pi / 180)) [trinity, cypher]] ∧
    (Picture.ofRange (80 * (Real.pi / 180)) [neo, morpheus, smith, smithS]).countVessels = 4 ∧
    (Picture.ofRange (80 * (Real.pi / 180)) [trinity, cypher]).countVessels = 2 := by
  refine ⟨?_, rfl, rfl⟩
  obtain ⟨An, hbn, hn1, hn2, hn3, hn4⟩ := neo_facts
  obtain ⟨Am, hbm, hm1, hm2, hm3, hm4⟩ := morpheus_facts
  obtain ⟨At, hbt, ht1, ht2, ht3, ht4⟩ := trinity_facts
  obtain ⟨As, hbs, hs1, hs2, hs3, hs4⟩ := smith_facts
  obtain ⟨Ac, hbc, hc1, hc2, hc3, hc4⟩ := cypher_facts
  obtain ⟨Az, hbz, hz1, hz2, hz3, hz4⟩ := smithS_facts
  have hp1 := Real.pi_gt_d4
  have hp2 := Real.pi_lt_d4
  unfold testData
  apply makePictures_six <;> linarith

/-- C6, evaluated on the code.  For the fixture drone, the field of view of 80° and the
vessels Neo and a vessel 111 m south of the drone, the first picture the sweep pushes
has an empty vessel list: the close vessel comes first, it is compared with itself,
`dBearing` is twice its margin (above 80°), and the range `[refVessel, ptr)` is
empty. -/
theorem sweep_pushes_empty_picture :
    sweep (80 * (Real.pi / 180)) (listSort sortByBearing [neo, closeVessel])
      = [Picture.ofRange (80 * (Real.pi / 180)) [],
         Picture.ofRange (80 * (Real.pi / 180)) [closeVessel],
         Picture.ofRange (80 * (Real.pi / 180)) [neo]] ∧
    (Picture.ofRange (80 * (Real.pi / 180)) ([] : List (RelativeVessel ℝ))).countVessels
      = 0 := by
  obtain ⟨An, hbn, hn1, hn2, hn3, hn4⟩ := neo_facts
  obtain ⟨hbc, hmc⟩ := closeVessel_facts
  have hp1 := Real.pi_gt_d4
  have hp2 := Real.pi_lt_d4
  have hcn : closeVessel.bearing < neo.bearing := by linarith
  have hsort : listSort sortByBearing [neo, closeVessel] = [closeVessel, neo] := by
    simp only [listSort, List.insertionSort, List.orderedInsert, notAfter_sortByBearing_iff,
      hcn.le, not_le.mpr hcn, if_true, if_false]
  have hw : 80 * (Real.pi / 180) ≤ (closeVessel.getBearing + closeVessel.getMargin)
      - (closeVessel.getBearing - closeVessel.getMargin) := by
    simp only [RelativeVessel.getBearing, RelativeVessel.getMargin]
    linarith
  have hn : (neo.getBearing + neo.getMargin)
      - (closeVessel.getBearing - closeVessel.getMargin) ≥ 80 * (Real.pi / 180) := by
    simp only [RelativeVessel.getBearing, RelativeVessel.getMargin]
    linarith
  refine ⟨?_, rfl⟩
  rw [(makePictures_first_wide Real.pi 80 _ closeVessel [neo] hsort hw).1]
  simp only [sweepLoop, hn, if_true]

/-- C7, evaluated on the code.  For the fixture drone, the field of view of 80° and the
single vessel 111 m south of the drone, `makePictures` returns no picture: the sweep
pushes an empty picture before the picture of the vessel, and the merge step reads
`back()` of the empty list. -/
theorem makePictures_single_faults :
    sweep (80 * (Real.pi / 180)) (listSort sortByBearing [closeVessel])
      = [Picture.ofRange (80 * (Real.pi / 180)) [],
         Picture.ofRange (80 * (Real.pi / 180)) [closeVessel]] ∧
    makePictures Real.pi 80 [closeVessel] = .error .backOfEmptyList := by
  obtain ⟨_, hmc⟩ := closeVessel_facts
  have hw : 80 * (Real.pi / 180) ≤ (closeVessel.getBearing + closeVessel.getMargin)
      - (closeVessel.getBearing - closeVessel.getMargin) := by
    simp only [RelativeVessel.getBearing, RelativeVessel.getMargin]
    linarith
  exact makePictures_first_wide Real.pi 80 [closeVessel] closeVessel [] rfl hw

/-- C8 as stated fails: with a field of view of 380°, `makePictures` on `[a, x, y]`,
where `x` and `y` share the bearing 3 rad, returns the single merged picture
`[y, a, x]`; on that list it returns the single picture `[y, x, a]`. -/
theorem makePictures_not_idempotent :
    makePictures M_PI 380 [tieA, tieX, tieY]
      = .ok [Picture.ofRange (380 * (M_PI / 180)) [tieY, tieA, tieX]] ∧
    makePictures M_PI 380
        (Picture.ofRange (380 * (M_PI / 180)) [tieY, tieA, tieX]).getVessels
      = .ok [Picture.ofRange (380 * (M_PI / 180)) [tieY, tieX, tieA]] ∧
    [tieY, tieX, tieA] ≠ [tieY, tieA, tieX] := by
  refine ⟨by decide!, by decide!, by decide!⟩

/-- C8, amended.  When the field of view is at most 360° and no margin is negative,
or when the bearings are pairwise distinct, a call of `makePictures` that returns the
single picture `P` returns the same single picture on `P.getVessels()`. -/
theorem makePictures_idempotent (pi FOV : K) (vs : List (RelativeVessel K)) (P : Picture K)
    (h : makePictures pi FOV vs = .ok [P])
    (hc : (FOV * (pi / 180) ≤ 2 * pi ∧ ∀ v ∈ vs, 0 ≤ v.getMargin) ∨
      vs.Pairwise (fun a b => a.bearing ≠ b.bearing)) :
    makePictures pi FOV P.getVessels = .ok [P] := by
  obtain ⟨v, rest, hs, _, _, hm⟩ := makePictures_ok_inv pi FOV vs [P] h
  have hflat := sweepLoop_flatten (FOV * (pi / 180)) v [v] rest
  have hsorted := listSort_sorted vs
  have hperm := listSort_perm vs
  rw [hs] at hsorted hperm
  rw [← h]
  apply makePictures_congr_sort
  rw [hs]
  cases hp : sweepLoop (FOV * (pi / 180)) v [v] rest with
  | nil => exact absurd hp (sweepLoop_ne_nil _ _ _ _)
  | cons p1 more =>
    rw [hp] at hm hflat
    obtain ⟨v1, v2, h1, h2, hcase⟩ := mergeStep_ok_cases pi _ p1 more [P] hm
    cases more with
    | nil =>
      simp only [List.map_cons, List.map_nil, List.flatten_cons, List.flatten_nil,
        List.append_nil, List.singleton_append] at hflat
      rcases hcase with ⟨_, hps⟩ | ⟨_, hps⟩
      · simp at hps
      · have hP : P = p1 := by simpa using hps
        subst hP
        show listSort sortByBearing P.vessels = v :: rest
        rw [hflat]
        exact listSort_of_sorted hsorted
    | cons p2 more2 =>
      cases more2 with
      | nil =>
        simp only [List.map_cons, List.map_nil, List.flatten_cons, List.flatten_nil,
          List.append_nil, List.singleton_append] at hflat
        simp only [List.getLast_cons_cons, List.getLast_singleton] at h2 hcase
        rcases hcase with ⟨hgap, hps⟩ | ⟨_, hps⟩
        · have hP : P = p1.addVessels p2.getVessels false := by simpa using hps
          subst hP
          show listSort sortByBearing (p2.vessels ++ p1.vessels) = v :: rest
          rw [← hflat] at hsorted hperm ⊢
          apply listSort_swap _ _ hsorted
          have hs1 : p1.vessels.Sorted (notAfter sortByBearing) :=
            List.Pairwise.sublist (List.sublist_append_left _ _) hsorted
          have hs2 : p2.vessels.Sorted (notAfter sortByBearing) :=
            List.Pairwise.sublist (List.sublist_append_right _ _) hsorted
          have hv1 : v1 ∈ p1.vessels := List.mem_of_getLast?_eq_some h1
          have hv2 : v2 ∈ p2.vessels := List.mem_of_mem_head? h2
          have hle : v1.bearing ≤ v2.bearing :=
            (notAfter_sortByBearing_iff v1 v2).mp
              ((List.pairwise_append.mp hsorted).2.2 v1 hv1 v2 hv2)
          have hstrict : v1.bearing < v2.bearing := by
            rcases hc with ⟨hF, hmar⟩ | hne
            · have m1 : 0 ≤ v1.getMargin :=
                hmar v1 (hperm.subset (List.mem_append_left _ hv1))
              have m2 : 0 ≤ v2.getMargin :=
                hmar v2 (hperm.subset (List.mem_append_right _ hv2))
              simp only [RelativeVessel.getBearing] at hgap
              linarith
            · have hne' : (p1.vessels ++ p2.vessels).Pairwise
                  (fun a b => a.bearing ≠ b.bearing) :=
                (List.Perm.pairwise_iff (fun hxy => Ne.symm hxy) hperm).mpr hne
              exact lt_of_le_of_ne hle ((List.pairwise_append.mp hne').2.2 v1 hv1 v2 hv2)
          intro x hx y hy
          exact lt_of_le_of_lt (sorted_le_getLast _ hs1 v1 h1 x hx)
            (lt_of_lt_of_le hstrict (sorted_head_le _ hs2 v2 h2 y hy))
        · simp at hps
      | cons p3 more3 =>
        rcases hcase with ⟨_, hps⟩ | ⟨_, hps⟩
        · have := congrArg List.length hps
          simp at this
        · simp at hps

/-- The amended C8 on two vessels on either side of the seam: the call returns the
single merged picture, and returns it again on that picture's vessels. -/
theorem makePictures_idempotent_witness :
    makePictures M_PI 80 [pairLow, pairHigh]
      = .ok [Picture.ofRange (80 * (M_PI / 180)) [pairHigh, pairLow]] ∧
    80 * (M_PI / 180) ≤ 2 * M_PI ∧ (∀ v ∈ [pairLow, pairHigh], 0 ≤ v.getMargin) ∧
    makePictures M_PI 80 (Picture.ofRange (80 * (M_PI / 180)) [pairHigh, pairLow]).getVessels
      = .ok [Picture.ofRange (80 * (M_PI / 180)) [pairHigh, pairLow]] :=
  ⟨by decide!, by decide!, by decide!,
    makePictures_idempotent M_PI 80 [pairLow, pairHigh]
      (Picture.ofRange (80 * (M_PI / 180)) [pairHigh, pairLow])
      (by decide!) (Or.inl ⟨by decide!, by decide!⟩)⟩

/-- C9, evaluated on the code.  For the empty list and every field of view the sweep
pushes one picture without vessels and the merge step reads `back()` of its empty
list: undefined behaviour, neither a reported error nor an empty result. -/
theorem makePictures_nil_faults (pi FOV : K) :
    sweep (FOV * (pi / 180)) (listSort sortByBearing ([] : List (RelativeVessel K)))
      = [Picture.ofRange (FOV * (pi / 180)) []] ∧
    makePictures pi FOV ([] : List (RelativeVessel K)) = .error .backOfEmptyList := by
  constructor
  · rfl
  · rfl

end Partition

/-! ## Construction of a `RelativeVessel` -/

section ConstructLemmas

/-- C10 as stated fails: a vessel at the position of the drone is constructed, not
rejected; its distance is `0`, below the margin of 100 m, and `asin(100 / 0)` is not a
number. -/
theorem construct_colocated_not_rejected :
    (RelativeVessel.construct 37.760132 (-122.3264815) "v" testDataDrone 100).dist = 0 ∧
    (RelativeVessel.construct 37.760132 (-122.3264815) "v" testDataDrone 100).dist ≤ 100 ∧
    ¬ marginDefined 100
        (RelativeVessel.construct 37.760132 (-122.3264815) "v" testDataDrone 100).dist := by
  have h : (RelativeVessel.construct 37.760132 (-122.3264815) "v" testDataDrone 100).dist
      = 0 := by
    simp [RelativeVessel.construct, RelativeVessel.computeDistance, Vessel.construct,
      testDataDrone, Vessel.getLat, Vessel.getLon]
  refine ⟨h, ?_, ?_⟩
  · rw [h]
    norm_num
  · rw [h]
    simp [marginDefined]

/-- C10, amended.  The constructor returns a vessel for every argument; when the margin
is not negative and below the computed distance, `bearingMargin` is `asin(margin / dist)`
of a quotient in `[0, 1)`: a defined number of `[0, π/2)` whose sine is the quotient. -/
theorem construct_margin_defined (latin lonin : ℝ) (namein : String) (drone : Vessel ℝ)
    (margin : ℝ) (h0 : 0 ≤ margin)
    (h : margin < (RelativeVessel.construct latin lonin namein drone margin).dist) :
    marginDefined margin (RelativeVessel.construct latin lonin namein drone margin).dist ∧
    0 ≤ (RelativeVessel.construct latin lonin namein drone margin).bearingMargin ∧
    (RelativeVessel.construct latin lonin namein drone margin).bearingMargin < Real.pi / 2 ∧
    Real.sin (RelativeVessel.construct latin lonin namein drone margin).bearingMargin
      = margin / (RelativeVessel.construct latin lonin namein drone margin).dist := by
  set d := (RelativeVessel.construct latin lonin namein drone margin).dist with hd
  have hm : (RelativeVessel.construct latin lonin namein drone margin).bearingMargin
      = Real.arcsin (margin / d) := rfl
  have hdpos : 0 < d := lt_of_le_of_lt h0 h
  have hq0 : 0 ≤ margin / d := div_nonneg h0 hdpos.le
  have hq1 : margin / d < 1 := (div_lt_one hdpos).mpr h
  rw [hm]
  refine ⟨⟨hdpos.ne', ?_⟩, Real.arcsin_nonneg.mpr hq0, Real.arcsin_lt_pi_div_two.mpr hq1,
    Real.sin_arcsin (by linarith) hq1.le⟩
  rw [abs_of_nonneg hq0]
  exact hq1.le

/-- The amended C10 on the vessel at the antipode of a drone at latitude and longitude
zero: the distance is half the circumference, above the margin of 100 m. -/
theorem construct_margin_defined_witness :
    (0 : ℝ) ≤ 100 ∧
    100 < (RelativeVessel.construct 0 180 "v" (Vessel.construct Real.pi 0 0 "drone") 100).dist ∧
    marginDefined 100
      (RelativeVessel.construct 0 180 "v" (Vessel.construct Real.pi 0 0 "drone") 100).dist ∧
    0 ≤ (RelativeVessel.construct 0 180 "v"
      (Vessel.construct Real.pi 0 0 "drone") 100).bearingMargin ∧
    (RelativeVessel.construct 0 180 "v"
      (Vessel.construct Real.pi 0 0 "drone") 100).bearingMargin < Real.pi / 2 ∧
    Real.sin (RelativeVessel.construct 0 180 "v"
      (Vessel.construct Real.pi 0 0 "drone") 100).bearingMargin
      = 100 / (RelativeVessel.construct 0 180 "v"
          (Vessel.construct Real.pi 0 0 "drone") 100).dist := by
  have hd : (RelativeVessel.construct 0 180 "v" (Vessel.construct Real.pi 0 0 "drone") 100).dist
      = 6371000 * Real.pi := by
    have e : (180 : ℝ) * Real.pi / 180 / 2 = Real.pi / 2 := by ring
    simp [RelativeVessel.construct, RelativeVessel.computeDistance, Vessel.construct,
      Vessel.getLat, Vessel.getLon, e]
    ring
  have hlt : 100 < (RelativeVessel.construct 0 180 "v"
      (Vessel.construct Real.pi 0 0 "drone") 100).dist := by
    rw [hd]
    nlinarith [Real.pi_gt_three]
  exact ⟨by norm_num, hlt,
    construct_margin_defined 0 180 "v" (Vessel.construct Real.pi 0 0 "drone") 100
      (by norm_num) hlt⟩

end ConstructLemmas

/-! ## Camera angles -/

section CameraLemmas

/-- Every picture of a call of `makePictures` that returns has a vessel and carries the
field of view in radians. -/
theorem makePictures_mem {K : Type} [LinearOrderedField K] (pi FOV : K)
    (vs : List (RelativeVessel K)) (ps : List (Picture K)) (p : Picture K)
    (h : makePictures pi FOV vs = .ok ps) (hp : p ∈ ps) :
    p.vessels ≠ [] ∧ p.FOV = FOV * (pi / 180) := by
  obtain ⟨v, rest, _, _, _, hm⟩ := makePictures_ok_inv pi FOV vs ps h
  have hanch := sweepLoop_anchored (FOV * (pi / 180)) v [] rest (by simp)
  have hgood : ∀ q ∈ sweepLoop (FOV * (pi / 180)) v [v] rest,
      q.vessels ≠ [] ∧ q.FOV = FOV * (pi / 180) := by
    intro q hq
    obtain ⟨a, r, hv, hF, _⟩ := hanch q hq
    exact ⟨by rw [hv]; exact List.cons_ne_nil _ _, hF⟩
  cases hpics : sweepLoop (FOV * (pi / 180)) v [v] rest with
  | nil => exact absurd hpics (sweepLoop_ne_nil _ _ _ _)
  | cons first restp =>
    rw [hpics] at hm hgood
    obtain ⟨v1, v2, h1, h2, hcase⟩ := mergeStep_ok_cases pi _ first restp ps hm
    rcases hcase with ⟨_, hps⟩ | ⟨_, hps⟩
    · rw [hps] at hp
      have hp' := List.mem_of_mem_dropLast hp
      rcases List.mem_cons.mp hp' with rfl | hmem
      · refine ⟨?_, (hgood first (List.mem_cons_self _ _)).2⟩
        have hne := (hgood first (List.mem_cons_self _ _)).1
        simp [Picture.addVessels, hne]
      · exact hgood p (List.mem_cons_of_mem _ hmem)
    · rw [hps] at hp
      exact hgood p hp

theorem front_back_of_ne_nil {α : Type} (l : List α) (h : l ≠ []) :
    ∃ first last, front l = .ok first ∧ back l = .ok last := by
  cases l with
  | nil => exact absurd rfl h
  | cons x t =>
    refine ⟨x, (x :: t).getLast (List.cons_ne_nil _ _), rfl, ?_⟩
    rw [back_eq_ok_iff]
    exact List.getLast?_eq_getLast _ _

/-- `std::arg` on real parts is the argument in `(-π, π]`. -/
theorem arg_eq (z : ℂ) : arg z = Complex.arg z := by
  unfold arg atan2
  rfl

theorem arg_range (z : ℂ) : -Real.pi < arg z ∧ arg z ≤ Real.pi := by
  rw [arg_eq]
  exact ⟨Complex.neg_pi_lt_arg z, Complex.arg_le_pi z⟩

/-- The angle in degrees lies in `(-180, 180]`. -/
theorem arg_deg_range (z : ℂ) :
    -180 < arg z * 180 / Real.pi ∧ arg z * 180 / Real.pi ≤ 180 := by
  have h := arg_range z
  have hpi := Real.pi_pos
  constructor
  · rw [lt_div_iff₀ hpi]
    linarith
  · rw [div_le_iff₀ hpi]
    linarith

/-- `std::polar(1, θ)` is `exp(iθ)`. -/
theorem polar_one (θ : ℝ) : polar 1 θ = Complex.exp (θ * Complex.I) := by
  apply Complex.ext
  · simp [polar, Complex.exp_ofReal_mul_I_re]
  · simp [polar, Complex.exp_ofReal_mul_I_im]

/-- `fmod` of a non-negative number by a positive one: the remainder of the division,
in `[0, y)`. -/
theorem fmod_of_nonneg {K : Type} [LinearOrderedField K] [FloorRing K] (x y : K)
    (hx : 0 ≤ x) (hy : 0 < y) :
    fmod x y = x - y * (⌊x / y⌋ : K) ∧ 0 ≤ fmod x y ∧ fmod x y < y := by
  have hq : 0 ≤ x / y := div_nonneg hx hy.le
  have e : fmod x y = x - y * (⌊x / y⌋ : K) := by
    unfold fmod
    simp only [if_pos hq]
    ring
  have h1 : (⌊x / y⌋ : K) ≤ x / y := Int.floor_le _
  have h2 : x / y < ⌊x / y⌋ + 1 := Int.lt_floor_add_one _
  rw [le_div_iff₀ hy] at h1
  rw [div_lt_iff₀ hy] at h2
  refine ⟨e, ?_, ?_⟩
  · rw [e]; linarith
  · rw [e]; linarith

theorem getCameraAngleDeg_E (p : Picture ℝ) (first last : RelativeVessel ℝ)
    (h1 : front p.vessels = .ok first) (h2 : back p.vessels = .ok last) :
    p.getCameraAngleDeg 'E'
      = .ok (arg ((polar 1 first.getBearing + polar 1 last.getBearing) / 2)
          * 180 / Real.pi) := by
  unfold Picture.getCameraAngleDeg
  rw [h1, h2]
  simp

theorem getCameraAngleDeg_N (p : Picture ℝ) (first last : RelativeVessel ℝ)
    (h1 : front p.vessels = .ok first) (h2 : back p.vessels = .ok last) :
    p.getCameraAngleDeg 'N'
      = .ok (fmod (450 - arg ((polar 1 first.getBearing + polar 1 last.getBearing) / 2)
          * 180 / Real.pi) 360) := by
  unfold Picture.getCameraAngleDeg
  rw [h1, h2]
  simp

end CameraLemmas

section CameraClaims

/-- C11.  For a picture whose first member has the bearing `(180 - x)°` and whose last
member has the bearing `(-180 + x)°`, `0 ≤ x < 90`, `getCameraAngleDeg('E')` is 180°,
while the linear average of the two bearings is 0°; and the value for `'E'` is the same
for every picture with the same first and last bearings. -/
theorem getCameraAngleDeg_seam (p : Picture ℝ) (first last : RelativeVessel ℝ) (x : ℝ)
    (h1 : front p.vessels = .ok first) (h2 : back p.vessels = .ok last)
    (hb1 : first.getBearingDeg Real.pi = 180 - x)
    (hb2 : last.getBearingDeg Real.pi = -180 + x)
    (hx0 : 0 ≤ x) (hx : x < 90) :
    p.getCameraAngleDeg 'E' = .ok 180 ∧
    (first.getBearingDeg Real.pi + last.getBearingDeg Real.pi) / 2 = 0 ∧
    ∀ (q : Picture ℝ) (qfirst qlast : RelativeVessel ℝ),
      front q.vessels = .ok qfirst → back q.vessels = .ok qlast →
      qfirst.bearing = first.bearing → qlast.bearing = last.bearing →
      q.getCameraAngleDeg 'E' = p.getCameraAngleDeg 'E' := by
  have hpi := Real.pi_pos
  have e1 : first.getBearing = Real.pi - x * Real.pi / 180 := by
    unfold RelativeVessel.getBearingDeg at hb1
    unfold RelativeVessel.getBearing
    field_simp at hb1 ⊢
    linarith
  have e2 : last.getBearing = -(Real.pi - x * Real.pi / 180) := by
    unfold RelativeVessel.getBearingDeg at hb2
    unfold RelativeVessel.getBearing
    field_simp at hb2 ⊢
    linarith
  refine ⟨?_, by rw [hb1, hb2]; ring, ?_⟩
  · rw [getCameraAngleDeg_E p first last h1 h2, e1, e2]
    have hcos : 0 < Real.cos (x * Real.pi / 180) := by
      apply Real.cos_pos_of_mem_Ioo
      constructor
      · have : 0 ≤ x * Real.pi / 180 := by positivity
        linarith
      · have : x * Real.pi < 90 * Real.pi := mul_lt_mul_of_pos_right hx hpi
        linarith
    have hmean : (polar 1 (Real.pi - x * Real.pi / 180)
        + polar 1 (-(Real.pi - x * Real.pi / 180))) / 2
        = (⟨-Real.cos (x * Real.pi / 180), 0⟩ : ℂ) := by
      rw [div_eq_iff (two_ne_zero)]
      apply Complex.ext
      · simp [polar, Real.cos_pi_sub]
        ring
      · simp [polar]
    rw [hmean, arg_eq, Complex.arg_eq_pi_iff.mpr ⟨by simpa using hcos, rfl⟩]
    congr 1
    field_simp
  · intro q qfirst qlast hq1 hq2 hf hl
    rw [getCameraAngleDeg_E p first last h1 h2, getCameraAngleDeg_E q qfirst qlast hq1 hq2]
    unfold RelativeVessel.getBearing
    rw [hf, hl]

/-- C11 on the merged picture of two vessels at 179° and -179° (`x = 1`). -/
theorem getCameraAngleDeg_seam_witness :
    seamPicture.vessels.head? = some (vesselAt "high" (179 * Real.pi / 180) (1 / 64)) ∧
    seamPicture.getCameraAngleDeg 'E' = .ok 180 := by
  have hpi := Real.pi_pos
  refine ⟨rfl, (getCameraAngleDeg_seam seamPicture
    (vesselAt "high" (179 * Real.pi / 180) (1 / 64))
    (vesselAt "low" (-179 * Real.pi / 180) (1 / 64)) 1 rfl rfl ?_ ?_
    (by norm_num) (by norm_num)).1⟩
  · simp only [RelativeVessel.getBearingDeg, vesselAt]
    field_simp
    ring
  · simp only [RelativeVessel.getBearingDeg, vesselAt]
    field_simp
    ring

/-- C12.  For a picture with at least one vessel, `getCameraAngleDeg('N')` is
`(450 - e) mod 360`, where `e` is `getCameraAngleDeg('E')`: it lies in `[0, 360)` and
differs from `90 - e` by a multiple of 360. -/
theorem getCameraAngleDeg_north (p : Picture ℝ) (h : p.vessels ≠ []) :
    ∃ e n : ℝ, p.getCameraAngleDeg 'E' = .ok e ∧ p.getCameraAngleDeg 'N' = .ok n ∧
      n = (450 - e) - 360 * (⌊(450 - e) / 360⌋ : ℝ) ∧ 0 ≤ n ∧ n < 360 ∧
      ∃ k : ℤ, n = 90 - e + 360 * (k : ℝ) := by
  obtain ⟨first, last, h1, h2⟩ := front_back_of_ne_nil p.vessels h
  have hr := arg_deg_range ((polar 1 first.getBearing + polar 1 last.getBearing) / 2)
  obtain ⟨hf1, hf2, hf3⟩ := fmod_of_nonneg
    (450 - arg ((polar 1 first.getBearing + polar 1 last.getBearing) / 2) * 180 / Real.pi)
    (360 : ℝ) (by linarith [hr.2]) (by norm_num)
  refine ⟨_, _, getCameraAngleDeg_E p first last h1 h2, getCameraAngleDeg_N p first last h1 h2,
    hf1, hf2, hf3, ?_⟩
  refine ⟨1 - ⌊(450 - arg ((polar 1 first.getBearing + polar 1 last.getBearing) / 2)
    * 180 / Real.pi) / 360⌋, ?_⟩
  rw [hf1]
  push_cast
  ring

/-- C12 on the merged picture of two vessels at 179° and -179°. -/
theorem getCameraAngleDeg_north_witness :
    seamPicture.vessels ≠ [] ∧
    ∃ e n : ℝ, seamPicture.getCameraAngleDeg 'E' = .ok e ∧
      seamPicture.getCameraAngleDeg 'N' = .ok n ∧
      n = (450 - e) - 360 * (⌊(450 - e) / 360⌋ : ℝ) ∧ 0 ≤ n ∧ n < 360 ∧
      ∃ k : ℤ, n = 90 - e + 360 * (k : ℝ) :=
  ⟨by simp [seamPicture, Picture.ofRange],
    getCameraAngleDeg_north seamPicture (by simp [seamPicture, Picture.ofRange])⟩

/-- In exact arithmetic (π for `M_PI`, the angle unrounded): for a picture with at least
one vessel the value of `getMaxAngularDistanceDeg` lies in `(-180, 180]` and differs
from the difference of the last and the first bearing, in degrees, by a multiple of 360.
On `double`s the lower end is attained: see `getMaxAngularDistanceDegDouble`. -/
theorem getMaxAngularDistanceDeg_signed (p : Picture ℝ) (h : p.vessels ≠ []) :
    ∃ (first last : RelativeVessel ℝ) (d : ℝ), front p.vessels = .ok first ∧
      back p.vessels = .ok last ∧ p.getMaxAngularDistanceDeg = .ok d ∧
      -180 < d ∧ d ≤ 180 ∧
      ∃ k : ℤ, d = (last.getBearing - first.getBearing) * 180 / Real.pi + 360 * (k : ℝ) := by
  obtain ⟨first, last, h1, h2⟩ := front_back_of_ne_nil p.vessels h
  have hpi := Real.pi_pos
  have hd : p.getMaxAngularDistanceDeg
      = .ok (arg (polar 1 last.getBearing / polar 1 first.getBearing) * 180 / Real.pi) := by
    unfold Picture.getMaxAngularDistanceDeg
    rw [h1, h2]
  have hr := arg_deg_range (polar 1 last.getBearing / polar 1 first.getBearing)
  refine ⟨first, last, _, h1, h2, hd, hr.1, hr.2, ?_⟩
  have hq : polar 1 last.getBearing / polar 1 first.getBearing
      = Complex.exp (((last.getBearing - first.getBearing : ℝ) : ℂ) * Complex.I) := by
    rw [polar_one, polar_one, ← Complex.exp_sub]
    congr 1
    push_cast
    ring
  rw [hq, arg_eq, Complex.arg_exp_mul_I]
  have hmod := toIocMod_add_toIocDiv_zsmul (mul_pos two_pos Real.pi_pos) (-Real.pi)
    (last.getBearing - first.getBearing)
  refine ⟨-(toIocDiv (mul_pos two_pos Real.pi_pos) (-Real.pi)
    (last.getBearing - first.getBearing)), ?_⟩
  rw [zsmul_eq_mul] at hmod
  have key : ∀ m kk θ : ℝ, m + kk * (2 * Real.pi) = θ →
      m * 180 / Real.pi = θ * 180 / Real.pi + 360 * (-kk) := by
    intro m kk θ hm
    rw [← hm]
    field_simp
    ring
  have := key _ _ _ hmod
  rw [this]
  push_cast
  ring

/-- The exact value of `getMaxAngularDistanceDeg` on the merged picture of two vessels at
179° and -179°. -/
theorem getMaxAngularDistanceDeg_signed_witness :
    seamPicture.vessels ≠ [] ∧
    ∃ (first last : RelativeVessel ℝ) (d : ℝ), front seamPicture.vessels = .ok first ∧
      back seamPicture.vessels = .ok last ∧ seamPicture.getMaxAngularDistanceDeg = .ok d ∧
      -180 < d ∧ d ≤ 180 ∧
      ∃ k : ℤ, d = (last.getBearing - first.getBearing) * 180 / Real.pi + 360 * (k : ℝ) :=
  ⟨by simp [seamPicture, Picture.ofRange],
    getMaxAngularDistanceDeg_signed seamPicture (by simp [seamPicture, Picture.ofRange])⟩

end CameraClaims

/-! ## Bearing, distance and unit conversion -/

section GeodesyClaims

/-- In exact arithmetic (π for `M_PI`, the angle unrounded): the bearing the constructor
computes, read in degrees, lies in `(-180, 180]`.  On `double`s the lower end is attained:
see `RelativeVessel.computeBearingDouble`. -/
theorem getBearingDeg_range (latin lonin : ℝ) (namein : String) (drone : Vessel ℝ)
    (margin : ℝ) :
    RelativeVessel.computeBearing (Vessel.construct Real.pi latin lonin namein) drone
      = (RelativeVessel.construct latin lonin namein drone margin).getBearing ∧
    -180 < (RelativeVessel.construct latin lonin namein drone margin).getBearingDeg Real.pi ∧
    (RelativeVessel.construct latin lonin namein drone margin).getBearingDeg Real.pi ≤ 180 := by
  have hpi := Real.pi_pos
  have hb : (RelativeVessel.construct latin lonin namein drone margin).bearing
      = RelativeVessel.computeBearing (Vessel.construct Real.pi latin lonin namein) drone :=
    rfl
  have h1 : -Real.pi < RelativeVessel.computeBearing
      (Vessel.construct Real.pi latin lonin namein) drone := by
    unfold RelativeVessel.computeBearing atan2
    exact Complex.neg_pi_lt_arg _
  have h2 : RelativeVessel.computeBearing
      (Vessel.construct Real.pi latin lonin namein) drone ≤ Real.pi := by
    unfold RelativeVessel.computeBearing atan2
    exact Complex.arg_le_pi _
  refine ⟨rfl, ?_, ?_⟩
  · unfold RelativeVessel.getBearingDeg
    rw [hb, lt_div_iff₀ hpi]
    linarith
  · unfold RelativeVessel.getBearingDeg
    rw [hb, div_le_iff₀ hpi]
    linarith

/-- C17.  A `Vessel` built from a latitude and a longitude in degrees gives both back
from `getLatDeg` and `getLonDeg`, and `lat * pi / 180`, `lon * pi / 180` from `getLat` and
`getLon` (exact arithmetic, `pi` not zero). -/
theorem vessel_deg_roundtrip {K : Type} [LinearOrderedField K] (pi latin lonin : K)
    (namein : String) (hpi : pi ≠ 0) :
    (Vessel.construct pi latin lonin namein).getLatDeg pi = latin ∧
    (Vessel.construct pi latin lonin namein).getLonDeg pi = lonin ∧
    (Vessel.construct pi latin lonin namein).getLat = latin * pi / 180 ∧
    (Vessel.construct pi latin lonin namein).getLon = lonin * pi / 180 ∧
    (Vessel.construct pi latin lonin namein).getName = namein := by
  refine ⟨?_, ?_, rfl, rfl, rfl⟩
  · simp only [Vessel.getLatDeg, Vessel.construct]
    field_simp
  · simp only [Vessel.getLonDeg, Vessel.construct]
    field_simp

/-- C17 on the drone of `TEST(Vessel, LatLon)`, with the value of the constant `M_PI`. -/
theorem vessel_deg_roundtrip_witness :
    M_PI ≠ 0 ∧
    (Vessel.construct M_PI 37.760132 (-122.3264815) "drone").getLatDeg M_PI = 37.760132 ∧
    (Vessel.construct M_PI 37.760132 (-122.3264815) "drone").getLonDeg M_PI = -122.3264815 ∧
    (Vessel.construct M_PI 37.760132 (-122.3264815) "drone").getLat
      = 37.760132 * M_PI / 180 ∧
    (Vessel.construct M_PI 37.760132 (-122.3264815) "drone").getLon
      = -122.3264815 * M_PI / 180 ∧
    (Vessel.construct M_PI 37.760132 (-122.3264815) "drone").getName = "drone" :=
  ⟨by decide!, vessel_deg_roundtrip M_PI 37.760132 (-122.3264815) "drone" (by decide!)⟩

end GeodesyClaims

/-! ## The merge step and the sweep in detail -/

section GreedyLemmas

variable {K : Type} [LinearOrderedField K]

/-- The first picture of the loop starts with the open group. -/
theorem sweepLoop_head (FOV : K) (r : RelativeVessel K) (g l : List (RelativeVessel K)) :
    ∃ p ps l₁, sweepLoop FOV r g l = p :: ps ∧ p.vessels = g ++ l₁ := by
  induction l generalizing r g with
  | nil => exact ⟨Picture.ofRange FOV g, [], [], rfl, by simp [Picture.ofRange]⟩
  | cons v rest ih =>
    unfold sweepLoop
    simp only
    split
    · exact ⟨Picture.ofRange FOV g, _, [], rfl, by simp [Picture.ofRange]⟩
    · obtain ⟨p, ps, l₁, h, hp⟩ := ih r (g ++ [v])
      exact ⟨p, ps, v :: l₁, h, by rw [hp]; simp⟩

/-- Each picture of the loop is closed by a vessel that does not fit behind its anchor:
the anchor of the next picture. -/
theorem sweepLoop_chain (FOV : K) (r : RelativeVessel K) (g l : List (RelativeVessel K)) :
    List.Chain' (fun p q : Picture K => ∃ a b, p.vessels.head? = some a ∧
      q.vessels.head? = some b ∧
      FOV ≤ (b.getBearing + b.getMargin) - (a.getBearing - a.getMargin))
      (sweepLoop FOV r (r :: g) l) := by
  induction l generalizing r g with
  | nil => exact List.chain'_singleton _
  | cons v rest ih =>
    unfold sweepLoop
    simp only
    split
    · rename_i hge
      refine List.Chain'.cons' (ih v []) ?_
      intro y hy
      obtain ⟨p, ps, l₁, h, hp⟩ := sweepLoop_head FOV v [v] rest
      rw [h] at hy
      simp only [List.head?_cons, Option.mem_def, Option.some.injEq] at hy
      subst hy
      exact ⟨r, v, rfl, by rw [hp]; rfl, hge⟩
    · exact ih r (g ++ [v])

/-- The greedy sweep.  When the lowest-bearing vessel passes the test against itself,
the pictures of the sweep cut the sorted list into consecutive runs; each run starts
with its anchor, every later member of the run fits behind the anchor, and the vessel
that follows the run, the next anchor, does not. -/
theorem sweep_greedy (FOV : K) (v : RelativeVessel K) (rest : List (RelativeVessel K))
    (hv : (v.getBearing + v.getMargin) - (v.getBearing - v.getMargin) < FOV) :
    ((sweep FOV (v :: rest)).map Picture.vessels).flatten = v :: rest ∧
    (∀ p ∈ sweep FOV (v :: rest), ∃ a run, p.vessels = a :: run ∧
      ∀ w ∈ run, (w.getBearing + w.getMargin) - (a.getBearing - a.getMargin) < FOV) ∧
    List.Chain' (fun p q : Picture K => ∃ a b, p.vessels.head? = some a ∧
      q.vessels.head? = some b ∧
      FOV ≤ (b.getBearing + b.getMargin) - (a.getBearing - a.getMargin))
      (sweep FOV (v :: rest)) := by
  refine ⟨sweep_flatten FOV _, ?_, ?_⟩
  · rw [sweep_cons, if_neg (not_le.mpr hv)]
    intro p hp
    obtain ⟨a, run, h1, _, h3⟩ := sweepLoop_anchored FOV v [] rest (by simp) p hp
    exact ⟨a, run, h1, h3⟩
  · rw [sweep_cons, if_neg (not_le.mpr hv)]
    exact sweepLoop_chain FOV v [] rest

/-- A picture of the sweep holds consecutive vessels of the sorted list, so its own
list is sorted. -/
theorem sweep_picture_sorted (FOV : K) (vs : List (RelativeVessel K)) (p : Picture K)
    (hp : p ∈ sweep FOV (listSort sortByBearing vs)) :
    p.vessels.Sorted (notAfter sortByBearing) := by
  have hflat := sweep_flatten FOV (listSort sortByBearing vs)
  have hsub : List.Sublist p.vessels
      ((sweep FOV (listSort sortByBearing vs)).map Picture.vessels).flatten :=
    List.sublist_flatten_of_mem (List.mem_map_of_mem _ hp)
  rw [hflat] at hsub
  exact List.Pairwise.sublist hsub (listSort_sorted vs)

end GreedyLemmas

section PartitionClaims

variable {K : Type} [LinearOrderedField K]

/-- C18.  When the sweep produced the pictures `P1, mid, Pk` (at least two), `v1` is the
last member of `P1` and `v2` the first member of `Pk`: if the gap
`(v1.bearing + v1.margin) + (2π - v2.bearing) + v2.margin` is below the field of view,
`makePictures` returns `M, mid`, where the vessels of `M` are those of `Pk` followed by
those of `P1` and its field of view is that of `P1`; otherwise it returns `P1, mid, Pk`.
In both cases `mid` is returned as it is. -/
theorem makePictures_merge (pi FOV : K) (vs : List (RelativeVessel K))
    (P1 Pk : Picture K) (mid : List (Picture K)) (v1 v2 : RelativeVessel K)
    (hsweep : sweep (FOV * (pi / 180)) (listSort sortByBearing vs) = P1 :: (mid ++ [Pk]))
    (h1 : back P1.getVessels = .ok v1) (h2 : front Pk.getVessels = .ok v2) :
    makePictures pi FOV vs
      = (if v1.getBearing + v1.getMargin + (2 * pi - v2.getBearing) + v2.getMargin
            < FOV * (pi / 180) then
          .ok (P1.addVessels Pk.getVessels false :: mid)
        else .ok (P1 :: (mid ++ [Pk]))) ∧
    (P1.addVessels Pk.getVessels false).getVessels = Pk.getVessels ++ P1.getVessels ∧
    (P1.addVessels Pk.getVessels false).FOV = P1.FOV := by
  refine ⟨?_, rfl, rfl⟩
  unfold makePictures
  simp only [hsweep]
  have hlast : (P1 :: (mid ++ [Pk])).getLast (List.cons_ne_nil _ _) = Pk := by simp
  rw [mergeStep_cons pi (FOV * (pi / 180)) P1 (mid ++ [Pk]) v1 v2
    ((back_eq_ok_iff _ _).mp h1) (by rw [hlast]; exact (front_eq_ok_iff _ _).mp h2)]
  rw [hlast, ← List.cons_append, List.dropLast_concat]

/-- C18 on two vessels on either side of the seam (the gap is below the field of view)
and on two vessels far apart (it is not). -/
theorem makePictures_merge_witness :
    sweep (80 * (M_PI / 180)) (listSort sortByBearing [pairLow, pairHigh])
      = Picture.ofRange (80 * (M_PI / 180)) [pairLow]
        :: ([] ++ [Picture.ofRange (80 * (M_PI / 180)) [pairHigh]]) ∧
    back (Picture.ofRange (80 * (M_PI / 180)) [pairLow]).getVessels = .ok pairLow ∧
    front (Picture.ofRange (80 * (M_PI / 180)) [pairHigh]).getVessels = .ok pairHigh ∧
    makePictures M_PI 80 [pairLow, pairHigh]
      = .ok [Picture.ofRange (80 * (M_PI / 180)) [pairHigh, pairLow]] ∧
    makePictures M_PI 80 [farVessel1, tieX]
      = .ok [Picture.ofRange (80 * (M_PI / 180)) [farVessel1],
             Picture.ofRange (80 * (M_PI / 180)) [tieX]] := by
  have h := makePictures_merge M_PI 80 [pairLow, pairHigh]
    (Picture.ofRange (80 * (M_PI / 180)) [pairLow])
    (Picture.ofRange (80 * (M_PI / 180)) [pairHigh]) [] pairLow pairHigh
    (by decide!) (by decide!) (by decide!)
  have h' := makePictures_merge M_PI 80 [farVessel1, tieX]
    (Picture.ofRange (80 * (M_PI / 180)) [farVessel1])
    (Picture.ofRange (80 * (M_PI / 180)) [tieX]) [] farVessel1 tieX
    (by decide!) (by decide!) (by decide!)
  refine ⟨by decide!, by decide!, by decide!, ?_, ?_⟩
  · rw [h.1]
    decide!
  · rw [h'.1]
    decide!

/-- C19, evaluated on the code.  For the fixture drone, the field of view of 80° and the
vessels Morpheus and a vessel 111 m south of the drone, the first picture the sweep
creates is not a run that starts at its anchor: the anchor, the close vessel, fails the
test against itself, and the picture made of `[refVessel, ptr)` has no member at all;
the run `[close]` only comes second. -/
theorem sweep_first_run_empty :
    listSort sortByBearing [morpheus, closeVessel] = [closeVessel, morpheus] ∧
    sweep (80 * (Real.pi / 180)) (listSort sortByBearing [morpheus, closeVessel])
      = [Picture.ofRange (80 * (Real.pi / 180)) [],
         Picture.ofRange (80 * (Real.pi / 180)) [closeVessel],
         Picture.ofRange (80 * (Real.pi / 180)) [morpheus]] ∧
    front (Picture.ofRange (80 * (Real.pi / 180)) ([] : List (RelativeVessel ℝ))).getVessels
      = .error .frontOfEmptyList := by
  obtain ⟨Am, hbm, hm1, hm2, hm3, hm4⟩ := morpheus_facts
  obtain ⟨hbc, hmc⟩ := closeVessel_facts
  have hp1 := Real.pi_gt_d4
  have hp2 := Real.pi_lt_d4
  have hcm : closeVessel.bearing < morpheus.bearing := by linarith
  have hsort : listSort sortByBearing [morpheus, closeVessel] = [closeVessel, morpheus] := by
    simp only [listSort, List.insertionSort, List.orderedInsert, notAfter_sortByBearing_iff,
      hcm.le, not_le.mpr hcm, if_true, if_false]
  have hw : 80 * (Real.pi / 180) ≤ (closeVessel.getBearing + closeVessel.getMargin)
      - (closeVessel.getBearing - closeVessel.getMargin) := by
    simp only [RelativeVessel.getBearing, RelativeVessel.getMargin]
    linarith
  have hn : (morpheus.getBearing + morpheus.getMargin)
      - (closeVessel.getBearing - closeVessel.getMargin) ≥ 80 * (Real.pi / 180) := by
    simp only [RelativeVessel.getBearing, RelativeVessel.getMargin]
    linarith
  refine ⟨hsort, ?_, rfl⟩
  rw [(makePictures_first_wide Real.pi 80 _ closeVessel [morpheus] hsort hw).1]
  simp only [sweepLoop, hn, if_true]

/-- C20.  When `makePictures` returns the pictures of the sweep as they are (the merge
step is not triggered), their vessel lists, put end to end in output order, are the
input sorted by ascending bearing with equal bearings kept in input order (a permutation
of the input, with non-decreasing bearings, in which every non-decreasing selection of
the input keeps its order); and in each picture the first member has the smallest and
the last member the largest bearing. -/
theorem makePictures_unmerged_sorted (pi FOV : K) (vs : List (RelativeVessel K))
    (ps : List (Picture K)) (hret : makePictures pi FOV vs = .ok ps)
    (hun : ps = sweep (FOV * (pi / 180)) (listSort sortByBearing vs)) :
    (ps.map Picture.getVessels).flatten = listSort sortByBearing vs ∧
    (listSort sortByBearing vs).Perm vs ∧
    (listSort sortByBearing vs).Pairwise (fun a b => a.bearing ≤ b.bearing) ∧
    (∀ c : List (RelativeVessel K), List.Sublist c vs →
      c.Pairwise (fun a b => a.bearing ≤ b.bearing) →
      List.Sublist c (listSort sortByBearing vs)) ∧
    ∀ p ∈ ps, ∃ first last, front p.getVessels = .ok first ∧ back p.getVessels = .ok last ∧
      ∀ v ∈ p.getVessels, first.bearing ≤ v.bearing ∧ v.bearing ≤ last.bearing := by
  have hiff : ∀ a b : RelativeVessel K, notAfter sortByBearing a b ↔ a.bearing ≤ b.bearing :=
    notAfter_sortByBearing_iff
  refine ⟨?_, listSort_perm vs, ?_, ?_, ?_⟩
  · rw [hun]
    exact sweep_flatten _ _
  · exact List.Pairwise.imp (fun h => (hiff _ _).mp h) (listSort_sorted vs)
  · intro c hc hpair
    exact List.sublist_insertionSort (List.Pairwise.imp (fun h => (hiff _ _).mpr h) hpair) hc
  · intro p hp
    obtain ⟨first, last, hf, hl⟩ :=
      front_back_of_ne_nil p.getVessels (makePictures_mem pi FOV vs ps p hret hp).1
    refine ⟨first, last, hf, hl, ?_⟩
    intro v hv
    rw [hun] at hp
    have hs := sweep_picture_sorted _ vs p hp
    exact ⟨sorted_head_le _ hs first ((front_eq_ok_iff _ _).mp hf) v hv,
      sorted_le_getLast _ hs last ((back_eq_ok_iff _ _).mp hl) v hv⟩

/-- C20 on two vessels far apart, given in descending order of bearing. -/
theorem makePictures_unmerged_sorted_witness :
    makePictures M_PI 80 [tieX, farVessel1]
      = .ok [Picture.ofRange (80 * (M_PI / 180)) [farVessel1],
             Picture.ofRange (80 * (M_PI / 180)) [tieX]] ∧
    [Picture.ofRange (80 * (M_PI / 180)) [farVessel1],
     Picture.ofRange (80 * (M_PI / 180)) [tieX]]
      = sweep (80 * (M_PI / 180)) (listSort sortByBearing [tieX, farVessel1]) ∧
    ([Picture.ofRange (80 * (M_PI / 180)) [farVessel1],
      Picture.ofRange (80 * (M_PI / 180)) [tieX]].map Picture.getVessels).flatten
      = listSort sortByBearing [tieX, farVessel1] ∧
    listSort sortByBearing [tieX, farVessel1] = [farVessel1, tieX] :=
  ⟨by decide!, by decide!,
    (makePictures_unmerged_sorted M_PI 80 [tieX, farVessel1]
      [Picture.ofRange (80 * (M_PI / 180)) [farVessel1],
       Picture.ofRange (80 * (M_PI / 180)) [tieX]] (by decide!) (by decide!)).1,
    by decide!⟩

end PartitionClaims

/-! ## Totality, order independence and optimality of the sweep -/

section OrderLemmas

variable {K : Type} [LinearOrderedField K]

/-- A list sorted by bearing whose bearings are pairwise distinct is strictly sorted. -/
theorem sorted_strict_of_nodup (l : List (RelativeVessel K))
    (hs : l.Sorted (notAfter sortByBearing))
    (hd : (l.map RelativeVessel.getBearing).Nodup) :
    l.Pairwise (fun a b => a.bearing < b.bearing) := by
  have hne : l.Pairwise (fun a b => a.getBearing ≠ b.getBearing) := by
    have := hd
    rw [List.Nodup, List.pairwise_map] at this
    exact this
  have hle : l.Pairwise (fun a b => a.bearing ≤ b.bearing) :=
    List.Pairwise.imp (fun h => (notAfter_sortByBearing_iff _ _).mp h) hs
  exact List.Pairwise.imp (fun h => lt_of_le_of_ne h.1 h.2) (hle.and hne)

/-- Two lists of vessels with pairwise distinct bearings that are permutations of each
other are sorted to the same list. -/
theorem listSort_eq_of_perm (l₁ l₂ : List (RelativeVessel K)) (hp : l₁.Perm l₂)
    (hd : (l₁.map RelativeVessel.getBearing).Nodup) :
    listSort sortByBearing l₁ = listSort sortByBearing l₂ := by
  have hp' : (listSort sortByBearing l₁).Perm (listSort sortByBearing l₂) :=
    ((listSort_perm l₁).trans hp).trans (listSort_perm l₂).symm
  have hd₁ : ((listSort sortByBearing l₁).map RelativeVessel.getBearing).Nodup :=
    ((listSort_perm l₁).map _).nodup_iff.mpr hd
  have hd₂ : ((listSort sortByBearing l₂).map RelativeVessel.getBearing).Nodup :=
    (hp'.map _).nodup_iff.mp hd₁
  haveI : IsAntisymm (RelativeVessel K) (fun a b => a.bearing < b.bearing) :=
    ⟨fun a b h₁ h₂ => absurd h₂ (not_lt.mpr h₁.le)⟩
  exact List.eq_of_perm_of_sorted hp'
    (sorted_strict_of_nodup _ (listSort_sorted l₁) hd₁)
    (sorted_strict_of_nodup _ (listSort_sorted l₂) hd₂)

/-- A call of `makePictures` on a list whose lowest-bearing vessel passes the test
against itself returns: the first and the last picture of the sweep have a member. -/
theorem makePictures_returns (pi FOV : K) (vs : List (RelativeVessel K))
    (v : RelativeVessel K) (rest : List (RelativeVessel K))
    (hs : listSort sortByBearing vs = v :: rest)
    (hv : (v.getBearing + v.getMargin) - (v.getBearing - v.getMargin) < FOV * (pi / 180)) :
    ∃ ps, makePictures pi FOV vs = .ok ps := by
  have hsw : sweep (FOV * (pi / 180)) (listSort sortByBearing vs)
      = sweepLoop (FOV * (pi / 180)) v [v] rest := by
    rw [hs, sweep_cons, if_neg (not_le.mpr hv)]
  have hanch := sweepLoop_anchored (FOV * (pi / 180)) v [] rest (by simp)
  unfold makePictures
  simp only [hsw]
  cases hpics : sweepLoop (FOV * (pi / 180)) v [v] rest with
  | nil => exact absurd hpics (sweepLoop_ne_nil _ _ _ _)
  | cons first restp =>
    rw [hpics] at hanch
    obtain ⟨a, r, hfa, _, _⟩ := hanch first (List.mem_cons_self _ _)
    obtain ⟨b, r', hlb, _, _⟩ := hanch ((first :: restp).getLast (List.cons_ne_nil _ _))
      (List.getLast_mem _)
    have h1 : first.vessels.getLast? = some ((a :: r).getLast (List.cons_ne_nil _ _)) := by
      rw [hfa]
      exact List.getLast?_eq_getLast _ _
    have h2 : ((first :: restp).getLast (List.cons_ne_nil first restp)).vessels.head?
        = some b := by
      rw [hlb]
      rfl
    rw [mergeStep_cons pi _ first restp _ b h1 h2]
    split
    · exact ⟨_, rfl⟩
    · exact ⟨_, rfl⟩

end OrderLemmas

section OptimalityLemmas

/-- Pigeonhole on lists: when the members of `l` exclude each other pairwise (`R`), every
member lies in a group and no group holds two members that exclude each other, there are
at least as many groups as members. -/
theorem length_le_of_cover {α β : Type} (R : α → α → Prop) (inG : α → β → Prop) :
    ∀ (groups : List β) (l : List α), l.Pairwise R →
      (∀ x ∈ l, ∃ G ∈ groups, inG x G) →
      (∀ G ∈ groups, ∀ x y, inG x G → inG y G → ¬ R x y) →
      l.length ≤ groups.length := by
  classical
  intro groups
  induction groups with
  | nil =>
    intro l _ hc _
    cases l with
    | nil => exact le_refl _
    | cons x t =>
      obtain ⟨G, hG, _⟩ := hc x (List.mem_cons_self _ _)
      exact absurd hG (List.not_mem_nil _)
  | cons G gs ih =>
    intro l hp hc hex
    have hone : ∀ l₁ : List α, l₁.Pairwise R → (∀ x ∈ l₁, inG x G) → l₁.length ≤ 1 := by
      intro l₁ hp₁ hin
      match l₁, hp₁, hin with
      | [], _, _ => exact Nat.zero_le _
      | [_], _, _ => exact le_refl _
      | x :: y :: t, hp₁, hin =>
        have hR : R x y := (List.pairwise_cons.mp hp₁).1 y (List.mem_cons_self _ _)
        exact absurd hR (hex G (List.mem_cons_self _ _) x y
          (hin x (List.mem_cons_self _ _))
          (hin y (List.mem_cons_of_mem _ (List.mem_cons_self _ _))))
    have hsplit := List.length_eq_length_filter_add (l := l) (fun x => decide (inG x G))
    have h1 : (l.filter (fun x => decide (inG x G))).length ≤ 1 := by
      apply hone _ (hp.sublist (List.filter_sublist _))
      intro x hx
      have := (List.mem_filter.mp hx).2
      simpa using this
    have h2 : (l.filter (fun x => !decide (inG x G))).length ≤ gs.length := by
      apply ih _ (hp.sublist (List.filter_sublist _))
      · intro x hx
        obtain ⟨hxl, hxn⟩ := List.mem_filter.mp hx
        have hxn' : ¬ inG x G := by simpa using hxn
        obtain ⟨G', hG', hin⟩ := hc x hxl
        rcases List.mem_cons.mp hG' with rfl | hgs
        · exact absurd hin hxn'
        · exact ⟨G', hgs, hin⟩
      · intro G' hG'
        exact hex G' (List.mem_cons_of_mem _ hG')
    rw [hsplit, List.length_cons]
    omega

variable {K : Type} [LinearOrderedField K]

/-- With one margin `m` for all vessels and `2 * m` below the field of view, the
anchors of any two pictures of the sweep are at least `FOV - 2 * m` apart. -/
theorem sweep_anchors_apart (FOV m : K) (v : RelativeVessel K)
    (rest : List (RelativeVessel K)) (hm : ∀ w ∈ v :: rest, w.getMargin = m)
    (h1 : 2 * m < FOV) :
    (∀ p ∈ sweep FOV (v :: rest), ∃ a, p.vessels.head? = some a ∧ a ∈ v :: rest) ∧
    (sweep FOV (v :: rest)).Pairwise (fun p q : Picture K => ∃ a b,
      p.vessels.head? = some a ∧ q.vessels.head? = some b ∧
      a.getBearing + (FOV - 2 * m) ≤ b.getBearing) := by
  have hv : (v.getBearing + v.getMargin) - (v.getBearing - v.getMargin) < FOV := by
    rw [hm v (List.mem_cons_self _ _)]
    linarith
  obtain ⟨hflat, hanch, hchain⟩ := sweep_greedy FOV v rest hv
  have hhead : ∀ p ∈ sweep FOV (v :: rest),
      ∃ a, p.vessels.head? = some a ∧ a ∈ v :: rest := by
    intro p hp
    obtain ⟨a, run, hpv, _⟩ := hanch p hp
    refine ⟨a, by rw [hpv]; rfl, ?_⟩
    rw [← hflat]
    exact List.mem_flatten.mpr ⟨p.vessels, List.mem_map.mpr ⟨p, hp, rfl⟩,
      by rw [hpv]; exact List.mem_cons_self _ _⟩
  refine ⟨hhead, ?_⟩
  haveI : IsTrans (Picture K) (fun p q : Picture K => ∃ a b,
      p.vessels.head? = some a ∧ q.vessels.head? = some b ∧
      a.getBearing + (FOV - 2 * m) ≤ b.getBearing) :=
    ⟨fun p q r hpq hqr => by
      obtain ⟨a, b, ha, hb, hab⟩ := hpq
      obtain ⟨b', c, hb', hc, hbc⟩ := hqr
      rw [hb] at hb'
      cases hb'
      exact ⟨a, c, ha, hc, by linarith⟩⟩
  apply List.chain'_iff_pairwise.mp
  refine List.Chain'.imp ?_ (List.Chain'.iff_mem.mp hchain)
  rintro p q ⟨hp, hq, a, b, ha, hb, hab⟩
  obtain ⟨a', ha', hamem⟩ := hhead p hp
  obtain ⟨b', hb', hbmem⟩ := hhead q hq
  rw [ha] at ha'
  rw [hb] at hb'
  cases ha'
  cases hb'
  refine ⟨a, b, ha, hb, ?_⟩
  rw [hm a hamem, hm b hbmem] at hab
  linarith

/-- Optimality of the sweep on a non-empty list with one margin `m` for all vessels,
`0 ≤ 2 * m < FOV`: it creates no more pictures than any partition of the vessels has
groups, when in every group the largest bearing plus `m` minus the smallest bearing
minus `m` is below the field of view. -/
theorem sweep_optimal (pi FOV m : K) (vs : List (RelativeVessel K))
    (groups : List (List (RelativeVessel K))) (hne : vs ≠ [])
    (hm : ∀ v ∈ vs, v.getMargin = m) (_h0 : 0 ≤ 2 * m) (h1 : 2 * m < FOV * (pi / 180))
    (hpart : groups.flatten.Perm vs)
    (hfit : ∀ G ∈ groups, ∀ x ∈ G, ∀ y ∈ G,
      (x.getBearing + m) - (y.getBearing - m) < FOV * (pi / 180)) :
    (sweep (FOV * (pi / 180)) (listSort sortByBearing vs)).length ≤ groups.length := by
  have hperm := listSort_perm vs
  cases hs : listSort sortByBearing vs with
  | nil =>
    rw [hs] at hperm
    exact absurd (List.Perm.nil_eq hperm) (fun h => hne h.symm)
  | cons v rest =>
    have hmem : ∀ w ∈ v :: rest, w ∈ vs := by
      intro w hw
      apply hperm.subset
      rw [hs]
      exact hw
    obtain ⟨hhead, hpair⟩ := sweep_anchors_apart (FOV * (pi / 180)) m v rest
      (fun w hw => hm w (hmem w hw)) h1
    refine length_le_of_cover _
      (fun (p : Picture K) (G : List (RelativeVessel K)) =>
        ∃ a, p.vessels.head? = some a ∧ a ∈ G) groups _ hpair ?_ ?_
    · intro p hp
      obtain ⟨a, ha, hamem⟩ := hhead p hp
      have : a ∈ groups.flatten := hpart.symm.subset (hmem a hamem)
      obtain ⟨G, hG, haG⟩ := List.mem_flatten.mp this
      exact ⟨G, hG, a, ha, haG⟩
    · rintro G hG p q ⟨a, ha, haG⟩ ⟨b, hb, hbG⟩ ⟨a', b', ha', hb', hab⟩
      rw [ha] at ha'
      rw [hb] at hb'
      cases ha'
      cases hb'
      have := hfit G hG b hbG a haG
      linarith

end OptimalityLemmas

section TotalityClaims

variable {K : Type} [LinearOrderedField K]

/-- In exact arithmetic: for a field of view of `0 < FOV ≤ 360` degrees and a non-empty
list of vessels with no negative margin, bearings in `(-pi, pi]` and `2 * margin < FOV`
for every vessel of lowest bearing, `makePictures` returns a non-empty list of pictures,
each with at least one vessel, whose vessel lists put end to end are a permutation of the
input.  At 360° the rounding of `double`s decides otherwise: see `makePicturesDouble`. -/
theorem makePictures_partition (pi FOV : K) (vs : List (RelativeVessel K)) (hpi : 0 < pi)
    (hne : vs ≠ []) (_hF0 : 0 < FOV) (hF : FOV ≤ 360)
    (hmar : ∀ v ∈ vs, 0 ≤ v.getMargin)
    (_hrange : ∀ v ∈ vs, -pi < v.getBearing ∧ v.getBearing ≤ pi)
    (hlow : ∀ v ∈ vs, (∀ w ∈ vs, v.getBearing ≤ w.getBearing) →
      2 * v.getMargin < FOV * (pi / 180)) :
    ∃ ps, makePictures pi FOV vs = .ok ps ∧ ps ≠ [] ∧
      (∀ p ∈ ps, p.getVessels ≠ []) ∧
      ((ps.map Picture.getVessels).flatten).Perm vs := by
  have hperm := listSort_perm vs
  cases hs : listSort sortByBearing vs with
  | nil =>
    rw [hs] at hperm
    exact absurd (List.Perm.nil_eq hperm) (fun h => hne h.symm)
  | cons v rest =>
    have hvmem : v ∈ vs := by
      apply hperm.subset
      rw [hs]
      exact List.mem_cons_self _ _
    have hmin : ∀ w ∈ vs, v.getBearing ≤ w.getBearing := by
      intro w hw
      have hsorted := listSort_sorted vs
      rw [hs] at hsorted
      exact sorted_head_le _ hsorted v rfl w (by rw [← hs]; exact hperm.symm.subset hw)
    have hv : (v.getBearing + v.getMargin) - (v.getBearing - v.getMargin)
        < FOV * (pi / 180) := by
      have := hlow v hvmem hmin
      linarith
    obtain ⟨ps, hps⟩ := makePictures_returns pi FOV vs v rest hs hv
    have hFle : FOV * (pi / 180) ≤ 2 * pi := by
      have : FOV * pi ≤ 360 * pi := mul_le_mul_of_nonneg_right hF hpi.le
      linarith
    have hpp := makePictures_perm pi FOV vs ps hps hFle hmar
    refine ⟨ps, hps, ?_, ?_, hpp⟩
    · intro h
      rw [h] at hpp
      exact hne (List.Perm.nil_eq hpp).symm
    · intro p hp
      exact (makePictures_mem pi FOV vs ps p hps hp).1

/-- The exact partition of two vessels far apart, given in descending order of bearing:
two pictures of one vessel each. -/
theorem makePictures_partition_witness :
    makePictures M_PI 80 [tieX, farVessel1]
      = .ok [Picture.ofRange (80 * (M_PI / 180)) [farVessel1],
             Picture.ofRange (80 * (M_PI / 180)) [tieX]] ∧
    ∃ ps, makePictures M_PI 80 [tieX, farVessel1] = .ok ps ∧ ps ≠ [] ∧
      (∀ p ∈ ps, p.getVessels ≠ []) ∧
      ((ps.map Picture.getVessels).flatten).Perm [tieX, farVessel1] :=
  ⟨by decide!,
    makePictures_partition M_PI 80 [tieX, farVessel1] (by decide!) (by decide) (by norm_num)
      (by norm_num) (by decide!) (by decide!) (by decide!)⟩

/-- C22.  Two input lists that are permutations of each other and whose vessels have
pairwise distinct bearings give the same outcome of `makePictures` for every field of
view: the same list of pictures when the call returns. -/
theorem makePictures_order_independent (pi FOV : K) (vs₁ vs₂ : List (RelativeVessel K))
    (hp : vs₁.Perm vs₂) (hd : (vs₁.map RelativeVessel.getBearing).Nodup) :
    makePictures pi FOV vs₁ = makePictures pi FOV vs₂ ∧
    ∀ ps, makePictures pi FOV vs₁ = .ok ps ↔ makePictures pi FOV vs₂ = .ok ps := by
  have h := makePictures_congr_sort pi FOV vs₁ vs₂ (listSort_eq_of_perm vs₁ vs₂ hp hd)
  exact ⟨h, fun ps => by rw [h]⟩

/-- C22 on the four vessels of the ring, given in two orders. -/
theorem makePictures_order_independent_witness :
    [ringWest, ringSouth, ringEast, ringWest2].Perm [ringEast, ringWest2, ringSouth, ringWest] ∧
    ([ringWest, ringSouth, ringEast, ringWest2].map RelativeVessel.getBearing).Nodup ∧
    makePictures M_PI 100 [ringEast, ringWest2, ringSouth, ringWest]
      = .ok [Picture.ofRange (100 * (M_PI / 180)) [ringWest, ringSouth],
             Picture.ofRange (100 * (M_PI / 180)) [ringEast],
             Picture.ofRange (100 * (M_PI / 180)) [ringWest2]] := by
  have hp : [ringWest, ringSouth, ringEast, ringWest2].Perm
      [ringEast, ringWest2, ringSouth, ringWest] := by decide!
  have hd : ([ringWest, ringSouth, ringEast, ringWest2].map
      RelativeVessel.getBearing).Nodup := by decide!
  refine ⟨hp, hd, ?_⟩
  rw [← (makePictures_order_independent M_PI 100 _ _ hp hd).1]
  decide!

/-- C23, evaluated on the code.  For the empty list of vessels the sweep of
`makePictures` creates one picture, with no vessel in it, while the partition of no
vessels has no group (and meets the condition on its groups, with any margin): one
picture against zero groups. -/
theorem sweep_nil_not_optimal :
    (sweep (80 * (M_PI / 180))
      (listSort sortByBearing ([] : List (RelativeVessel ℚ)))).length = 1 ∧
    sweep (80 * (M_PI / 180)) (listSort sortByBearing ([] : List (RelativeVessel ℚ)))
      = [Picture.ofRange (80 * (M_PI / 180)) []] ∧
    (([] : List (List (RelativeVessel ℚ))).flatten).Perm [] ∧
    (∀ G ∈ ([] : List (List (RelativeVessel ℚ))), ∀ x ∈ G, ∀ y ∈ G,
      (x.getBearing + 0) - (y.getBearing - 0) < 80 * (M_PI / 180)) ∧
    ([] : List (List (RelativeVessel ℚ))).length = 0 ∧
    ¬ ((sweep (80 * (M_PI / 180))
        (listSort sortByBearing ([] : List (RelativeVessel ℚ)))).length
      ≤ ([] : List (List (RelativeVessel ℚ))).length) := by
  refine ⟨rfl, rfl, List.Perm.nil, ?_, rfl, ?_⟩
  · intro G hG
    exact absurd hG (List.not_mem_nil _)
  · show ¬ (1 ≤ 0)
    decide

end TotalityClaims

section SymmetryClaims

/-- In exact arithmetic the distance of `computeDistance` is symmetric: a vessel at `A`
seen from a drone at `B` and a vessel at `B` seen from a drone at `A` get the same
distance, also as the constructor of `RelativeVessel` stores it.  (On `double`s the
product `sin² * cos * cos` is rounded from left to right, and the two results can differ
in the last place.) -/
theorem computeDistance_symm (a b : Vessel ℝ) (latA lonA latB lonB : ℝ)
    (nameA nameB : String) (marginA marginB : ℝ) :
    RelativeVessel.computeDistance a b = RelativeVessel.computeDistance b a ∧
    (RelativeVessel.construct latA lonA nameA
        (Vessel.construct Real.pi latB lonB nameB) marginA).dist
      = (RelativeVessel.construct latB lonB nameB
        (Vessel.construct Real.pi latA lonA nameA) marginB).dist := by
  have key : ∀ u w : Vessel ℝ,
      RelativeVessel.computeDistance u w = RelativeVessel.computeDistance w u := by
    intro u w
    unfold RelativeVessel.computeDistance
    simp only [Vessel.getLat, Vessel.getLon]
    have h1 : Real.sin ((w.lat - u.lat) / 2) = -Real.sin ((u.lat - w.lat) / 2) := by
      rw [← Real.sin_neg]
      congr 1
      ring
    have h2 : Real.sin ((w.lon - u.lon) / 2) = -Real.sin ((u.lon - w.lon) / 2) := by
      rw [← Real.sin_neg]
      congr 1
      ring
    rw [h1, h2, neg_sq, neg_sq]
    have e : Real.sin ((u.lon - w.lon) / 2) ^ 2 * Real.cos u.lat * Real.cos w.lat
        = Real.sin ((u.lon - w.lon) / 2) ^ 2 * Real.cos w.lat * Real.cos u.lat := by
      ring
    rw [e]
  refine ⟨key a b, ?_⟩
  show RelativeVessel.computeDistance (Vessel.construct Real.pi latA lonA nameA)
      (Vessel.construct Real.pi latB lonB nameB)
    = RelativeVessel.computeDistance (Vessel.construct Real.pi latB lonB nameB)
      (Vessel.construct Real.pi latA lonA nameA)
  exact key _ _

end SymmetryClaims

/-! ## Angles at the ends of their range -/

section DoubleAngleLemmas

/-- The constant `M_PI` as a real number. -/
theorem M_PI_cast : ((M_PI : ℚ) : ℝ) = 884279719003555 / 281474976710656 := by
  simp [M_PI]

/-- The constant `M_PI` lies below π, by less than `1.3e-16`. -/
theorem M_PI_lt_pi : (0 : ℝ) < (M_PI : ℝ) ∧ (M_PI : ℝ) < Real.pi ∧
    Real.pi - (M_PI : ℝ) < 13 / 10 ^ 17 ∧ 12 / 10 ^ 17 < Real.pi - (M_PI : ℝ) := by
  have h1 := Real.pi_gt_d20
  have h2 := Real.pi_lt_d20
  rw [M_PI_cast]
  refine ⟨by norm_num, ?_, ?_, ?_⟩
  · norm_num at h1 ⊢
    linarith
  · norm_num at h2 ⊢
    linarith
  · norm_num at h1 ⊢
    linarith

/-- The `atan2` of `double`s stays in `[-M_PI, M_PI]`, within `π - M_PI` of the angle. -/
theorem atan2Double_range (y x : ℝ) :
    -(M_PI : ℝ) ≤ atan2Double y x ∧ atan2Double y x ≤ (M_PI : ℝ) ∧
    |atan2Double y x - atan2 y x| ≤ Real.pi - (M_PI : ℝ) := by
  obtain ⟨h0, h1, _, _⟩ := M_PI_lt_pi
  have ha1 : -Real.pi < atan2 y x := Complex.neg_pi_lt_arg _
  have ha2 : atan2 y x ≤ Real.pi := Complex.arg_le_pi _
  unfold atan2Double
  refine ⟨le_max_left _ _, max_le (by linarith) (min_le_left _ _), ?_⟩
  rw [abs_le]
  constructor
  · have : atan2 y x - (Real.pi - (M_PI : ℝ)) ≤ max (-(M_PI : ℝ)) (min (M_PI : ℝ) (atan2 y x)) := by
      apply le_max_of_le_right
      apply le_min
      · linarith
      · linarith
    linarith
  · have : max (-(M_PI : ℝ)) (min (M_PI : ℝ) (atan2 y x)) ≤ atan2 y x + (Real.pi - (M_PI : ℝ)) := by
      apply max_le
      · linarith
      · exact le_trans (min_le_right _ _) (by linarith)
    linarith

/-- An angle at or below `-M_PI` is returned as `-M_PI`. -/
theorem atan2Double_low (y x : ℝ) (h : atan2 y x ≤ -(M_PI : ℝ)) :
    atan2Double y x = -(M_PI : ℝ) := by
  obtain ⟨h0, _, _, _⟩ := M_PI_lt_pi
  unfold atan2Double
  rw [min_eq_right (by linarith), max_eq_left h]

/-- An angle inside `[-M_PI, M_PI]` is returned as it is. -/
theorem atan2Double_mid (y x : ℝ) (h1 : -(M_PI : ℝ) ≤ atan2 y x) (h2 : atan2 y x ≤ (M_PI : ℝ)) :
    atan2Double y x = atan2 y x := by
  unfold atan2Double
  rw [min_eq_right h2, max_eq_right h1]

end DoubleAngleLemmas

section DoubleAngleClaims

/-- C15, the claim as stated fails.  The vessel `RelativeVessel(-1e-20, -1, "v", drone)`
seen from the drone `Vessel(0, 0, "drone")` lies one degree west and a hair south of it:
the angle of `(X, Y)` is within `1e-17` of `-π`, `atan2` returns `-M_PI`, and
`getBearingDeg()` is `-180`, which is not in `(-180, 180]`. -/
theorem getBearingDeg_attains_minus_180 :
    (RelativeVessel.constructDouble (-(1 / 10 ^ 20)) (-1) "v" originDrone 100).getBearing
      = -(M_PI : ℝ) ∧
    (RelativeVessel.constructDouble (-(1 / 10 ^ 20)) (-1) "v" originDrone 100).getBearingDeg
      (M_PI : ℝ) = -180 ∧
    ¬ (-180 < (RelativeVessel.constructDouble (-(1 / 10 ^ 20)) (-1) "v"
        originDrone 100).getBearingDeg (M_PI : ℝ)) := by
  obtain ⟨hM0, hM1, hM2, hM3⟩ := M_PI_lt_pi
  have hb : (RelativeVessel.constructDouble (-(1 / 10 ^ 20)) (-1) "v" originDrone 100).bearing
      = -(M_PI : ℝ) := by
    show RelativeVessel.computeBearingDouble
      (Vessel.construct (M_PI : ℝ) (-(1 / 10 ^ 20)) (-1) "v") originDrone = -(M_PI : ℝ)
    unfold RelativeVessel.computeBearingDouble
    simp only [Vessel.construct, originDrone, Vessel.getLat, Vessel.getLon]
    apply atan2Double_low
    obtain ⟨ε, hε⟩ : ∃ ε : ℝ, ε = 1 / 10 ^ 20 * (M_PI : ℝ) / 180 := ⟨_, rfl⟩
    obtain ⟨δ, hδ⟩ : ∃ δ : ℝ, δ = (M_PI : ℝ) / 180 := ⟨_, rfl⟩
    have e1 : -(1 / 10 ^ 20) * (M_PI : ℝ) / 180 = -ε := by rw [hε]; ring
    have e2 : -1 * (M_PI : ℝ) / 180 - 0 * (M_PI : ℝ) / 180 = -δ := by rw [hδ]; ring
    have e3 : 0 * (M_PI : ℝ) / 180 = 0 := by ring
    rw [e1, e2, e3, Real.cos_neg, Real.sin_neg, Real.sin_neg, Real.cos_zero, Real.sin_zero]
    have hε0 : 0 < ε := by rw [hε]; positivity
    have hεs : ε ≤ 2 / 10 ^ 22 := by
      rw [hε, M_PI_cast]
      norm_num
    have hδ1 : 17 / 1000 ≤ δ := by
      rw [hδ, M_PI_cast]
      norm_num
    have hδ2 : δ ≤ 18 / 1000 := by
      rw [hδ, M_PI_cast]
      norm_num
    have hsinε : 0 < Real.sin ε := Real.sin_pos_of_pos_of_lt_pi hε0 (by linarith)
    have hsinε' : Real.sin ε ≤ ε := Real.sin_le hε0.le
    have hcosε : 9 / 10 ≤ Real.cos ε := by
      have := Real.one_sub_sq_div_two_le_cos (x := ε)
      nlinarith
    have hsinδ : 16 / 1000 ≤ Real.sin δ := by
      have := Real.sin_gt_sub_cube (x := δ) (by linarith) (by linarith)
      have h3 : δ ^ 3 ≤ (18 / 1000) ^ 3 := pow_le_pow_left₀ (by linarith) hδ2 3
      norm_num at h3
      linarith
    have hu : 0 < Real.cos ε * Real.sin δ := by nlinarith
    have hX : Real.cos ε * -Real.sin δ < 0 := by linarith
    have hY : 1 * -Real.sin ε - 0 * Real.cos ε * Real.cos (-δ) < 0 := by linarith
    unfold atan2
    rw [arg_SW _ _ hX hY]
    have e4 : -(1 * -Real.sin ε - 0 * Real.cos ε * Real.cos (-δ)) = Real.sin ε := by ring
    have e5 : -(Real.cos ε * -Real.sin δ) = Real.cos ε * Real.sin δ := by ring
    rw [e4, e5]
    have hlt := arcsin_ratio_lt (Real.cos ε * Real.sin δ) (Real.sin ε) (1 / 10 ^ 17)
      (12 / 10 ^ 17) hu hsinε.le (by nlinarith) (by norm_num) (by norm_num) (by norm_num)
    linarith
  have hdeg : (RelativeVessel.constructDouble (-(1 / 10 ^ 20)) (-1) "v"
      originDrone 100).getBearingDeg (M_PI : ℝ) = -180 := by
    unfold RelativeVessel.getBearingDeg
    rw [hb]
    field_simp
    ring
  refine ⟨hb, hdeg, ?_⟩
  rw [hdeg]
  exact lt_irrefl _

/-- C15, amended.  For every vessel position and every drone position the bearing the
constructor computes lies in `[-M_PI, M_PI]` and, read in degrees, in the closed
interval `[-180, 180]`. -/
theorem getBearingDeg_closed_range (latin lonin : ℝ) (namein : String) (drone : Vessel ℝ)
    (margin : ℝ) :
    RelativeVessel.computeBearingDouble (Vessel.construct (M_PI : ℝ) latin lonin namein) drone
      = (RelativeVessel.constructDouble latin lonin namein drone margin).getBearing ∧
    -(M_PI : ℝ) ≤ (RelativeVessel.constructDouble latin lonin namein drone margin).getBearing ∧
    (RelativeVessel.constructDouble latin lonin namein drone margin).getBearing ≤ (M_PI : ℝ) ∧
    -180 ≤ (RelativeVessel.constructDouble latin lonin namein drone margin).getBearingDeg
      (M_PI : ℝ) ∧
    (RelativeVessel.constructDouble latin lonin namein drone margin).getBearingDeg
      (M_PI : ℝ) ≤ 180 := by
  obtain ⟨hM0, _, _, _⟩ := M_PI_lt_pi
  have hb : (RelativeVessel.constructDouble latin lonin namein drone margin).bearing
      = RelativeVessel.computeBearingDouble
        (Vessel.construct (M_PI : ℝ) latin lonin namein) drone := rfl
  have hr : -(M_PI : ℝ) ≤ RelativeVessel.computeBearingDouble
        (Vessel.construct (M_PI : ℝ) latin lonin namein) drone ∧
      RelativeVessel.computeBearingDouble
        (Vessel.construct (M_PI : ℝ) latin lonin namein) drone ≤ (M_PI : ℝ) := by
    unfold RelativeVessel.computeBearingDouble
    exact ⟨(atan2Double_range _ _).1, (atan2Double_range _ _).2.1⟩
  refine ⟨rfl, ?_, ?_, ?_, ?_⟩
  · exact hr.1
  · exact hr.2
  · unfold RelativeVessel.getBearingDeg
    rw [hb, le_div_iff₀ hM0]
    linarith [hr.1]
  · unfold RelativeVessel.getBearingDeg
    rw [hb, div_le_iff₀ hM0]
    linarith [hr.2]

end DoubleAngleClaims

section DoubleDistanceClaims

/-- The quotient of the unit vectors of two bearings is the unit vector of their
difference. -/
theorem polar_div (b1 b2 : ℝ) :
    polar 1 b2 / polar 1 b1 = Complex.exp (((b2 - b1 : ℝ) : ℂ) * Complex.I) := by
  rw [polar_one, polar_one, ← Complex.exp_sub]
  congr 1
  push_cast
  ring

/-- `getMaxAngularDistanceDeg()` on `double`s for a picture with a first and a last
vessel. -/
theorem getMaxAngularDistanceDegDouble_eq (p : Picture ℝ) (first last : RelativeVessel ℝ)
    (h1 : front p.vessels = .ok first) (h2 : back p.vessels = .ok last) :
    p.getMaxAngularDistanceDegDouble
      = .ok (argDouble (polar 1 last.getBearing / polar 1 first.getBearing)
          * 180 / (M_PI : ℝ)) := by
  unfold Picture.getMaxAngularDistanceDegDouble
  rw [h1, h2]

/-- C14, the claim as stated fails.  For the picture of a vessel due north (bearing
`M_PI / 2`) followed by a vessel due south (bearing `-M_PI / 2`) the quotient of the
unit vectors has the angle `-M_PI`, and `getMaxAngularDistanceDeg()` is `-180`, which is
not in `(-180, 180]`. -/
theorem getMaxAngularDistanceDeg_attains_minus_180 :
    northSouthPicture.getMaxAngularDistanceDegDouble = .ok (-180) ∧
    ¬ (∃ d : ℝ, northSouthPicture.getMaxAngularDistanceDegDouble = .ok d ∧
      -180 < d ∧ d ≤ 180) := by
  obtain ⟨hM0, hM1, _, _⟩ := M_PI_lt_pi
  have hval : northSouthPicture.getMaxAngularDistanceDegDouble = .ok (-180) := by
    rw [getMaxAngularDistanceDegDouble_eq northSouthPicture
      (vesselAt "north" ((M_PI : ℝ) / 2) (1 / 64))
      (vesselAt "south" (-(M_PI : ℝ) / 2) (1 / 64)) rfl rfl]
    simp only [RelativeVessel.getBearing, vesselAt]
    rw [polar_div]
    have e : -(M_PI : ℝ) / 2 - (M_PI : ℝ) / 2 = -(M_PI : ℝ) := by ring
    rw [e]
    have harg : atan2 (Complex.exp (((-(M_PI : ℝ) : ℝ) : ℂ) * Complex.I)).im
        (Complex.exp (((-(M_PI : ℝ) : ℝ) : ℂ) * Complex.I)).re = -(M_PI : ℝ) := by
      have := arg_eq (Complex.exp (((-(M_PI : ℝ) : ℝ) : ℂ) * Complex.I))
      unfold arg at this
      rw [this, Complex.arg_exp_mul_I]
      rw [toIocMod_eq_self]
      constructor
      · linarith
      · linarith
    unfold argDouble
    rw [atan2Double_mid _ _ (by rw [harg]) (by rw [harg]; linarith), harg]
    congr 1
    field_simp
    ring
  refine ⟨hval, ?_⟩
  rintro ⟨d, hd, hlt, _⟩
  rw [hval] at hd
  have : (-180 : ℝ) = d := by
    injection hd
  rw [← this] at hlt
  exact lt_irrefl _ hlt

/-- C14, amended.  For a picture with a first and a last vessel
`getMaxAngularDistanceDeg()` lies in the closed interval `[-180, 180]`; and when the two
bearings lie in `[-M_PI, M_PI]`, as every bearing the constructor computes does, it is,
within `1e-9` degrees, the difference of the last and the first bearing in degrees plus a
multiple of 360 (one turn forth or back, or none). -/
theorem getMaxAngularDistanceDeg_closed (p : Picture ℝ) (first last : RelativeVessel ℝ)
    (h1 : front p.vessels = .ok first) (h2 : back p.vessels = .ok last) :
    ∃ d : ℝ, p.getMaxAngularDistanceDegDouble = .ok d ∧ -180 ≤ d ∧ d ≤ 180 ∧
      (-(M_PI : ℝ) ≤ first.getBearing → first.getBearing ≤ (M_PI : ℝ) →
        -(M_PI : ℝ) ≤ last.getBearing → last.getBearing ≤ (M_PI : ℝ) →
        ∃ k : ℤ, (k = -1 ∨ k = 0 ∨ k = 1) ∧
          |d - ((last.getBearing - first.getBearing) * 180 / (M_PI : ℝ) + 360 * (k : ℝ))|
            ≤ 1 / 10 ^ 9) := by
  obtain ⟨hM0, hM1, hM2, hM3⟩ := M_PI_lt_pi
  obtain ⟨c, hc⟩ : ∃ c : ℝ, c = argDouble (polar 1 last.getBearing / polar 1 first.getBearing) :=
    ⟨_, rfl⟩
  have hr := atan2Double_range
    (polar 1 last.getBearing / polar 1 first.getBearing).im
    (polar 1 last.getBearing / polar 1 first.getBearing).re
  have hcdef : c = atan2Double (polar 1 last.getBearing / polar 1 first.getBearing).im
      (polar 1 last.getBearing / polar 1 first.getBearing).re := hc
  rw [← hcdef] at hr
  obtain ⟨hc1, hc2, hc3⟩ := hr
  refine ⟨c * 180 / (M_PI : ℝ), ?_, ?_, ?_, ?_⟩
  · rw [getMaxAngularDistanceDegDouble_eq p first last h1 h2, hc]
  · rw [le_div_iff₀ hM0]
    linarith
  · rw [div_le_iff₀ hM0]
    linarith
  intro hf1 hf2 hl1 hl2
  have hMv := M_PI_cast
  have hM3' : (3 : ℝ) < (M_PI : ℝ) := by rw [hMv]; norm_num
  obtain ⟨Δ, hΔ⟩ : ∃ Δ : ℝ, Δ = last.getBearing - first.getBearing := ⟨_, rfl⟩
  have hΔ1 : -(2 * (M_PI : ℝ)) ≤ Δ := by rw [hΔ]; linarith
  have hΔ2 : Δ ≤ 2 * (M_PI : ℝ) := by rw [hΔ]; linarith
  have hA : atan2 (polar 1 last.getBearing / polar 1 first.getBearing).im
      (polar 1 last.getBearing / polar 1 first.getBearing).re
      = toIocMod Real.two_pi_pos (-Real.pi) Δ := by
    have := arg_eq (polar 1 last.getBearing / polar 1 first.getBearing)
    unfold arg at this
    rw [this, polar_div, ← hΔ, Complex.arg_exp_mul_I]
  obtain ⟨A, hAdef⟩ : ∃ A : ℝ, A = toIocMod Real.two_pi_pos (-Real.pi) Δ := ⟨_, rfl⟩
  obtain ⟨kk, hkk⟩ : ∃ kk : ℤ, kk = toIocDiv Real.two_pi_pos (-Real.pi) Δ := ⟨_, rfl⟩
  have hmod := toIocMod_add_toIocDiv_zsmul Real.two_pi_pos (-Real.pi) Δ
  rw [zsmul_eq_mul, ← hAdef, ← hkk] at hmod
  have hAmem := toIocMod_mem_Ioc Real.two_pi_pos (-Real.pi) Δ
  rw [← hAdef] at hAmem
  obtain ⟨hA1, hA2⟩ := hAmem
  have hA2' : A ≤ Real.pi := by linarith
  rw [hA, ← hAdef] at hc3
  obtain ⟨hc3a, hc3b⟩ := abs_le.mp hc3
  have hpi3 : Real.pi < 4 := Real.pi_lt_four
  have hk1 : (kk : ℝ) < 2 := by
    by_contra hcon
    push_neg at hcon
    have : 2 * (2 * Real.pi) ≤ (kk : ℝ) * (2 * Real.pi) :=
      mul_le_mul_of_nonneg_right hcon (by positivity)
    linarith
  have hk2 : (-2 : ℝ) < (kk : ℝ) := by
    by_contra hcon
    push_neg at hcon
    have : (kk : ℝ) * (2 * Real.pi) ≤ -2 * (2 * Real.pi) :=
      mul_le_mul_of_nonneg_right hcon (by positivity)
    linarith
  have hk1' : kk < 2 := by exact_mod_cast hk1
  have hk2' : -2 < kk := by exact_mod_cast hk2
  have hkcases : kk = -1 ∨ kk = 0 ∨ kk = 1 := by omega
  refine ⟨-kk, ?_, ?_⟩
  · rcases hkcases with h | h | h <;> rw [h] <;> simp
  · rw [← hΔ]
    have hε0 : 0 < Real.pi - (M_PI : ℝ) := by linarith
    have key : c * 180 / (M_PI : ℝ) - (Δ * 180 / (M_PI : ℝ) + 360 * ((-kk : ℤ) : ℝ))
        = ((c - A) - 2 * (Real.pi - (M_PI : ℝ)) * (kk : ℝ)) * 180 / (M_PI : ℝ) := by
      rw [← hmod]
      push_cast
      field_simp
      ring
    rw [key, abs_le]
    have hkb1 : (kk : ℝ) ≤ 1 := by
      have : kk ≤ 1 := by omega
      exact_mod_cast this
    have hkb2 : (-1 : ℝ) ≤ (kk : ℝ) := by
      have : -1 ≤ kk := by omega
      exact_mod_cast this
    have hb1 : (c - A) - 2 * (Real.pi - (M_PI : ℝ)) * (kk : ℝ)
        ≤ 3 * (Real.pi - (M_PI : ℝ)) := by nlinarith
    have hb2 : -(3 * (Real.pi - (M_PI : ℝ)))
        ≤ (c - A) - 2 * (Real.pi - (M_PI : ℝ)) * (kk : ℝ) := by nlinarith
    constructor
    · rw [le_div_iff₀ hM0]
      linarith
    · rw [div_le_iff₀ hM0]
      linarith

/-- C14, amended, on the picture of a vessel due north followed by a vessel due south:
both bearings lie in `[-M_PI, M_PI]`, and the value lies in `[-180, 180]`, within `1e-9`
of the difference of the bearings in degrees plus a multiple of 360. -/
theorem getMaxAngularDistanceDeg_closed_witness :
    front northSouthPicture.vessels = .ok (vesselAt "north" ((M_PI : ℝ) / 2) (1 / 64)) ∧
    back northSouthPicture.vessels = .ok (vesselAt "south" (-(M_PI : ℝ) / 2) (1 / 64)) ∧
    ∃ d : ℝ, northSouthPicture.getMaxAngularDistanceDegDouble = .ok d ∧ -180 ≤ d ∧ d ≤ 180 ∧
      ∃ k : ℤ, (k = -1 ∨ k = 0 ∨ k = 1) ∧
        |d - (((vesselAt "south" (-(M_PI : ℝ) / 2) (1 / 64)).getBearing
            - (vesselAt "north" ((M_PI : ℝ) / 2) (1 / 64)).getBearing) * 180 / (M_PI : ℝ)
          + 360 * (k : ℝ))| ≤ 1 / 10 ^ 9 := by
  obtain ⟨hM0, _, _, _⟩ := M_PI_lt_pi
  obtain ⟨d, hd, hd1, hd2, himp⟩ := getMaxAngularDistanceDeg_closed northSouthPicture
    (vesselAt "north" ((M_PI : ℝ) / 2) (1 / 64))
    (vesselAt "south" (-(M_PI : ℝ) / 2) (1 / 64)) rfl rfl
  refine ⟨rfl, rfl, d, hd, hd1, hd2, himp ?_ ?_ ?_ ?_⟩
  · simp only [RelativeVessel.getBearing, vesselAt]
    linarith
  · simp only [RelativeVessel.getBearing, vesselAt]
    linarith
  · simp only [RelativeVessel.getBearing, vesselAt]
    linarith
  · simp only [RelativeVessel.getBearing, vesselAt]
    linarith

end DoubleDistanceClaims

/-! ## The field of view of a full turn, in the arithmetic of `double` -/

section FullTurn

/-- C21, evaluated on the code.  For a field of view of 360° and the single vessel
`southWest` (margin 0, bearing -135°), which meets the preconditions, the `double` sum
`b + 0 + (2*M_PI - b) + 0` is `6.283185307179585`, one unit in the last place below the
field of view `360 * (M_PI / 180) = 6.283185307179586`: the only picture is merged into
itself and removed, and `makePictures` returns the empty list.  In exact arithmetic
the sum is `2 * M_PI` and the picture is returned. -/
theorem makePictures_full_turn_lost :
    roundDouble (360 * roundDouble (M_PI / 180)) = 884279719003555 / 140737488355328 ∧
    roundDouble (roundDouble (roundDouble (southWest.getBearing + southWest.getMargin)
        + roundDouble (roundDouble (2 * M_PI) - southWest.getBearing))
      + southWest.getMargin) = 7074237752028439 / 1125899906842624 ∧
    makePicturesDouble 360 [southWest] = .ok [] ∧
    makePictures M_PI 360 [southWest]
      = .ok [Picture.ofRange (360 * (M_PI / 180)) [southWest]] ∧
    (0 : ℚ) < 360 ∧ (360 : ℚ) ≤ 360 ∧ 0 ≤ southWest.getMargin ∧
    -M_PI < southWest.getBearing ∧ southWest.getBearing ≤ M_PI ∧
    2 * southWest.getMargin < roundDouble (360 * roundDouble (M_PI / 180)) := by
  refine ⟨by decide!, by decide!, by decide!, by decide!, by decide!, by decide!, by decide!,
    by decide!, by decide!, by decide!⟩

end FullTurn

end gimbaledCamera
